import Mathlib

/-!
Verification of the local auto-correction reconciler
(`local_auto_correct.py`): a shallow embedding of the record data model,
the seven correction appliers, the correction orchestrator, the
disposition predicates and the batch driver, together with proofs of the
behavioural properties stated in the specification.
-/

namespace LAC

/-- A JSON-like dynamic value, used for report fields whose truthiness or
identity (not typed content) drives the control flow. -/
inductive JValue where
  | null
  | bool (b : Bool)
  | num (n : Int)
  | str (s : String)
  | arr (elems : List JValue)
  | obj (fields : List (String × JValue))

/-- Python truthiness of a JSON value. -/
def pyTruthy : JValue → Bool
  | .null => false
  | .bool b => b
  | .num n => n != 0
  | .str s => s != ""
  | .arr xs => !xs.isEmpty
  | .obj kvs => !kvs.isEmpty

/-- Decimal digits of a natural number, most significant first, with
explicit fuel (`n + 1` steps always suffice since the argument shrinks
by a factor of ten per step). -/
def natReprAux : Nat → Nat → List Char
  | _, 0 => []
  | n, fuel + 1 =>
    if n < 10 then [Nat.digitChar n]
    else natReprAux (n / 10) fuel ++ [Nat.digitChar (n % 10)]

/-- Decimal rendering of a natural number (Python's `str`). -/
def natRepr (n : Nat) : List Char := natReprAux n (n + 1)

def natReprS (n : Nat) : String := String.mk (natRepr n)

/-- Python `str` of an integer. -/
def intReprS : Int → String
  | .ofNat m => natReprS m
  | .negSucc m => "-" ++ natReprS (m + 1)

mutual

/-- Python `repr` of a JSON value (the rendering `str` falls back to for
non-string values). -/
def pyRepr : JValue → String
  | .null => "None"
  | .bool true => "True"
  | .bool false => "False"
  | .num n => intReprS n
  | .str s => "'" ++ s ++ "'"
  | .arr xs => "[" ++ pyReprList xs ++ "]"
  | .obj kvs => "\x7b" ++ pyReprFields kvs ++ "\x7d"

def pyReprList : List JValue → String
  | [] => ""
  | [x] => pyRepr x
  | x :: y :: xs => pyRepr x ++ ", " ++ pyReprList (y :: xs)

def pyReprFields : List (String × JValue) → String
  | [] => ""
  | [(k, v)] => "'" ++ k ++ "': " ++ pyRepr v
  | (k, v) :: y :: xs => "'" ++ k ++ "': " ++ pyRepr v ++ ", " ++ pyReprFields (y :: xs)

end

/-- Python `str()` coercion of a JSON value. -/
def pyStr : JValue → String
  | .str s => s
  | v => pyRepr v

/-- One affiliation object of a creator (`affiliations[]` entry). -/
structure Affiliation where
  name : Option String
deriving DecidableEq, Repr

/-- The `person_or_org` identity sub-object of a creator. -/
structure PersonOrOrg where
  type : Option String
  name : Option String
deriving DecidableEq, Repr

/-- A creator object in `metadata.creators[]`. -/
structure Creator where
  person_or_org : PersonOrOrg
  affiliations : List Affiliation
deriving DecidableEq, Repr

/-- A related-identifier object in `metadata.related_identifiers[]`.
`identifier` is the join field the applier deduplicates on; `rest` stands
for the remaining keys of the object (scheme, relation type, ...). -/
structure RelatedIdentifier where
  identifier : Option String
  rest : List (String × String)
deriving DecidableEq, Repr

/-- The `metadata` sub-mapping of a record. -/
structure Metadata where
  title : Option String
  description : Option String
  publication_date : Option String
  creators : List Creator
  related_identifiers : Option (List RelatedIdentifier)
deriving DecidableEq, Repr

/-- The descriptor custom field: either one delimited string, a list of
strings, or an unrecognized shape. -/
inductive DescriptorField where
  | str (s : String)
  | list (l : List String)
  | other (v : JValue)

/-- The `custom_fields` sub-mapping of a record
(key `iaea:descriptors_cai_text`). -/
structure CustomFields where
  descriptors : Option DescriptorField

/-- A bibliographic record document. -/
structure Record where
  metadata : Option Metadata
  custom_fields : Option CustomFields

def emptyMetadata : Metadata := ⟨none, none, none, [], none⟩

/-- `record.get("metadata", {})` / `record.setdefault("metadata", {})`. -/
def mtd (r : Record) : Metadata := r.metadata.getD emptyMetadata

def titleVal (r : Record) : String := (mtd r).title.getD ""

def descrVal (r : Record) : String := (mtd r).description.getD ""

def dateVal (r : Record) : String := (mtd r).publication_date.getD ""

def creatorsOf (r : Record) : List Creator := (mtd r).creators

def relatedOf (r : Record) : Option (List RelatedIdentifier) :=
  (mtd r).related_identifiers

def descOf (r : Record) : Option DescriptorField :=
  (r.custom_fields.getD ⟨none⟩).descriptors

/-- `apply_title`: no-op on a falsy or textually identical correction,
otherwise overwrite `metadata.title`. -/
def apply_title (r : Record) (c : String) : Bool × Record :=
  if c = "" then (false, r)
  else
    let m := mtd r
    if m.title.getD "" = c then (false, {r with metadata := some m})
    else (true, {r with metadata := some {m with title := some c}})

/-- `apply_abstract`: same contract on `metadata.description`. -/
def apply_abstract (r : Record) (c : String) : Bool × Record :=
  if c = "" then (false, r)
  else
    let m := mtd r
    if m.description.getD "" = c then (false, {r with metadata := some m})
    else (true, {r with metadata := some {m with description := some c}})

/-- `apply_publication_date`: same contract on `metadata.publication_date`. -/
def apply_publication_date (r : Record) (c : String) : Bool × Record :=
  if c = "" then (false, r)
  else
    let m := mtd r
    if m.publication_date.getD "" = c then (false, {r with metadata := some m})
    else (true, {r with metadata := some {m with publication_date := some c}})

/-- One `{old_affiliation, recommended_affiliation}` pair of
`affiliation_corrections` (absent keys read as `""`). -/
structure AffPair where
  old_affiliation : String
  recommended_affiliation : String
deriving DecidableEq, Repr

/-- One `{old_organizational_author, recommended_organizational_author}`
pair of `organizational_author_corrections`. -/
structure OrgPair where
  old_organizational_author : String
  recommended_organizational_author : String
deriving DecidableEq, Repr

/-- Rewrite one affiliation entry: `affiliation.get("name","") == old_aff`
triggers `affiliation["name"] = new_aff` and counts one application. -/
def rewriteAff (oldA newA : String) (a : Affiliation) : Affiliation × Nat :=
  if a.name.getD "" = oldA then ({a with name := some newA}, 1) else (a, 0)

/-- Rewrite all matching affiliations of one creator, counting matches. -/
def rewriteCreatorAffs (oldA newA : String) (c : Creator) : Creator × Nat :=
  let res := c.affiliations.map (rewriteAff oldA newA)
  ({c with affiliations := res.map (·.1)}, (res.map (·.2)).sum)

/-- Apply one valid affiliation pair across every creator. -/
def applyAffPair (oldA newA : String) (cs : List Creator) : List Creator × Nat :=
  let res := cs.map (rewriteCreatorAffs oldA newA)
  (res.map (·.1), (res.map (·.2)).sum)

/-- Fold the affiliation pairs in order, skipping pairs with an empty
side (`if not old_aff or not new_aff: continue`). -/
def applyAffPairs (pairs : List AffPair) (cs : List Creator) : List Creator × Nat :=
  match pairs with
  | [] => (cs, 0)
  | p :: rest =>
    if p.old_affiliation = "" ∨ p.recommended_affiliation = "" then
      applyAffPairs rest cs
    else
      let r1 := applyAffPair p.old_affiliation p.recommended_affiliation cs
      let r2 := applyAffPairs rest r1.1
      (r2.1, r1.2 + r2.2)

/-- `apply_affiliations`: rewrite matching creator affiliations in place,
returning the count of rewritten entries. -/
def apply_affiliations (r : Record) (cors : List AffPair) : Nat × Record :=
  if cors = [] then (0, r)
  else
    match r.metadata with
    | none => (0, r)
    | some m =>
      let res := applyAffPairs cors m.creators
      (res.2, {r with metadata := some {m with creators := res.1}})

/-- Rewrite one creator's organizational-author name:
matches only `person_or_org.type == "organizational"` with equal name. -/
def rewriteOrgCreator (oldO newO : String) (c : Creator) : Creator × Nat :=
  let p := c.person_or_org
  if p.type = some "organizational" ∧ p.name = some oldO then
    ({c with person_or_org := {p with name := some newO}}, 1)
  else (c, 0)

/-- Apply one valid organizational-author pair across every creator. -/
def applyOrgPair (oldO newO : String) (cs : List Creator) : List Creator × Nat :=
  let res := cs.map (rewriteOrgCreator oldO newO)
  (res.map (·.1), (res.map (·.2)).sum)

/-- Fold the organizational-author pairs in order, skipping pairs with an
empty side. -/
def applyOrgPairs (pairs : List OrgPair) (cs : List Creator) : List Creator × Nat :=
  match pairs with
  | [] => (cs, 0)
  | p :: rest =>
    if p.old_organizational_author = "" ∨ p.recommended_organizational_author = "" then
      applyOrgPairs rest cs
    else
      let r1 := applyOrgPair p.old_organizational_author p.recommended_organizational_author cs
      let r2 := applyOrgPairs rest r1.1
      (r2.1, r1.2 + r2.2)

/-- `apply_org_authors`: rewrite matching organizational creator names,
returning the match count. -/
def apply_org_authors (r : Record) (cors : List OrgPair) : Nat × Record :=
  if cors = [] then (0, r)
  else
    match r.metadata with
    | none => (0, r)
    | some m =>
      let res := applyOrgPairs cors m.creators
      (res.2, {r with metadata := some {m with creators := res.1}})

def isSpc (c : Char) : Bool := c.isWhitespace

/-- Python `str.strip()` on a character list. -/
def stripChars (l : List Char) : List Char :=
  ((l.dropWhile isSpc).reverse.dropWhile isSpc).reverse

/-- `descriptors.replace(";", ",")` on a character list. -/
def replSemi (l : List Char) : List Char :=
  l.map (fun c => if c = ';' then ',' else c)

/-- Python `str.split(",")` on a character list. -/
def splitCommas : List Char → List (List Char)
  | [] => [[]]
  | c :: rest =>
    match splitCommas rest with
    | [] => [[]]
    | cur :: done => if c = ',' then [] :: cur :: done else (c :: cur) :: done

/-- The stripped, non-empty chunks of a comma-separated character list. -/
def parsedChunks (l : List Char) : List (List Char) :=
  ((splitCommas l).map stripChars).filter (fun d => !d.isEmpty)

/-- The read direction of the descriptor string representation:
`[d.strip() for d in descriptors.replace(";", ",").split(",") if d.strip()]`. -/
def parseDescriptors (s : String) : List String :=
  (parsedChunks (replSemi s.toList)).map String.mk

/-- Python `"; ".join` on chunk character lists. -/
def joinSemiChars : List (List Char) → List Char
  | [] => []
  | [d] => d
  | d :: e :: ds => d ++ ';' :: ' ' :: joinSemiChars (e :: ds)

/-- The write direction of the descriptor string representation. -/
def joinDescriptors (ds : List String) : String :=
  String.mk (joinSemiChars (ds.map String.toList))

/-- Truthiness of the descriptor field value (`if not descriptors`). -/
def descTruthy : DescriptorField → Bool
  | .str s => s != ""
  | .list l => !l.isEmpty
  | .other v => pyTruthy v

/-- Python `str.lower()` (character-wise lowering). -/
def strLower (s : String) : String := String.mk (s.toList.map Char.toLower)

/-- `{d.lower() for d in deletions if d}`. -/
def delsLower (dels : List String) : List String :=
  (dels.filter (fun d => d != "")).map strLower

/-- The filter keeping descriptors whose lowercase form is not marked for
deletion (`d.lower() not in deletions_lower`). -/
def keepDescriptor (dels : List String) (d : String) : Bool :=
  !((delsLower dels).contains (strLower d))

/-- `apply_descriptor_deletions`: delete matching descriptors
case-insensitively, preserving the string/list storage representation. -/
def apply_descriptor_deletions (r : Record) (dels : List String) : Bool × Record :=
  if dels = [] then (false, r)
  else
    let cf := r.custom_fields.getD ⟨none⟩
    match cf.descriptors with
    | none => (false, r)
    | some df =>
      if !descTruthy df then (false, r)
      else
        match df with
        | .str s =>
          let dlist := parseDescriptors s
          let filtered := dlist.filter (keepDescriptor dels)
          if filtered.length = dlist.length then (false, r)
          else
            let cf2 := {cf with descriptors := some (.str (joinDescriptors filtered))}
            (true, {r with custom_fields := some cf2})
        | .list l =>
          let filtered := l.filter (keepDescriptor dels)
          if filtered.length = l.length then (false, r)
          else
            let cf2 := {cf with descriptors := some (.list filtered)}
            (true, {r with custom_fields := some cf2})
        | .other _ => (false, r)

/-- `ri.get("identifier", "")`. -/
def identOf (e : RelatedIdentifier) : String := e.identifier.getD ""

/-- The appending loop of `add_related_identifiers`: `existing` is the
growing list, `seen` the set of identifier strings already present. -/
def addRelLoop (ids : List RelatedIdentifier) (existing : List RelatedIdentifier)
    (seen : List String) (added : Nat) : List RelatedIdentifier × Nat :=
  match ids with
  | [] => (existing, added)
  | e :: rest =>
    if identOf e ≠ "" ∧ ¬ seen.contains (identOf e) then
      addRelLoop rest (existing ++ [e]) (seen ++ [identOf e]) (added + 1)
    else
      addRelLoop rest existing seen added

/-- `add_related_identifiers`: append identifier objects whose identifier
is non-empty and not already present; returns the count added. -/
def add_related_identifiers (r : Record) (ids : List RelatedIdentifier) : Nat × Record :=
  if ids = [] then (0, r)
  else
    let m := mtd r
    let existing := m.related_identifiers.getD []
    let res := addRelLoop ids existing (existing.map identOf) 0
    (res.2, {r with metadata := some {m with related_identifiers := some res.1}})

/-- The `delete_descriptor` correction payload: a string or a list. -/
inductive DelDescriptor where
  | one (s : String)
  | many (l : List String)

/-- The `related_identifiers` correction payload: an object or a list. -/
inductive RelPayload where
  | one (r : RelatedIdentifier)
  | many (l : List RelatedIdentifier)

/-- The `corrections` sub-mapping of a QA report (`none` = key absent). -/
structure Corrections where
  title : Option String
  abstract : Option String
  publication_date : Option String
  delete_descriptor : Option DelDescriptor
  related_identifiers : Option RelPayload

def emptyCorrections : Corrections := ⟨none, none, none, none, none⟩

/-- A QA report document. Gate flags and scope/duplicate flags keep their
dynamic JSON value since only truthiness or identity is consulted. -/
structure Report where
  record_id : Option JValue
  corrections : Corrections
  title_corrected : Option JValue
  abstract_corrected : Option JValue
  date_corrected : Option JValue
  descriptor_corrected : Option JValue
  affiliation_correction_recommended : Option JValue
  affiliation_corrections : List AffPair
  organizational_author_corrections : List OrgPair
  scope_ok : Option JValue
  duplicate_by_title : Option JValue
  duplicate_by_doi : Option JValue
  recommendations : List String

def emptyReport : Report :=
  ⟨none, emptyCorrections, none, none, none, none, none, [], [], none, none, none, []⟩

/-- A gate flag read with `report.get(flag, True)`: absent defaults to
true, otherwise Python truthiness. -/
def gateOn : Option JValue → Bool
  | none => true
  | some v => pyTruthy v

/-- Truthiness of an optional report field (`report.get(flag)` then an
implicit bool context). -/
def truthyOpt : Option JValue → Bool
  | none => false
  | some v => pyTruthy v

/-- Truthiness of a related-identifier object (a dict is truthy iff
non-empty). -/
def relIdTruthy (e : RelatedIdentifier) : Bool :=
  e.identifier.isSome || !e.rest.isEmpty

/-- Truthiness of the raw `related_identifiers` payload (`if related:`). -/
def relPayloadTruthy : RelPayload → Bool
  | .one e => relIdTruthy e
  | .many l => !l.isEmpty

/-- `if not isinstance(related, list): related = [related]`. -/
def coerceRel : RelPayload → List RelatedIdentifier
  | .one e => [e]
  | .many l => l

/-- Coerce the `delete_descriptor` payload to a list
(`if isinstance(deletions, str): deletions = [deletions]`). -/
def coerceDel : DelDescriptor → List String
  | .one s => [s]
  | .many l => l

/-- The running state of `apply_corrections`: the changed flag, the two
narrative lists, and the record being mutated. -/
structure ApplyResult where
  changed : Bool
  actions : List String
  unapplied : List String
  record : Record

def affMsg (n : Nat) : String := "Affiliations corrected (" ++ natReprS n ++ ")"

def orgMsg (n : Nat) : String := "Organizational authors corrected (" ++ natReprS n ++ ")"

def relMsg (n : Nat) : String := "Related identifiers added (" ++ natReprS n ++ ")"

/-- The `"title" in corrections` block of `apply_corrections`. -/
def titleStep (rep : Report) (st : ApplyResult) : ApplyResult :=
  match rep.corrections.title with
  | none => st
  | some c =>
    if gateOn rep.title_corrected then
      let res := apply_title st.record c
      if res.1 then
        {st with changed := true, actions := st.actions ++ ["Title corrected"],
                 record := res.2}
      else {st with record := res.2}
    else
      {st with unapplied :=
        st.unapplied ++ ["Title correction present but title_corrected=false"]}

/-- The `"abstract" in corrections` block. -/
def abstractStep (rep : Report) (st : ApplyResult) : ApplyResult :=
  match rep.corrections.abstract with
  | none => st
  | some c =>
    if gateOn rep.abstract_corrected then
      let res := apply_abstract st.record c
      if res.1 then
        {st with changed := true, actions := st.actions ++ ["Abstract corrected"],
                 record := res.2}
      else {st with record := res.2}
    else
      {st with unapplied :=
        st.unapplied ++ ["Abstract correction present but abstract_corrected=false"]}

/-- The `"publication_date" in corrections` block. -/
def dateStep (rep : Report) (st : ApplyResult) : ApplyResult :=
  match rep.corrections.publication_date with
  | none => st
  | some c =>
    if gateOn rep.date_corrected then
      let res := apply_publication_date st.record c
      if res.1 then
        {st with changed := true,
                 actions := st.actions ++ ["Publication date corrected"],
                 record := res.2}
      else {st with record := res.2}
    else
      {st with unapplied :=
        st.unapplied ++ ["Publication date correction present but date_corrected=false"]}

/-- The `"delete_descriptor" in corrections` block. -/
def descStep (rep : Report) (st : ApplyResult) : ApplyResult :=
  match rep.corrections.delete_descriptor with
  | none => st
  | some payload =>
    if gateOn rep.descriptor_corrected then
      let res := apply_descriptor_deletions st.record (coerceDel payload)
      if res.1 then
        {st with changed := true, actions := st.actions ++ ["Descriptors deleted"],
                 record := res.2}
      else {st with record := res.2}
    else
      {st with unapplied :=
        st.unapplied ++ ["Descriptor deletions present but descriptor_corrected=false"]}

/-- The affiliation-corrections block, gated by
`affiliation_correction_recommended` (default true). -/
def affStep (rep : Report) (st : ApplyResult) : ApplyResult :=
  let cors := rep.affiliation_corrections
  if gateOn rep.affiliation_correction_recommended then
    let res := apply_affiliations st.record cors
    if res.1 > 0 then
      {st with changed := true, actions := st.actions ++ [affMsg res.1],
               record := res.2}
    else if !cors.isEmpty then
      {st with record := res.2, unapplied :=
        st.unapplied ++ ["Affiliation corrections present but no matches found"]}
    else {st with record := res.2}
  else if !cors.isEmpty then
    {st with unapplied := st.unapplied ++
      ["Affiliation corrections present but affiliation_correction_recommended=false"]}
  else st

/-- The organizational-author-corrections block (no gate flag). -/
def orgStep (rep : Report) (st : ApplyResult) : ApplyResult :=
  let cors := rep.organizational_author_corrections
  if cors.isEmpty then st
  else
    let res := apply_org_authors st.record cors
    if res.1 > 0 then
      {st with changed := true, actions := st.actions ++ [orgMsg res.1],
               record := res.2}
    else
      {st with record := res.2, unapplied :=
        st.unapplied ++ ["Organizational author corrections present but no matches found"]}

/-- The related-identifiers block (no gate flag; falsy payload skipped). -/
def relStep (rep : Report) (st : ApplyResult) : ApplyResult :=
  match rep.corrections.related_identifiers with
  | none => st
  | some p =>
    if relPayloadTruthy p then
      let res := add_related_identifiers st.record (coerceRel p)
      if res.1 > 0 then
        {st with changed := true, actions := st.actions ++ [relMsg res.1],
                 record := res.2}
      else {st with record := res.2}
    else st

/-- `apply_corrections`: the orchestrator, running the seven field blocks
in their fixed source order. -/
def apply_corrections (r : Record) (rep : Report) : ApplyResult :=
  relStep rep (orgStep rep (affStep rep (descStep rep
    (dateStep rep (abstractStep rep (titleStep rep ⟨false, [], [], r⟩))))))

/-- `should_move_out_of_scope`: `report.get("scope_ok") is False`. -/
def should_move_out_of_scope (rep : Report) : Bool :=
  match rep.scope_ok with
  | some (.bool false) => true
  | _ => false

/-- `duplicate_reason`: "title and doi" / "title" / "doi" / none. -/
def duplicate_reason (rep : Report) : Option String :=
  let t := truthyOpt rep.duplicate_by_title
  let d := truthyOpt rep.duplicate_by_doi
  if t && d then some "title and doi"
  else if t then some "title"
  else if d then some "doi"
  else none

/-- `should_move_duplicate`: `bool(duplicate_reason(report))`. -/
def should_move_duplicate (rep : Report) : Bool :=
  (duplicate_reason rep).isSome

/-- `stem[:-7] if stem.endswith("-report") else stem`. -/
def stemDropReport (stem : String) : String :=
  let l := stem.toList
  if ("-report".toList).isSuffixOf l then String.mk (l.take (l.length - 7))
  else stem

/-- `report_key`: the explicit `record_id` coerced to string when truthy,
else the stem with a trailing `-report` removed. -/
def report_key (stem : String) (rep : Report) : String :=
  match rep.record_id with
  | some v => if pyTruthy v then pyStr v else stemDropReport stem
  | none => stemDropReport stem

/-- The state of one quarantine destination folder. -/
structure DirState where
  created : Bool
  files : List String
deriving DecidableEq, Repr

/-- The snapshot of the filesystem as the batch driver sees it: the files
of the records directory (name, parsed JSON content or `none` for an
unparseable file), the two quarantine folders, and whether the Markdown
audit report has been written. -/
structure FS where
  records : List (String × Option Record)
  outDir : DirState
  dupDir : DirState
  reportWritten : Bool

/-- The directory names the driver was configured with. -/
structure DirNames where
  recordsDir : String
  outName : String
  dupName : String

def FS.getDest (fs : FS) (toOut : Bool) : DirState :=
  if toOut then fs.outDir else fs.dupDir

def FS.setDest (fs : FS) (toOut : Bool) (d : DirState) : FS :=
  if toOut then {fs with outDir := d} else {fs with dupDir := d}

/-- `Path.stem` and `Path.suffix` of a file name: split at the last dot
when it is neither leading nor trailing. -/
def nameSplit (name : String) : String × String :=
  let l := name.toList
  if ('.' ∈ l) then
    let j := l.reverse.findIdx (fun c => c = '.')
    let i := l.length - 1 - j
    if 0 < i ∧ i < l.length - 1 then (String.mk (l.take i), String.mk (l.drop i))
    else (name, "")
  else (name, "")

/-- The collision probe of `safe_move`: try `{stem}_{i}{suffix}` for
`i = 1, 2, ...` until an unused name is found (the fuel bounds the search;
`files.length + 1` probes always suffice since candidates are distinct). -/
def probeLoop (files : List String) (stm sfx : String) : Nat → Nat → String
  | 0, i => stm ++ "_" ++ natReprS i ++ sfx
  | fuel + 1, i =>
    let cand := stm ++ "_" ++ natReprS i ++ sfx
    if files.contains cand then probeLoop files stm sfx fuel (i + 1) else cand

/-- `safe_move`: create the destination folder (also in dry-run mode),
resolve a name collision by numeric suffixing, and move the file unless
dry-running. -/
def safe_move (fs : FS) (toOut : Bool) (srcName : String) (dry : Bool) : FS :=
  let d0 := fs.getDest toOut
  let d1 : DirState := {d0 with created := true}
  let destName :=
    if d1.files.contains srcName then
      let sp := nameSplit srcName
      probeLoop d1.files sp.1 sp.2 (d1.files.length + 1) 1
    else srcName
  let fs1 := fs.setDest toOut d1
  if dry then fs1
  else
    let fs2 := {fs1 with records := fs1.records.filter (fun p => p.1 ≠ srcName)}
    fs2.setDest toOut {d1 with files := d1.files ++ [destName]}

def recordFileName (key : String) : String := key ++ ".json"

/-- `find_record_file`: does `records_dir/<key>.json` exist? -/
def find_record_file (fs : FS) (key : String) : Bool :=
  fs.records.any (fun p => p.1 = recordFileName key)

/-- `save_json`: overwrite the record file content unless dry-running. -/
def save_json (fs : FS) (name : String) (r : Record) (dry : Bool) : FS :=
  if dry then fs
  else {fs with records := fs.records.map (fun p => if p.1 = name then (name, some r) else p)}

/-- Does a record-directory file name match the relocation glob
`{key}.*`? -/
def globMatch (key name : String) : Bool :=
  (key.toList ++ ['.']).isPrefixOf name.toList

/-- One per-key audit entry of the batch driver. -/
structure Entry where
  key : String
  record_path : Option String
  report_path : String
  actions : List String
  recommendations : List String
  unapplied : List String
deriving DecidableEq, Repr

/-- The aggregate counters of one run. -/
structure Stats where
  processed : Nat
  corrected : Nat
  moved_out : Nat
  moved_dup : Nat
  missing : Nat
deriving DecidableEq, Repr

/-- The accumulating state of the driver's main loop. -/
structure RunState where
  fs : FS
  stats : Stats
  entries : List Entry

/-- The loop body of `process` for one `(key, report)` pair of the report
map. -/
def processKey (cfg : DirNames) (dry : Bool) (key : String) (rep : Report)
    (repPath : String) (st : RunState) : RunState :=
  match st.fs.records.lookup (recordFileName key) with
  | none =>
    { st with
      stats := {st.stats with missing := st.stats.missing + 1},
      entries := st.entries ++
        [⟨key, none, repPath, ["Record JSON missing"], rep.recommendations, []⟩] }
  | some none => st
  | some (some record) =>
    let recPath := cfg.recordsDir ++ "/" ++ recordFileName key
    let res := apply_corrections record rep
    let stats1 := {st.stats with processed := st.stats.processed + 1}
    let stats2 :=
      if res.changed then {stats1 with corrected := stats1.corrected + 1} else stats1
    let fs1 :=
      if res.changed then save_json st.fs (recordFileName key) res.record dry else st.fs
    let mOut := should_move_out_of_scope rep
    let mDup := should_move_duplicate rep
    if mOut || mDup then
      let globbed := (fs1.records.filter (fun p => globMatch key p.1)).map (fun p => p.1)
      let fs2 := globbed.foldl (fun f n => safe_move f mOut n dry) fs1
      let stats3 :=
        if mOut then {stats2 with moved_out := stats2.moved_out + 1}
        else {stats2 with moved_dup := stats2.moved_dup + 1}
      let actions2 :=
        if mOut then res.actions ++ ["Moved to " ++ cfg.outName]
        else res.actions ++
          ["Moved to " ++ cfg.dupName ++ " (duplicate by " ++
            (duplicate_reason rep).getD "unknown" ++ ")"]
      let actions3 := if actions2.isEmpty then ["No changes applied"] else actions2
      ⟨fs2, stats3, st.entries ++
        [⟨key, some recPath, repPath, actions3, rep.recommendations, res.unapplied⟩]⟩
    else
      let actions3 := if res.actions.isEmpty then ["No changes applied"] else res.actions
      ⟨fs1, stats2, st.entries ++
        [⟨key, some recPath, repPath, actions3, rep.recommendations, res.unapplied⟩]⟩

/-- One QA report file as read from the QA directory: its path string,
its filename stem, and its parse result (`none` = invalid JSON). -/
structure ReportFile where
  path : String
  stem : String
  data : Option Report

/-- Python-dict insertion: replace in place on an existing key, else
append. -/
def upsert (m : List (String × Report × String)) (k : String) (v : Report × String) :
    List (String × Report × String) :=
  if m.any (fun p => p.1 = k) then
    m.map (fun p => if p.1 = k then (k, v) else p)
  else m ++ [(k, v)]

/-- Build the keyed report map: skip unparseable reports and reports whose
derived key is falsy. -/
def buildMap (files : List ReportFile) : List (String × Report × String) :=
  files.foldl
    (fun m f =>
      match f.data with
      | none => m
      | some rep =>
        let k := report_key f.stem rep
        if k = "" then m else upsert m k (rep, f.path))
    []

def zeroStats : Stats := ⟨0, 0, 0, 0, 0⟩

/-- `process`: build the report map, run the loop body per key, and write
the Markdown report (written in dry-run mode too). With no report files
the function returns before writing anything. -/
def processRun (cfg : DirNames) (dry : Bool) (fs0 : FS) (files : List ReportFile) :
    RunState :=
  if files.isEmpty then ⟨fs0, zeroStats, []⟩
  else
    let m := buildMap files
    let st := m.foldl (fun s e => processKey cfg dry e.1 e.2.1 e.2.2 s) ⟨fs0, zeroStats, []⟩
    {st with fs := {st.fs with reportWritten := true}}

/-! ### Helper lemmas about the scalar appliers -/

theorem apply_title_noop (r : Record) (c : String) (h : c = "" ∨ c = titleVal r) :
    apply_title r c = (false, r) := by
  rcases h with rfl | h
  · simp [apply_title]
  · by_cases hc : c = ""
    · simp [apply_title, hc]
    · rcases r with ⟨md, cf⟩
      cases md with
      | none =>
        exfalso
        apply hc
        simpa [titleVal, mtd, emptyMetadata] using h
      | some m =>
        simp only [apply_title, if_neg hc]
        rw [if_pos]
        · rfl
        · simpa [titleVal, mtd] using h.symm

theorem apply_title_hit (r : Record) (c : String) (hc : c ≠ "") (h : c ≠ titleVal r) :
    apply_title r c = (true, {r with metadata := some {mtd r with title := some c}}) := by
  simp only [apply_title, if_neg hc]
  rw [if_neg]
  intro hx
  exact h (by simpa [titleVal] using hx.symm)

theorem apply_abstract_noop (r : Record) (c : String) (h : c = "" ∨ c = descrVal r) :
    apply_abstract r c = (false, r) := by
  rcases h with rfl | h
  · simp [apply_abstract]
  · by_cases hc : c = ""
    · simp [apply_abstract, hc]
    · rcases r with ⟨md, cf⟩
      cases md with
      | none =>
        exfalso
        apply hc
        simpa [descrVal, mtd, emptyMetadata] using h
      | some m =>
        simp only [apply_abstract, if_neg hc]
        rw [if_pos]
        · rfl
        · simpa [descrVal, mtd] using h.symm

theorem apply_abstract_hit (r : Record) (c : String) (hc : c ≠ "") (h : c ≠ descrVal r) :
    apply_abstract r c = (true, {r with metadata := some {mtd r with description := some c}}) := by
  simp only [apply_abstract, if_neg hc]
  rw [if_neg]
  intro hx
  exact h (by simpa [descrVal] using hx.symm)

theorem apply_publication_date_noop (r : Record) (c : String) (h : c = "" ∨ c = dateVal r) :
    apply_publication_date r c = (false, r) := by
  rcases h with rfl | h
  · simp [apply_publication_date]
  · by_cases hc : c = ""
    · simp [apply_publication_date, hc]
    · rcases r with ⟨md, cf⟩
      cases md with
      | none =>
        exfalso
        apply hc
        simpa [dateVal, mtd, emptyMetadata] using h
      | some m =>
        simp only [apply_publication_date, if_neg hc]
        rw [if_pos]
        · rfl
        · simpa [dateVal, mtd] using h.symm

theorem apply_publication_date_hit (r : Record) (c : String) (hc : c ≠ "")
    (h : c ≠ dateVal r) :
    apply_publication_date r c =
      (true, {r with metadata := some {mtd r with publication_date := some c}}) := by
  simp only [apply_publication_date, if_neg hc]
  rw [if_neg]
  intro hx
  exact h (by simpa [dateVal] using hx.symm)

/-! ### Claim C6 -/

/-- C6: the title, abstract and publication-date appliers return false and
leave the record unchanged on an empty/falsy correction or on one
case-sensitively equal to the current value; otherwise they overwrite
exactly that metadata field and return true; they never delete the
field. -/
theorem spec_c6_scalar_appliers (r : Record) (c : String) :
    ((c = "" ∨ c = titleVal r) → apply_title r c = (false, r))
  ∧ (c ≠ "" → c ≠ titleVal r →
      apply_title r c = (true, {r with metadata := some {mtd r with title := some c}}))
  ∧ ((mtd r).title.isSome → (mtd (apply_title r c).2).title.isSome)
  ∧ ((c = "" ∨ c = descrVal r) → apply_abstract r c = (false, r))
  ∧ (c ≠ "" → c ≠ descrVal r →
      apply_abstract r c = (true, {r with metadata := some {mtd r with description := some c}}))
  ∧ ((mtd r).description.isSome → (mtd (apply_abstract r c).2).description.isSome)
  ∧ ((c = "" ∨ c = dateVal r) → apply_publication_date r c = (false, r))
  ∧ (c ≠ "" → c ≠ dateVal r →
      apply_publication_date r c =
        (true, {r with metadata := some {mtd r with publication_date := some c}}))
  ∧ ((mtd r).publication_date.isSome → (mtd (apply_publication_date r c).2).publication_date.isSome) := by
  refine ⟨apply_title_noop r c, apply_title_hit r c, ?_,
          apply_abstract_noop r c, apply_abstract_hit r c, ?_,
          apply_publication_date_noop r c, apply_publication_date_hit r c, ?_⟩
  · intro h
    by_cases hc : c = ""
    · rw [apply_title_noop r c (Or.inl hc)]
      exact h
    · by_cases ht : c = titleVal r
      · rw [apply_title_noop r c (Or.inr ht)]
        exact h
      · rw [apply_title_hit r c hc ht]
        simp [mtd]
  · intro h
    by_cases hc : c = ""
    · rw [apply_abstract_noop r c (Or.inl hc)]
      exact h
    · by_cases ht : c = descrVal r
      · rw [apply_abstract_noop r c (Or.inr ht)]
        exact h
      · rw [apply_abstract_hit r c hc ht]
        simp [mtd]
  · intro h
    by_cases hc : c = ""
    · rw [apply_publication_date_noop r c (Or.inl hc)]
      exact h
    · by_cases ht : c = dateVal r
      · rw [apply_publication_date_noop r c (Or.inr ht)]
        exact h
      · rw [apply_publication_date_hit r c hc ht]
        simp [mtd]

/-- Witness for C6 at the spec's own scenario: record with title "Old",
correction "New". -/
theorem spec_c6_scalar_appliers_witness :
    apply_title ⟨some ⟨some "Old", none, none, [], none⟩, none⟩ "New" =
      (true, ⟨some ⟨some "New", none, none, [], none⟩, none⟩) := by
  have h := (spec_c6_scalar_appliers ⟨some ⟨some "Old", none, none, [], none⟩, none⟩ "New").2.1
  rw [h (by decide) (by decide)]
  rfl

/-! ### Claim C7 -/

/-- The string content of the descriptor field, when it is stored as a
string. -/
def descStrOf (r : Record) : Option String :=
  match descOf r with
  | some (.str s) => some s
  | _ => none

/-- The list content of the descriptor field, when it is stored as a
list. -/
def descListOf (r : Record) : Option (List String) :=
  match descOf r with
  | some (.list l) => some l
  | _ => none

theorem keepDescriptor_iff (dels : List String) (d : String) :
    keepDescriptor dels d = true ↔ ∀ x ∈ dels, x ≠ "" → strLower x ≠ strLower d := by
  simp only [keepDescriptor, delsLower, Bool.not_eq_true']
  rw [← Bool.not_eq_true, List.elem_iff]
  simp only [List.mem_map, List.mem_filter, bne_iff_ne, ne_eq, not_exists]
  constructor
  · intro h x hx hne heq
    exact h x ⟨⟨hx, hne⟩, heq⟩
  · rintro h x ⟨⟨hx, hne⟩, heq⟩
    exact h x hx hne heq

theorem keepDescriptor_eq_decide (dels : List String) (d : String) :
    keepDescriptor dels d = decide (∀ x ∈ dels, x ≠ "" → strLower x ≠ strLower d) := by
  cases hk : keepDescriptor dels d
  · symm
    rw [decide_eq_false_iff_not]
    intro hp
    rw [(keepDescriptor_iff dels d).2 hp] at hk
    cases hk
  · symm
    rw [decide_eq_true_eq]
    exact (keepDescriptor_iff dels d).1 hk

/-- The deletion filter the way the spec describes it: keep a descriptor
unless some non-empty deletion equals it case-insensitively. -/
def specKeep (dels : List String) (d : String) : Bool :=
  decide (∀ x ∈ dels, x ≠ "" → strLower x ≠ strLower d)

theorem apply_desc_str_eq (r : Record) (dels : List String) (s : String)
    (hd : dels ≠ []) (h : descOf r = some (.str s)) (hs : s ≠ "")
    (hlen : ((parseDescriptors s).filter (keepDescriptor dels)).length ≠
      (parseDescriptors s).length) :
    apply_descriptor_deletions r dels =
      (true, {r with custom_fields := some {r.custom_fields.getD ⟨none⟩ with
        descriptors := some (.str (joinDescriptors
          ((parseDescriptors s).filter (keepDescriptor dels))))}}) := by
  simp only [descOf] at h
  simp only [apply_descriptor_deletions, if_neg hd, h]
  have hs' : (descTruthy (.str s)) = true := by simpa [descTruthy, bne_iff_ne] using hs
  rw [hs']
  simp only [Bool.not_true, Bool.false_eq_true, if_false, if_neg hlen]

theorem apply_desc_list_eq (r : Record) (dels : List String) (l : List String)
    (hd : dels ≠ []) (h : descOf r = some (.list l)) (hs : l ≠ [])
    (hlen : (l.filter (keepDescriptor dels)).length ≠ l.length) :
    apply_descriptor_deletions r dels =
      (true, {r with custom_fields := some {r.custom_fields.getD ⟨none⟩ with
        descriptors := some (.list (l.filter (keepDescriptor dels)))}}) := by
  simp only [descOf] at h
  simp only [apply_descriptor_deletions, if_neg hd, h]
  have hs' : (descTruthy (.list l)) = true := by
    simpa [descTruthy, List.isEmpty_iff] using hs
  rw [hs']
  simp only [Bool.not_true, Bool.false_eq_true, if_false, if_neg hlen]

theorem apply_desc_noop (r : Record) (dels : List String)
    (h : dels = [] ∨ descOf r = none ∨
      (∃ df, descOf r = some df ∧ descTruthy df = false) ∨
      (∃ v, descOf r = some (.other v)) ∨
      (∃ s, descOf r = some (.str s) ∧
        ((parseDescriptors s).filter (keepDescriptor dels)).length =
          (parseDescriptors s).length) ∨
      (∃ l, descOf r = some (.list l) ∧
        (l.filter (keepDescriptor dels)).length = l.length)) :
    apply_descriptor_deletions r dels = (false, r) := by
  by_cases hd : dels = []
  · simp [apply_descriptor_deletions, hd]
  rcases h with h | h | ⟨df, h, ht⟩ | ⟨v, h⟩ | ⟨s, h, hlen⟩ | ⟨l, h, hlen⟩
  · exact absurd h hd
  · simp only [descOf] at h
    simp [apply_descriptor_deletions, if_neg hd, h]
  · simp only [descOf] at h
    simp only [apply_descriptor_deletions, if_neg hd, h, ht]
    rfl
  · simp only [descOf] at h
    by_cases ht : descTruthy (.other v)
    · simp only [apply_descriptor_deletions, if_neg hd, h, ht]
      rfl
    · simp only [Bool.not_eq_true] at ht
      simp only [apply_descriptor_deletions, if_neg hd, h, ht]
      rfl
  · simp only [descOf] at h
    by_cases ht : descTruthy (.str s)
    · simp only [apply_descriptor_deletions, if_neg hd, h, ht]
      simp only [Bool.not_true, Bool.false_eq_true, if_false, if_pos hlen]
    · simp only [Bool.not_eq_true] at ht
      simp only [apply_descriptor_deletions, if_neg hd, h, ht]
      rfl
  · simp only [descOf] at h
    by_cases ht : descTruthy (.list l)
    · simp only [apply_descriptor_deletions, if_neg hd, h, ht]
      simp only [Bool.not_true, Bool.false_eq_true, if_false, if_pos hlen]
    · simp only [Bool.not_eq_true] at ht
      simp only [apply_descriptor_deletions, if_neg hd, h, ht]
      rfl

/-- C7: descriptor deletion preserves the storage representation (string
stays string, list stays list), matches case-insensitively by exact value,
returns false when the field is absent/falsy or nothing matches, and
treats an unrecognized field shape as a non-fatal no-op. -/
theorem spec_c7_descriptor_deletions (r : Record) (dels : List String) :
    (descOf r = none → apply_descriptor_deletions r dels = (false, r))
  ∧ (∀ df, descOf r = some df → descTruthy df = false →
      apply_descriptor_deletions r dels = (false, r))
  ∧ (∀ v, descOf r = some (.other v) → apply_descriptor_deletions r dels = (false, r))
  ∧ (∀ s, descOf r = some (.str s) →
      ((parseDescriptors s).filter (keepDescriptor dels)).length =
        (parseDescriptors s).length →
      apply_descriptor_deletions r dels = (false, r))
  ∧ (∀ l, descOf r = some (.list l) →
      (l.filter (keepDescriptor dels)).length = l.length →
      apply_descriptor_deletions r dels = (false, r))
  ∧ (∀ s, descOf r = some (.str s) → (apply_descriptor_deletions r dels).1 = true →
      descStrOf (apply_descriptor_deletions r dels).2 =
        some (joinDescriptors ((parseDescriptors s).filter (specKeep dels))))
  ∧ (∀ l, descOf r = some (.list l) → (apply_descriptor_deletions r dels).1 = true →
      descListOf (apply_descriptor_deletions r dels).2 =
        some (l.filter (specKeep dels))) := by
  have hfil : ∀ l : List String, l.filter (keepDescriptor dels) = l.filter (specKeep dels) :=
    fun l => List.filter_congr (fun a _ => keepDescriptor_eq_decide dels a)
  refine ⟨fun h => apply_desc_noop r dels (Or.inr (Or.inl h)),
          fun df h ht => apply_desc_noop r dels (Or.inr (Or.inr (Or.inl ⟨df, h, ht⟩))),
          fun v h => apply_desc_noop r dels
            (Or.inr (Or.inr (Or.inr (Or.inl ⟨v, h⟩)))),
          fun s h hlen => apply_desc_noop r dels
            (Or.inr (Or.inr (Or.inr (Or.inr (Or.inl ⟨s, h, hlen⟩))))),
          fun l h hlen => apply_desc_noop r dels
            (Or.inr (Or.inr (Or.inr (Or.inr (Or.inr ⟨l, h, hlen⟩))))),
          fun s h hch => ?_, fun l h hch => ?_⟩
  · by_cases hd : dels = []
    · rw [apply_desc_noop r dels (Or.inl hd)] at hch
      cases hch
    by_cases hs : s = ""
    · rw [apply_desc_noop r dels (Or.inr (Or.inr (Or.inl
        ⟨.str s, h, by simp [descTruthy, hs]⟩)))] at hch
      cases hch
    by_cases hlen : ((parseDescriptors s).filter (keepDescriptor dels)).length =
      (parseDescriptors s).length
    · rw [apply_desc_noop r dels (Or.inr (Or.inr (Or.inr (Or.inr (Or.inl
        ⟨s, h, hlen⟩)))))] at hch
      cases hch
    · rw [apply_desc_str_eq r dels s hd h hs hlen, hfil]
      rfl
  · by_cases hd : dels = []
    · rw [apply_desc_noop r dels (Or.inl hd)] at hch
      cases hch
    by_cases hs : l = []
    · rw [apply_desc_noop r dels (Or.inr (Or.inr (Or.inl
        ⟨.list l, h, by simp [descTruthy, hs]⟩)))] at hch
      cases hch
    by_cases hlen : (l.filter (keepDescriptor dels)).length = l.length
    · rw [apply_desc_noop r dels (Or.inr (Or.inr (Or.inr (Or.inr (Or.inr
        ⟨l, h, hlen⟩)))))] at hch
      cases hch
    · rw [apply_desc_list_eq r dels l hd h hs hlen, hfil]
      rfl

/-- Witness for C7: a string-stored field stays a string (re-serialized
with "; "), a list-stored field stays a list, both under a
case-insensitive deletion. -/
theorem spec_c7_descriptor_deletions_witness :
    descStrOf (apply_descriptor_deletions
        ⟨none, some ⟨some (.str "Alpha; beta, GAMMA")⟩⟩ ["BETA"]).2 =
      some "Alpha; GAMMA"
  ∧ descListOf (apply_descriptor_deletions
        ⟨none, some ⟨some (.list ["Alpha", "beta"])⟩⟩ ["BETA"]).2 =
      some ["Alpha"] := by
  constructor
  · have h := (spec_c7_descriptor_deletions
      ⟨none, some ⟨some (.str "Alpha; beta, GAMMA")⟩⟩ ["BETA"]).2.2.2.2.2.1
    rw [h "Alpha; beta, GAMMA" (by rfl) (by decide)]
    decide
  · have h := (spec_c7_descriptor_deletions
      ⟨none, some ⟨some (.list ["Alpha", "beta"])⟩⟩ ["BETA"]).2.2.2.2.2.2
    rw [h ["Alpha", "beta"] (by rfl) (by decide)]
    decide

/-! ### Claim C4 -/

/-- The related-identifiers sequence of a record (empty when absent). -/
def relListOf (r : Record) : List RelatedIdentifier := (relatedOf r).getD []

theorem addRelLoop_decomp (ids : List RelatedIdentifier) :
    ∀ (existing : List RelatedIdentifier) (added0 : Nat),
    ∃ tail, addRelLoop ids existing (existing.map identOf) added0 =
        (existing ++ tail, added0 + tail.length) ∧
      tail.Sublist ids ∧
      (∀ e ∈ tail, identOf e ≠ "" ∧ identOf e ∉ existing.map identOf) ∧
      (tail.map identOf).Nodup := by
  induction ids with
  | nil =>
    intro existing added0
    exact ⟨[], by simp [addRelLoop], by simp, by simp, by simp⟩
  | cons e rest ih =>
    intro existing added0
    by_cases hc : identOf e ≠ "" ∧ ¬ (existing.map identOf).contains (identOf e)
    · have hseen : (existing.map identOf) ++ [identOf e] = (existing ++ [e]).map identOf := by
        simp
      obtain ⟨tail, heq, hsub, hmem, hnd⟩ := ih (existing ++ [e]) (added0 + 1)
      have hnotmem : identOf e ∉ existing.map identOf := by
        intro hx
        exact hc.2 ((List.elem_iff).2 hx)
      refine ⟨e :: tail, ?_, hsub.cons₂ e, ?_, ?_⟩
      · rw [addRelLoop, if_pos hc, hseen, heq]
        simp [List.append_assoc]
        omega
      · intro x hx0
        rcases List.mem_cons.1 hx0 with rfl | hx
        · exact ⟨hc.1, hnotmem⟩
        · have := hmem x hx
          refine ⟨this.1, fun hmem2 => this.2 ?_⟩
          simp only [List.map_append, List.map_cons, List.map_nil, List.mem_append]
          exact Or.inl hmem2
      · rw [List.map_cons, List.nodup_cons]
        refine ⟨?_, hnd⟩
        intro hx
        obtain ⟨t, ht, hti⟩ := List.mem_map.1 hx
        have := (hmem t ht).2
        apply this
        simp [hti]
    · obtain ⟨tail, heq, hsub, hmem, hnd⟩ := ih existing added0
      refine ⟨tail, ?_, hsub.cons e, hmem, hnd⟩
      rw [addRelLoop, if_neg hc, heq]

/-- C4 (amended): the pre-existing sequence is a prefix of the output,
newly added entries appear in input order, only entries with a non-empty
identifier not already present are added, the added identifiers are
pairwise distinct and disjoint from the existing ones, the returned count
is the number of appended entries — and the output is duplicate-free
whenever the existing identifiers were (pre-existing duplicates are
retained, contrary to the unconditional claim). -/
theorem spec_c4_related_identifiers (r : Record) (ids : List RelatedIdentifier) :
    (relListOf (add_related_identifiers r ids).2).take (relListOf r).length = relListOf r
  ∧ ((relListOf (add_related_identifiers r ids).2).drop (relListOf r).length).Sublist ids
  ∧ (∀ e ∈ (relListOf (add_related_identifiers r ids).2).drop (relListOf r).length,
      identOf e ≠ "" ∧ identOf e ∉ (relListOf r).map identOf)
  ∧ (((relListOf (add_related_identifiers r ids).2).drop (relListOf r).length).map
      identOf).Nodup
  ∧ (((relListOf r).map identOf).Nodup →
      ((relListOf (add_related_identifiers r ids).2).map identOf).Nodup)
  ∧ (add_related_identifiers r ids).1 =
      (relListOf (add_related_identifiers r ids).2).length - (relListOf r).length := by
  by_cases hids : ids = []
  · subst hids
    simp [add_related_identifiers]
  · obtain ⟨tail, heq, hsub, hmem, hnd⟩ :=
      addRelLoop_decomp ids ((mtd r).related_identifiers.getD []) 0
    have hres : add_related_identifiers r ids =
        (tail.length,
          {r with metadata := some {mtd r with related_identifiers := some ((mtd r).related_identifiers.getD [] ++ tail)}}) := by
      rw [add_related_identifiers, if_neg hids]
      simp only [heq, Nat.zero_add]
    have hout : relListOf (add_related_identifiers r ids).2 =
        relListOf r ++ tail := by
      rw [hres]
      simp [relListOf, relatedOf, mtd]
    have hexeq : relListOf r = (mtd r).related_identifiers.getD [] := by
      simp [relListOf, relatedOf]
    rw [hout]
    refine ⟨List.take_left _ _, ?_, ?_, ?_, ?_, ?_⟩
    · rw [List.drop_left]
      exact hsub
    · rw [List.drop_left]
      intro e he
      rw [hexeq]
      exact hmem e he
    · rw [List.drop_left]
      exact hnd
    · intro hnodup
      rw [List.map_append, List.nodup_append]
      refine ⟨hnodup, hnd, ?_⟩
      intro x hx hx2
      obtain ⟨t, ht, hti⟩ := List.mem_map.1 hx2
      apply (hmem t ht).2
      rw [hti, ← hexeq]
      exact hx
    · rw [hres]
      simp

/-- Counterexample to C4 as stated: a record whose existing sequence
already contains a duplicate identifier keeps it, so the output sequence
is not duplicate-free. -/
theorem spec_c4_counterexample :
    (relListOf (add_related_identifiers
        ⟨some ⟨none, none, none, [], some [⟨some "X", []⟩, ⟨some "X", []⟩]⟩, none⟩
        [⟨some "Y", []⟩]).2).map identOf = ["X", "X", "Y"]
  ∧ ¬ ((relListOf (add_related_identifiers
        ⟨some ⟨none, none, none, [], some [⟨some "X", []⟩, ⟨some "X", []⟩]⟩, none⟩
        [⟨some "Y", []⟩]).2).map identOf).Nodup := by
  constructor
  · decide
  · decide

/-- Witness for C4: on a duplicate-free record the amended theorem yields
a duplicate-free output. -/
theorem spec_c4_related_identifiers_witness :
    ((relListOf (add_related_identifiers
        ⟨some ⟨none, none, none, [], some [⟨some "A", []⟩]⟩, none⟩
        [⟨some "B", []⟩, ⟨some "B", []⟩, ⟨some "A", []⟩, ⟨none, []⟩]).2).map
      identOf).Nodup :=
  (spec_c4_related_identifiers
    ⟨some ⟨none, none, none, [], some [⟨some "A", []⟩]⟩, none⟩
    [⟨some "B", []⟩, ⟨some "B", []⟩, ⟨some "A", []⟩, ⟨none, []⟩]).2.2.2.2.1 (by decide)


theorem natReprAux_ne_nil (n fuel : Nat) : natReprAux n (fuel + 1) ≠ [] := by
  rw [natReprAux]
  split
  · simp
  · simp

theorem natReprS_ne_empty (n : Nat) : natReprS n ≠ "" := by
  intro h
  have h2 := congrArg String.data h
  simp only [natReprS] at h2
  exact natReprAux_ne_nil n n h2

theorem pyStr_ne_empty (v : JValue) (h : pyTruthy v = true) : pyStr v ≠ "" := by
  cases v with
  | null => simp [pyTruthy] at h
  | bool b =>
    cases b with
    | true => simp [pyStr, pyRepr]
    | false => simp [pyTruthy] at h
  | num n =>
    cases n with
    | ofNat m =>
      simpa [pyStr, pyRepr, intReprS] using natReprS_ne_empty m
    | negSucc m =>
      simp only [pyStr, pyRepr, intReprS]
      intro hx
      have h2 := congrArg String.data hx
      simp at h2
  | str s =>
    simpa [pyTruthy, bne_iff_ne] using h
  | arr xs =>
    simp only [pyStr, pyRepr]
    intro hx
    have h2 := congrArg String.data hx
    simp at h2
  | obj kvs =>
    simp only [pyStr, pyRepr]
    intro hx
    have h2 := congrArg String.data hx
    simp at h2


theorem stemDropReport_suffix (stem : String)
    (h : ("-report".toList).isSuffixOf stem.toList = true) :
    ∃ pre, stem.toList = pre ++ "-report".toList ∧ stemDropReport stem = String.mk pre := by
  obtain ⟨pre, hpre⟩ := (List.isSuffixOf_iff_suffix).1 h
  refine ⟨pre, hpre.symm, ?_⟩
  rw [stemDropReport, if_pos h, ← hpre]
  have hlen : (pre ++ "-report".toList).length = pre.length + 7 := by
    simp
  rw [hlen]
  have : pre.length + 7 - 7 = pre.length := by omega
  rw [this, List.take_left]

theorem stemDropReport_ne_empty (stem : String) (h1 : stem ≠ "") (h2 : stem ≠ "-report") :
    stemDropReport stem ≠ "" := by
  cases hsuf : ("-report".toList).isSuffixOf stem.toList with
  | false =>
    simp only [stemDropReport, hsuf, Bool.false_eq_true, if_false]
    exact h1
  | true =>
    obtain ⟨pre, hpre, heq⟩ := stemDropReport_suffix stem hsuf
    rw [heq]
    intro hx
    have hdata := congrArg String.data hx
    simp only at hdata
    apply h2
    rw [String.ext_iff]
    have hlist : stem.toList = "-report".toList := by
      rw [hpre, hdata]
      rfl
    exact hlist


theorem spec_c9_report_key (stem : String) (rep : Report) :
    (∀ v, rep.record_id = some v → pyTruthy v = true →
      report_key stem rep = pyStr v ∧ report_key stem rep ≠ "")
  ∧ (∀ v, rep.record_id = some v → pyTruthy v = false →
      report_key stem rep = stemDropReport stem)
  ∧ (rep.record_id = none → report_key stem rep = stemDropReport stem)
  ∧ (("-report".toList).isSuffixOf stem.toList = true →
      ∃ pre, stem.toList = pre ++ "-report".toList ∧ stemDropReport stem = String.mk pre)
  ∧ (("-report".toList).isSuffixOf stem.toList = false → stemDropReport stem = stem)
  ∧ (stem ≠ "" → stem ≠ "-report" → report_key stem rep ≠ "") := by
  refine ⟨?_, ?_, ?_, stemDropReport_suffix stem, ?_, ?_⟩
  · intro v hv ht
    constructor
    · simp [report_key, hv, ht]
    · simpa [report_key, hv, ht] using pyStr_ne_empty v ht
  · intro v hv ht
    simp [report_key, hv, ht]
  · intro hv
    simp [report_key, hv]
  · intro hsuf
    simp only [stemDropReport, hsuf, Bool.false_eq_true, if_false]
  · intro h1 h2
    rcases hv : rep.record_id with _ | v
    · rw [report_key, hv]
      exact stemDropReport_ne_empty stem h1 h2
    · cases ht : pyTruthy v with
      | true =>
        simpa [report_key, hv, ht] using pyStr_ne_empty v ht
      | false =>
        simpa [report_key, hv, ht] using stemDropReport_ne_empty stem h1 h2

theorem spec_c9_counterexample : report_key "-report" emptyReport = "" := by decide

theorem spec_c9_report_key_witness :
    report_key "x-report" {emptyReport with record_id := some (.str "id9")} = "id9"
  ∧ report_key "x-report" emptyReport ≠ "" := by
  constructor
  · exact ((spec_c9_report_key "x-report"
      {emptyReport with record_id := some (.str "id9")}).1 (.str "id9") rfl (by decide)).1
  · exact (spec_c9_report_key "x-report" emptyReport).2.2.2.2.2
      (by decide) (by decide)

/-! ### Frame lemmas about the appliers -/

/-- The affiliation-name matrix of a record: one row per creator, one
entry per affiliation. -/
def affNamesOf (r : Record) : List (List (Option String)) :=
  (creatorsOf r).map (fun c => c.affiliations.map Affiliation.name)

theorem apply_title_frame (r : Record) (c : String) :
    (apply_title r c).2.custom_fields = r.custom_fields
  ∧ creatorsOf (apply_title r c).2 = creatorsOf r
  ∧ relatedOf (apply_title r c).2 = relatedOf r
  ∧ (mtd (apply_title r c).2).description = (mtd r).description
  ∧ (mtd (apply_title r c).2).publication_date = (mtd r).publication_date := by
  simp only [apply_title]
  split
  · simp
  · split <;> simp [creatorsOf, relatedOf, mtd]

theorem apply_abstract_frame (r : Record) (c : String) :
    (apply_abstract r c).2.custom_fields = r.custom_fields
  ∧ creatorsOf (apply_abstract r c).2 = creatorsOf r
  ∧ relatedOf (apply_abstract r c).2 = relatedOf r
  ∧ (mtd (apply_abstract r c).2).title = (mtd r).title
  ∧ (mtd (apply_abstract r c).2).publication_date = (mtd r).publication_date := by
  simp only [apply_abstract]
  split
  · simp
  · split <;> simp [creatorsOf, relatedOf, mtd]

theorem apply_publication_date_frame (r : Record) (c : String) :
    (apply_publication_date r c).2.custom_fields = r.custom_fields
  ∧ creatorsOf (apply_publication_date r c).2 = creatorsOf r
  ∧ relatedOf (apply_publication_date r c).2 = relatedOf r
  ∧ (mtd (apply_publication_date r c).2).title = (mtd r).title
  ∧ (mtd (apply_publication_date r c).2).description = (mtd r).description := by
  simp only [apply_publication_date]
  split
  · simp
  · split <;> simp [creatorsOf, relatedOf, mtd]

theorem apply_desc_metadata (r : Record) (dels : List String) :
    (apply_descriptor_deletions r dels).2.metadata = r.metadata := by
  simp only [apply_descriptor_deletions]
  split
  · rfl
  · split
    · rfl
    · split
      · rfl
      · split <;> (try split) <;> rfl

theorem applyAffPairs_nil_creators (pairs : List AffPair) :
    applyAffPairs pairs [] = ([], 0) := by
  induction pairs with
  | nil => rfl
  | cons p rest ih =>
    rw [applyAffPairs]
    split
    · exact ih
    · simp only [applyAffPair, List.map_nil, List.sum_nil, ih]

theorem applyOrgPairs_nil_creators (pairs : List OrgPair) :
    applyOrgPairs pairs [] = ([], 0) := by
  induction pairs with
  | nil => rfl
  | cons p rest ih =>
    rw [applyOrgPairs]
    split
    · exact ih
    · simp only [applyOrgPair, List.map_nil, List.sum_nil, ih]

theorem applyAffPair_porg (oldA newA : String) (cs : List Creator) :
    ((applyAffPair oldA newA cs).1).map Creator.person_or_org =
      cs.map Creator.person_or_org := by
  simp only [applyAffPair, List.map_map]
  apply List.map_congr_left
  intro c _
  simp [rewriteCreatorAffs, Function.comp]

theorem applyAffPair_affLens (oldA newA : String) (cs : List Creator) :
    ((applyAffPair oldA newA cs).1).map (fun c => c.affiliations.length) =
      cs.map (fun c => c.affiliations.length) := by
  simp only [applyAffPair, List.map_map]
  apply List.map_congr_left
  intro c _
  simp [rewriteCreatorAffs, Function.comp]

theorem applyAffPairs_porg (pairs : List AffPair) (cs : List Creator) :
    ((applyAffPairs pairs cs).1).map Creator.person_or_org =
      cs.map Creator.person_or_org := by
  induction pairs generalizing cs with
  | nil => rfl
  | cons p rest ih =>
    rw [applyAffPairs]
    split
    · exact ih cs
    · rw [ih (applyAffPair p.old_affiliation p.recommended_affiliation cs).1,
        applyAffPair_porg]

theorem applyAffPairs_affLens (pairs : List AffPair) (cs : List Creator) :
    ((applyAffPairs pairs cs).1).map (fun c => c.affiliations.length) =
      cs.map (fun c => c.affiliations.length) := by
  induction pairs generalizing cs with
  | nil => rfl
  | cons p rest ih =>
    rw [applyAffPairs]
    split
    · exact ih cs
    · rw [ih (applyAffPair p.old_affiliation p.recommended_affiliation cs).1,
        applyAffPair_affLens]

theorem applyOrgPair_affs (oldO newO : String) (cs : List Creator) :
    ((applyOrgPair oldO newO cs).1).map Creator.affiliations =
      cs.map Creator.affiliations := by
  simp only [applyOrgPair, List.map_map]
  apply List.map_congr_left
  intro c _
  simp only [Function.comp_apply, rewriteOrgCreator]
  split <;> rfl

theorem applyOrgPairs_affs (pairs : List OrgPair) (cs : List Creator) :
    ((applyOrgPairs pairs cs).1).map Creator.affiliations =
      cs.map Creator.affiliations := by
  induction pairs generalizing cs with
  | nil => rfl
  | cons p rest ih =>
    rw [applyOrgPairs]
    split
    · exact ih cs
    · rw [ih (applyOrgPair p.old_organizational_author
          p.recommended_organizational_author cs).1, applyOrgPair_affs]

theorem apply_affiliations_spec (r : Record) (cors : List AffPair) :
    (apply_affiliations r cors).1 = (applyAffPairs cors (creatorsOf r)).2
  ∧ creatorsOf (apply_affiliations r cors).2 = (applyAffPairs cors (creatorsOf r)).1
  ∧ (apply_affiliations r cors).2.custom_fields = r.custom_fields
  ∧ relatedOf (apply_affiliations r cors).2 = relatedOf r
  ∧ (mtd (apply_affiliations r cors).2).title = (mtd r).title
  ∧ (mtd (apply_affiliations r cors).2).description = (mtd r).description
  ∧ (mtd (apply_affiliations r cors).2).publication_date = (mtd r).publication_date := by
  rw [apply_affiliations]
  split
  · subst cors
    simp [applyAffPairs]
  · split
    · rename_i hmd
      simp [creatorsOf, mtd, hmd, emptyMetadata, applyAffPairs_nil_creators]
    · rename_i m hmd
      simp [creatorsOf, relatedOf, mtd, hmd]

theorem apply_org_authors_spec (r : Record) (cors : List OrgPair) :
    (apply_org_authors r cors).1 = (applyOrgPairs cors (creatorsOf r)).2
  ∧ creatorsOf (apply_org_authors r cors).2 = (applyOrgPairs cors (creatorsOf r)).1
  ∧ (apply_org_authors r cors).2.custom_fields = r.custom_fields
  ∧ relatedOf (apply_org_authors r cors).2 = relatedOf r
  ∧ (mtd (apply_org_authors r cors).2).title = (mtd r).title
  ∧ (mtd (apply_org_authors r cors).2).description = (mtd r).description
  ∧ (mtd (apply_org_authors r cors).2).publication_date = (mtd r).publication_date := by
  rw [apply_org_authors]
  split
  · subst cors
    simp [applyOrgPairs]
  · split
    · rename_i hmd
      simp [creatorsOf, mtd, hmd, emptyMetadata, applyOrgPairs_nil_creators]
    · rename_i m hmd
      simp [creatorsOf, relatedOf, mtd, hmd]

theorem add_related_frame (r : Record) (ids : List RelatedIdentifier) :
    (add_related_identifiers r ids).2.custom_fields = r.custom_fields
  ∧ creatorsOf (add_related_identifiers r ids).2 = creatorsOf r
  ∧ (mtd (add_related_identifiers r ids).2).title = (mtd r).title
  ∧ (mtd (add_related_identifiers r ids).2).description = (mtd r).description
  ∧ (mtd (add_related_identifiers r ids).2).publication_date = (mtd r).publication_date := by
  rw [add_related_identifiers]
  split
  · simp
  · simp [creatorsOf, mtd]

/-! ### Shape lemmas about the orchestrator steps -/

theorem titleStep_shape (rep : Report) (st : ApplyResult) :
    ∃ ta tu, (titleStep rep st).actions = st.actions ++ ta ∧
      (titleStep rep st).unapplied = st.unapplied ++ tu ∧
      (∀ x ∈ tu, x = "Title correction present but title_corrected=false") ∧
      creatorsOf (titleStep rep st).record = creatorsOf st.record ∧
      relatedOf (titleStep rep st).record = relatedOf st.record ∧
      (titleStep rep st).record.custom_fields = st.record.custom_fields := by
  rcases hco : rep.corrections.title with _ | c
  · simp only [titleStep, hco]
    exact ⟨[], [], by simp, by simp, by simp, by simp, by simp⟩
  · simp only [titleStep, hco]
    split
    · split
      · exact ⟨["Title corrected"], [], by simp, by simp, by simp,
          (apply_title_frame st.record c).2.1, (apply_title_frame st.record c).2.2.1,
          (apply_title_frame st.record c).1⟩
      · exact ⟨[], [], by simp, by simp, by simp,
          (apply_title_frame st.record c).2.1, (apply_title_frame st.record c).2.2.1,
          (apply_title_frame st.record c).1⟩
    · exact ⟨[], ["Title correction present but title_corrected=false"], by simp, by simp,
        by simp, by simp, by simp⟩

theorem abstractStep_shape (rep : Report) (st : ApplyResult) :
    ∃ ta tu, (abstractStep rep st).actions = st.actions ++ ta ∧
      (abstractStep rep st).unapplied = st.unapplied ++ tu ∧
      (∀ x ∈ tu, x = "Abstract correction present but abstract_corrected=false") ∧
      creatorsOf (abstractStep rep st).record = creatorsOf st.record ∧
      relatedOf (abstractStep rep st).record = relatedOf st.record ∧
      (abstractStep rep st).record.custom_fields = st.record.custom_fields := by
  rcases hco : rep.corrections.abstract with _ | c
  · simp only [abstractStep, hco]
    exact ⟨[], [], by simp, by simp, by simp, by simp, by simp⟩
  · simp only [abstractStep, hco]
    split
    · split
      · exact ⟨["Abstract corrected"], [], by simp, by simp, by simp,
          (apply_abstract_frame st.record c).2.1, (apply_abstract_frame st.record c).2.2.1,
          (apply_abstract_frame st.record c).1⟩
      · exact ⟨[], [], by simp, by simp, by simp,
          (apply_abstract_frame st.record c).2.1, (apply_abstract_frame st.record c).2.2.1,
          (apply_abstract_frame st.record c).1⟩
    · exact ⟨[], ["Abstract correction present but abstract_corrected=false"], by simp,
        by simp, by simp, by simp, by simp⟩

theorem dateStep_shape (rep : Report) (st : ApplyResult) :
    ∃ ta tu, (dateStep rep st).actions = st.actions ++ ta ∧
      (dateStep rep st).unapplied = st.unapplied ++ tu ∧
      (∀ x ∈ tu, x = "Publication date correction present but date_corrected=false") ∧
      creatorsOf (dateStep rep st).record = creatorsOf st.record ∧
      relatedOf (dateStep rep st).record = relatedOf st.record ∧
      (dateStep rep st).record.custom_fields = st.record.custom_fields := by
  rcases hco : rep.corrections.publication_date with _ | c
  · simp only [dateStep, hco]
    exact ⟨[], [], by simp, by simp, by simp, by simp, by simp⟩
  · simp only [dateStep, hco]
    split
    · split
      · exact ⟨["Publication date corrected"], [], by simp, by simp, by simp,
          (apply_publication_date_frame st.record c).2.1,
          (apply_publication_date_frame st.record c).2.2.1,
          (apply_publication_date_frame st.record c).1⟩
      · exact ⟨[], [], by simp, by simp, by simp,
          (apply_publication_date_frame st.record c).2.1,
          (apply_publication_date_frame st.record c).2.2.1,
          (apply_publication_date_frame st.record c).1⟩
    · exact ⟨[], ["Publication date correction present but date_corrected=false"], by simp,
        by simp, by simp, by simp, by simp⟩

theorem descStep_shape (rep : Report) (st : ApplyResult) :
    ∃ ta tu, (descStep rep st).actions = st.actions ++ ta ∧
      (descStep rep st).unapplied = st.unapplied ++ tu ∧
      (∀ x ∈ tu, x = "Descriptor deletions present but descriptor_corrected=false") ∧
      (descStep rep st).record.metadata = st.record.metadata := by
  rcases hco : rep.corrections.delete_descriptor with _ | payload
  · simp only [descStep, hco]
    exact ⟨[], [], by simp, by simp, by simp, by simp⟩
  · simp only [descStep, hco]
    split
    · split
      · exact ⟨["Descriptors deleted"], [], by simp, by simp, by simp,
          apply_desc_metadata st.record (coerceDel payload)⟩
      · exact ⟨[], [], by simp, by simp, by simp,
          apply_desc_metadata st.record (coerceDel payload)⟩
    · exact ⟨[], ["Descriptor deletions present but descriptor_corrected=false"], by simp,
        by simp, by simp, by simp⟩

theorem affs_map_name_congr {cs1 cs2 : List Creator}
    (h : cs1.map Creator.affiliations = cs2.map Creator.affiliations) :
    cs1.map (fun c => c.affiliations.map Affiliation.name) =
      cs2.map (fun c => c.affiliations.map Affiliation.name) := by
  have h1 : cs1.map (fun c => c.affiliations.map Affiliation.name) =
      (cs1.map Creator.affiliations).map (fun l => l.map Affiliation.name) := by
    rw [List.map_map]
    rfl
  have h2 : cs2.map (fun c => c.affiliations.map Affiliation.name) =
      (cs2.map Creator.affiliations).map (fun l => l.map Affiliation.name) := by
    rw [List.map_map]
    rfl
  rw [h1, h2, h]

theorem affStep_shape (rep : Report) (st : ApplyResult) :
    ∃ ta tu, (affStep rep st).actions = st.actions ++ ta ∧
      (affStep rep st).unapplied = st.unapplied ++ tu ∧
      (∀ x ∈ tu, x = "Affiliation corrections present but no matches found" ∨
        x = "Affiliation corrections present but affiliation_correction_recommended=false") ∧
      (gateOn rep.affiliation_correction_recommended = true →
        ∀ x ∈ tu, x = "Affiliation corrections present but no matches found") ∧
      (affStep rep st).record.custom_fields = st.record.custom_fields ∧
      relatedOf (affStep rep st).record = relatedOf st.record := by
  have hspec := apply_affiliations_spec st.record rep.affiliation_corrections
  cases hg : gateOn rep.affiliation_correction_recommended with
  | true =>
    simp only [affStep, hg, if_true]
    split
    · exact ⟨[affMsg (apply_affiliations st.record rep.affiliation_corrections).1], [],
        by simp, by simp, by simp, by simp, hspec.2.2.1, hspec.2.2.2.1⟩
    · split
      · exact ⟨[], ["Affiliation corrections present but no matches found"], by simp,
          by simp, by simp [List.mem_singleton], by simp, hspec.2.2.1, hspec.2.2.2.1⟩
      · exact ⟨[], [], by simp, by simp, by simp, by simp, hspec.2.2.1, hspec.2.2.2.1⟩
  | false =>
    simp only [affStep, hg, Bool.false_eq_true, if_false]
    split
    · refine ⟨[],
        ["Affiliation corrections present but affiliation_correction_recommended=false"],
        by simp, by simp, by simp, ?_, by simp, by simp⟩
      intro hgt
      cases hgt
    · exact ⟨[], [], by simp, by simp, by simp, by simp, by simp, by simp⟩

theorem orgStep_shape (rep : Report) (st : ApplyResult) :
    ∃ ta tu, (orgStep rep st).actions = st.actions ++ ta ∧
      (orgStep rep st).unapplied = st.unapplied ++ tu ∧
      (∀ x ∈ tu, x = "Organizational author corrections present but no matches found") ∧
      (orgStep rep st).record.custom_fields = st.record.custom_fields ∧
      relatedOf (orgStep rep st).record = relatedOf st.record ∧
      affNamesOf (orgStep rep st).record = affNamesOf st.record := by
  have hspec := apply_org_authors_spec st.record rep.organizational_author_corrections
  have haffs : affNamesOf (apply_org_authors st.record
      rep.organizational_author_corrections).2 = affNamesOf st.record := by
    rw [affNamesOf, affNamesOf, hspec.2.1]
    exact affs_map_name_congr (applyOrgPairs_affs _ _)
  cases hne : rep.organizational_author_corrections.isEmpty with
  | true =>
    simp only [orgStep, hne, if_true]
    exact ⟨[], [], by simp, by simp, by simp, by simp, by simp, by simp⟩
  | false =>
    simp only [orgStep, hne, Bool.false_eq_true, if_false]
    split
    · exact ⟨[orgMsg (apply_org_authors st.record
        rep.organizational_author_corrections).1], [],
        by simp, by simp, by simp, hspec.2.2.1, hspec.2.2.2.1, haffs⟩
    · exact ⟨[], ["Organizational author corrections present but no matches found"],
        by simp, by simp, by simp, hspec.2.2.1, hspec.2.2.2.1, haffs⟩

theorem relStep_shape (rep : Report) (st : ApplyResult) :
    ∃ ta, (relStep rep st).actions = st.actions ++ ta ∧
      (relStep rep st).unapplied = st.unapplied ∧
      creatorsOf (relStep rep st).record = creatorsOf st.record ∧
      (relStep rep st).record.custom_fields = st.record.custom_fields := by
  rcases hco : rep.corrections.related_identifiers with _ | p
  · simp only [relStep, hco]
    exact ⟨[], by simp, by simp, by simp, by simp⟩
  · simp only [relStep, hco]
    split
    · split
      · exact ⟨[relMsg (add_related_identifiers st.record (coerceRel p)).1], by simp,
          by simp, (add_related_frame st.record (coerceRel p)).2.1,
          (add_related_frame st.record (coerceRel p)).1⟩
      · exact ⟨[], by simp, by simp, (add_related_frame st.record (coerceRel p)).2.1,
          (add_related_frame st.record (coerceRel p)).1⟩
    · exact ⟨[], by simp, by simp, by simp, by simp⟩

theorem affStep_gate_false (rep : Report) (st : ApplyResult)
    (hg : gateOn rep.affiliation_correction_recommended = false)
    (hne : rep.affiliation_corrections ≠ []) :
    affStep rep st = {st with unapplied := st.unapplied ++
      ["Affiliation corrections present but affiliation_correction_recommended=false"]} := by
  have hemp : rep.affiliation_corrections.isEmpty = false := by
    simpa [List.isEmpty_iff] using hne
  simp only [affStep, hg, Bool.false_eq_true, if_false, hemp, Bool.not_false, if_true]

theorem affStep_gate_true_pos (rep : Report) (st : ApplyResult)
    (hg : gateOn rep.affiliation_correction_recommended = true)
    (hn : 0 < (applyAffPairs rep.affiliation_corrections (creatorsOf st.record)).2) :
    (affStep rep st).actions = st.actions ++
      [affMsg ((applyAffPairs rep.affiliation_corrections (creatorsOf st.record)).2)]
  ∧ (affStep rep st).unapplied = st.unapplied
  ∧ (affStep rep st).changed = true := by
  have hspec := apply_affiliations_spec st.record rep.affiliation_corrections
  simp only [affStep, hg, if_true]
  rw [if_pos (by rw [hspec.1]; exact hn)]
  exact ⟨by rw [hspec.1], rfl, rfl⟩

theorem affStep_gate_true_zero (rep : Report) (st : ApplyResult)
    (hg : gateOn rep.affiliation_correction_recommended = true)
    (hz : (applyAffPairs rep.affiliation_corrections (creatorsOf st.record)).2 = 0)
    (hne : rep.affiliation_corrections ≠ []) :
    (affStep rep st).actions = st.actions
  ∧ (affStep rep st).unapplied = st.unapplied ++
      ["Affiliation corrections present but no matches found"]
  ∧ (affStep rep st).changed = st.changed := by
  have hspec := apply_affiliations_spec st.record rep.affiliation_corrections
  have hemp : rep.affiliation_corrections.isEmpty = false := by
    simpa [List.isEmpty_iff] using hne
  simp only [affStep, hg, if_true]
  rw [if_neg (by rw [hspec.1, hz]; exact lt_irrefl 0), if_pos (by rw [hemp]; rfl)]
  exact ⟨rfl, rfl, rfl⟩


theorem creatorsOf_congr {x y : Record} (h : x.metadata = y.metadata) :
    creatorsOf x = creatorsOf y := by
  rw [creatorsOf, creatorsOf, mtd, mtd, h]

theorem affNamesOf_congr {x y : Record} (h : creatorsOf x = creatorsOf y) :
    affNamesOf x = affNamesOf y := by
  rw [affNamesOf, affNamesOf, h]

theorem spec_c2_affiliation_gating (r : Record) (rep : Report)
    (hne : rep.affiliation_corrections ≠ []) :
    (gateOn rep.affiliation_correction_recommended = true →
      (0 < (applyAffPairs rep.affiliation_corrections (creatorsOf r)).2 →
        affMsg ((applyAffPairs rep.affiliation_corrections (creatorsOf r)).2) ∈
          (apply_corrections r rep).actions)
      ∧ ((applyAffPairs rep.affiliation_corrections (creatorsOf r)).2 = 0 →
        "Affiliation corrections present but no matches found" ∈
          (apply_corrections r rep).unapplied)
      ∧ "Affiliation corrections present but affiliation_correction_recommended=false" ∉
          (apply_corrections r rep).unapplied)
  ∧ (gateOn rep.affiliation_correction_recommended = false →
      "Affiliation corrections present but affiliation_correction_recommended=false" ∈
        (apply_corrections r rep).unapplied
      ∧ affNamesOf (apply_corrections r rep).record = affNamesOf r) := by
  obtain ⟨ta1, tu1, ha1, hu1, hm1, hc1, hr1, hcf1⟩ := titleStep_shape rep ⟨false, [], [], r⟩
  obtain ⟨ta2, tu2, ha2, hu2, hm2, hc2, hr2, hcf2⟩ := abstractStep_shape rep (titleStep rep ⟨false, [], [], r⟩)
  obtain ⟨ta3, tu3, ha3, hu3, hm3, hc3, hr3, hcf3⟩ := dateStep_shape rep (abstractStep rep (titleStep rep ⟨false, [], [], r⟩))
  obtain ⟨ta4, tu4, ha4, hu4, hm4, hmd4⟩ := descStep_shape rep (dateStep rep (abstractStep rep (titleStep rep ⟨false, [], [], r⟩)))
  obtain ⟨ta6, tu6, ha6, hu6, hm6, hcf6, hr6, haff6⟩ := orgStep_shape rep (affStep rep (descStep rep (dateStep rep (abstractStep rep (titleStep rep ⟨false, [], [], r⟩)))))
  obtain ⟨ta7, ha7, hu7, hc7, hcf7⟩ := relStep_shape rep (orgStep rep (affStep rep (descStep rep (dateStep rep (abstractStep rep (titleStep rep ⟨false, [], [], r⟩))))))
  have hcrs4 : creatorsOf (descStep rep (dateStep rep (abstractStep rep (titleStep rep ⟨false, [], [], r⟩)))).record = creatorsOf r := by
    rw [creatorsOf_congr hmd4, hc3, hc2, hc1]
  have hgoal : apply_corrections r rep = relStep rep (orgStep rep (affStep rep (descStep rep (dateStep rep (abstractStep rep (titleStep rep ⟨false, [], [], r⟩)))))) := rfl
  rw [hgoal]
  constructor
  · intro hg
    obtain ⟨ta5, tu5, ha5, hu5, hm5, hm5g, hcf5, hr5⟩ := affStep_shape rep (descStep rep (dateStep rep (abstractStep rep (titleStep rep ⟨false, [], [], r⟩))))
    refine ⟨?_, ?_, ?_⟩
    · intro hn
      have h5 := affStep_gate_true_pos rep (descStep rep (dateStep rep (abstractStep rep (titleStep rep ⟨false, [], [], r⟩)))) hg (by rw [hcrs4]; exact hn)
      rw [ha7, ha6, h5.1, hcrs4]
      simp
    · intro hz
      have h5 := affStep_gate_true_zero rep (descStep rep (dateStep rep (abstractStep rep (titleStep rep ⟨false, [], [], r⟩)))) hg (by rw [hcrs4]; exact hz) hne
      rw [hu7, hu6, h5.2.1]
      simp
    · intro hmem
      rw [hu7, hu6, hu5, hu4, hu3, hu2, hu1] at hmem
      simp only [List.mem_append, List.nil_append] at hmem
      rcases hmem with ((((hx | hx) | hx) | hx) | hx) | hx
      · exact absurd (hm1 _ hx) (by decide)
      · exact absurd (hm2 _ hx) (by decide)
      · exact absurd (hm3 _ hx) (by decide)
      · exact absurd (hm4 _ hx) (by decide)
      · exact absurd (hm5g hg _ hx) (by decide)
      · exact absurd (hm6 _ hx) (by decide)
  · intro hg
    have h5 := affStep_gate_false rep (descStep rep (dateStep rep (abstractStep rep (titleStep rep ⟨false, [], [], r⟩)))) hg hne
    constructor
    · rw [hu7, hu6, h5]
      simp
    · have hrel : affNamesOf (relStep rep (orgStep rep (affStep rep (descStep rep (dateStep rep (abstractStep rep (titleStep rep ⟨false, [], [], r⟩))))))).record = affNamesOf (orgStep rep (affStep rep (descStep rep (dateStep rep (abstractStep rep (titleStep rep ⟨false, [], [], r⟩)))))).record :=
        affNamesOf_congr hc7
      rw [hrel, haff6, h5]
      show affNamesOf (descStep rep (dateStep rep (abstractStep rep (titleStep rep ⟨false, [], [], r⟩)))).record = affNamesOf r
      exact affNamesOf_congr hcrs4


/-- Counterexample to C2 as stated: a non-empty affiliation_corrections
list with `affiliation_correction_recommended = false` is withheld by the
gate — the applier is not run (the matching name stays unchanged) and the
surfaced unapplied reason is the gate, not "no matches". -/
theorem spec_c2_counterexample :
    (apply_corrections
        ⟨some ⟨none, none, none, [⟨⟨none, none⟩, [⟨some "A"⟩]⟩], none⟩, none⟩
        {emptyReport with affiliation_corrections := [⟨"A", "B"⟩], affiliation_correction_recommended := some (.bool false)}).unapplied =
      ["Affiliation corrections present but affiliation_correction_recommended=false"]
  ∧ affNamesOf (apply_corrections
        ⟨some ⟨none, none, none, [⟨⟨none, none⟩, [⟨some "A"⟩]⟩], none⟩, none⟩
        {emptyReport with affiliation_corrections := [⟨"A", "B"⟩], affiliation_correction_recommended := some (.bool false)}).record = [[some "A"]] := by
  constructor
  · decide
  · decide

/-- Witness for C2 (amended): with the gate absent (defaulting to true)
the applier runs and its action is narrated. -/
theorem spec_c2_affiliation_gating_witness :
    "Affiliations corrected (1)" ∈ (apply_corrections
        ⟨some ⟨none, none, none, [⟨⟨none, none⟩, [⟨some "A"⟩]⟩], none⟩, none⟩
        {emptyReport with affiliation_corrections := [⟨"A", "B"⟩]}).actions := by
  have h := ((spec_c2_affiliation_gating
      ⟨some ⟨none, none, none, [⟨⟨none, none⟩, [⟨some "A"⟩]⟩], none⟩, none⟩
      {emptyReport with affiliation_corrections := [⟨"A", "B"⟩]}
      (by decide)).1 rfl).1 (by decide)
  have h2 : affMsg ((applyAffPairs [⟨"A", "B"⟩]
      (creatorsOf ⟨some ⟨none, none, none, [⟨⟨none, none⟩, [⟨some "A"⟩]⟩], none⟩, none⟩)).2) =
      "Affiliations corrected (1)" := by decide
  rw [h2] at h
  exact h


theorem relatedOf_congr {x y : Record} (h : x.metadata = y.metadata) :
    relatedOf x = relatedOf y := by
  rw [relatedOf, relatedOf, mtd, mtd, h]

theorem add_related_count_zero (r : Record) (ids : List RelatedIdentifier)
    (h : ∀ e ∈ ids, identOf e = "" ∨ identOf e ∈ (relListOf r).map identOf) :
    (add_related_identifiers r ids).1 = 0 ∧
    relatedOf (add_related_identifiers r ids).2 = some (relListOf r) ∨
    (add_related_identifiers r ids) = (0, r) := by
  by_cases hids : ids = []
  · right
    rw [add_related_identifiers, if_pos hids]
  · left
    obtain ⟨tail, heq, hsub, hmem, hnd⟩ :=
      addRelLoop_decomp ids ((mtd r).related_identifiers.getD []) 0
    have htail : tail = [] := by
      cases tail with
      | nil => rfl
      | cons e ts =>
        exfalso
        have he := hmem e (List.mem_cons_self e ts)
        have hin := h e (hsub.subset (List.mem_cons_self e ts))
        rcases hin with hin | hin
        · exact he.1 hin
        · apply he.2
          simpa [relListOf, relatedOf] using hin
    subst htail
    rw [add_related_identifiers, if_neg hids]
    simp only [heq, List.append_nil, Nat.zero_add]
    refine ⟨rfl, ?_⟩
    simp [relatedOf, relListOf, mtd]

theorem spec_c10_related_zero_add (r : Record) (rep : Report) :
    (∀ p, rep.corrections.related_identifiers = some p → relPayloadTruthy p = true →
      (∀ e ∈ coerceRel p, identOf e = "" ∨ identOf e ∈ (relListOf r).map identOf) →
      (apply_corrections r rep).changed =
        (apply_corrections r {rep with corrections := {rep.corrections with related_identifiers := none}}).changed
      ∧ (apply_corrections r rep).actions =
        (apply_corrections r {rep with corrections := {rep.corrections with related_identifiers := none}}).actions
      ∧ (apply_corrections r rep).unapplied =
        (apply_corrections r {rep with corrections := {rep.corrections with related_identifiers := none}}).unapplied)
  ∧ (∀ p, rep.corrections.related_identifiers = some p → relPayloadTruthy p = false →
      apply_corrections r rep = apply_corrections r {rep with corrections := {rep.corrections with related_identifiers := none}})
  ∧ (rep.corrections.related_identifiers = none →
      apply_corrections r rep = apply_corrections r {rep with corrections := {rep.corrections with related_identifiers := none}}) := by
  have hbase : apply_corrections r {rep with corrections := {rep.corrections with related_identifiers := none}} = (orgStep rep (affStep rep (descStep rep (dateStep rep (abstractStep rep (titleStep rep ⟨false, [], [], r⟩)))))) := rfl
  have hrel6 : relatedOf (orgStep rep (affStep rep (descStep rep (dateStep rep (abstractStep rep (titleStep rep ⟨false, [], [], r⟩)))))).record = relatedOf r := by
    obtain ⟨_, _, _, _, _, _, hr1, _⟩ := titleStep_shape rep ⟨false, [], [], r⟩
    obtain ⟨_, _, _, _, _, _, hr2, _⟩ := abstractStep_shape rep (titleStep rep ⟨false, [], [], r⟩)
    obtain ⟨_, _, _, _, _, _, hr3, _⟩ := dateStep_shape rep (abstractStep rep (titleStep rep ⟨false, [], [], r⟩))
    obtain ⟨_, _, _, _, _, hmd4⟩ := descStep_shape rep (dateStep rep (abstractStep rep (titleStep rep ⟨false, [], [], r⟩)))
    obtain ⟨_, _, _, _, _, _, _, hr5⟩ := affStep_shape rep (descStep rep (dateStep rep (abstractStep rep (titleStep rep ⟨false, [], [], r⟩))))
    obtain ⟨_, _, _, _, _, _, hr6, _⟩ := orgStep_shape rep (affStep rep (descStep rep (dateStep rep (abstractStep rep (titleStep rep ⟨false, [], [], r⟩)))))
    rw [hr6, hr5, relatedOf_congr hmd4, hr3, hr2, hr1]
  refine ⟨?_, ?_, ?_⟩
  · intro p hp htr hz
    have hcount := add_related_count_zero (orgStep rep (affStep rep (descStep rep (dateStep rep (abstractStep rep (titleStep rep ⟨false, [], [], r⟩)))))).record (coerceRel p) ?_
    · have hgoal : apply_corrections r rep = relStep rep (orgStep rep (affStep rep (descStep rep (dateStep rep (abstractStep rep (titleStep rep ⟨false, [], [], r⟩)))))) := rfl
      rw [hgoal, hbase]
      rcases hcount with ⟨hc0, _⟩ | hc0
      · simp only [relStep, hp, htr, if_true, hc0]
        exact ⟨rfl, rfl, rfl⟩
      · simp only [relStep, hp, htr, if_true, hc0]
        exact ⟨rfl, rfl, rfl⟩
    · intro e he
      rcases hz e he with h1 | h1
      · exact Or.inl h1
      · right
        have : relListOf (orgStep rep (affStep rep (descStep rep (dateStep rep (abstractStep rep (titleStep rep ⟨false, [], [], r⟩)))))).record = relListOf r := by
          rw [relListOf, relListOf, hrel6]
        rw [this]
        exact h1
  · intro p hp htr
    have hgoal : apply_corrections r rep = relStep rep (orgStep rep (affStep rep (descStep rep (dateStep rep (abstractStep rep (titleStep rep ⟨false, [], [], r⟩)))))) := rfl
    rw [hgoal, hbase]
    simp only [relStep, hp, htr, Bool.false_eq_true, if_false]
  · intro hp
    have hgoal : apply_corrections r rep = relStep rep (orgStep rep (affStep rep (descStep rep (dateStep rep (abstractStep rep (titleStep rep ⟨false, [], [], r⟩)))))) := rfl
    rw [hgoal, hbase]
    simp only [relStep, hp]


/-- Witness for C10: a truthy related_identifiers payload whose entries
are all already present or empty adds nothing — the changed flag and both
narrative lists coincide with the run whose payload is removed. -/
theorem spec_c10_related_zero_add_witness :
    (apply_corrections ⟨some ⟨none, none, none, [], some [⟨some "X", []⟩]⟩, none⟩ {emptyReport with corrections := {emptyCorrections with related_identifiers := some (.many [⟨some "X", []⟩, ⟨none, []⟩])}}).changed =
      (apply_corrections ⟨some ⟨none, none, none, [], some [⟨some "X", []⟩]⟩, none⟩ {{emptyReport with corrections := {emptyCorrections with related_identifiers := some (.many [⟨some "X", []⟩, ⟨none, []⟩])}} with corrections := {{emptyReport with corrections := {emptyCorrections with related_identifiers := some (.many [⟨some "X", []⟩, ⟨none, []⟩])}}.corrections with related_identifiers := none}}).changed
  ∧ (apply_corrections ⟨some ⟨none, none, none, [], some [⟨some "X", []⟩]⟩, none⟩ {emptyReport with corrections := {emptyCorrections with related_identifiers := some (.many [⟨some "X", []⟩, ⟨none, []⟩])}}).actions =
      (apply_corrections ⟨some ⟨none, none, none, [], some [⟨some "X", []⟩]⟩, none⟩ {{emptyReport with corrections := {emptyCorrections with related_identifiers := some (.many [⟨some "X", []⟩, ⟨none, []⟩])}} with corrections := {{emptyReport with corrections := {emptyCorrections with related_identifiers := some (.many [⟨some "X", []⟩, ⟨none, []⟩])}}.corrections with related_identifiers := none}}).actions
  ∧ (apply_corrections ⟨some ⟨none, none, none, [], some [⟨some "X", []⟩]⟩, none⟩ {emptyReport with corrections := {emptyCorrections with related_identifiers := some (.many [⟨some "X", []⟩, ⟨none, []⟩])}}).unapplied =
      (apply_corrections ⟨some ⟨none, none, none, [], some [⟨some "X", []⟩]⟩, none⟩ {{emptyReport with corrections := {emptyCorrections with related_identifiers := some (.many [⟨some "X", []⟩, ⟨none, []⟩])}} with corrections := {{emptyReport with corrections := {emptyCorrections with related_identifiers := some (.many [⟨some "X", []⟩, ⟨none, []⟩])}}.corrections with related_identifiers := none}}).unapplied :=
  (spec_c10_related_zero_add ⟨some ⟨none, none, none, [], some [⟨some "X", []⟩]⟩, none⟩ {emptyReport with corrections := {emptyCorrections with related_identifiers := some (.many [⟨some "X", []⟩, ⟨none, []⟩])}}).1
    (.many [⟨some "X", []⟩, ⟨none, []⟩]) rfl (by decide) (by decide)


/-! ### The descriptor string round-trip -/

theorem dropWhile_head?_false (p : Char → Bool) (l : List Char) (c : Char)
    (h : (l.dropWhile p).head? = some c) : p c = false := by
  induction l with
  | nil => cases h
  | cons x t ih =>
    rw [List.dropWhile] at h
    split at h
    · exact ih h
    · rename_i hpx
      rw [List.head?_cons] at h
      cases h
      simpa using hpx

theorem dropWhile_eq_self_of_head? (p : Char → Bool) (l : List Char)
    (h : ∀ c, l.head? = some c → p c = false) : l.dropWhile p = l := by
  cases l with
  | nil => rfl
  | cons x t =>
    rw [List.dropWhile, h x rfl]

theorem dropWhile_idem (p : Char → Bool) (l : List Char) :
    (l.dropWhile p).dropWhile p = l.dropWhile p := by
  apply dropWhile_eq_self_of_head?
  intro c hc
  exact dropWhile_head?_false p l c hc

theorem stripChars_idem (l : List Char) : stripChars (stripChars l) = stripChars l := by
  rw [stripChars, stripChars]
  have hs1 : ((l.dropWhile isSpc).reverse.dropWhile isSpc).reverse.dropWhile isSpc =
      ((l.dropWhile isSpc).reverse.dropWhile isSpc).reverse := by
    apply dropWhile_eq_self_of_head?
    intro c hc
    rw [List.head?_reverse] at hc
    have hBne : (l.dropWhile isSpc).reverse.dropWhile isSpc ≠ [] := by
      intro h
      rw [h] at hc
      cases hc
    obtain ⟨t, ht⟩ := List.dropWhile_suffix (l := (l.dropWhile isSpc).reverse) isSpc
    have hgl : ((l.dropWhile isSpc).reverse.dropWhile isSpc).getLast? =
        (l.dropWhile isSpc).reverse.getLast? := by
      have haux := List.getLast?_append_of_ne_nil t hBne
      rw [ht] at haux
      exact haux.symm
    rw [List.getLast?_reverse] at hgl
    rw [hgl] at hc
    exact dropWhile_head?_false isSpc l c hc
  rw [hs1, List.reverse_reverse, dropWhile_idem]

theorem splitCommas_cons (c : Char) (rest cur : List Char) (done : List (List Char))
    (h : splitCommas rest = cur :: done) :
    splitCommas (c :: rest) = if c = ',' then [] :: cur :: done else (c :: cur) :: done := by
  rw [splitCommas, h]

theorem splitCommas_ne_nil (l : List Char) : splitCommas l ≠ [] := by
  cases l with
  | nil => simp [splitCommas]
  | cons c rest =>
    rcases h : splitCommas rest with _ | ⟨cur, done⟩
    · exact absurd h (splitCommas_ne_nil rest)
    · rw [splitCommas_cons c rest cur done h]
      split <;> simp

theorem splitCommas_append_nocomma (d : List Char) (hd : ∀ c ∈ d, c ≠ ',') :
    ∀ rest, ∃ cur done, splitCommas rest = cur :: done ∧
      splitCommas (d ++ rest) = (d ++ cur) :: done := by
  induction d with
  | nil =>
    intro rest
    rcases h : splitCommas rest with _ | ⟨cur, done⟩
    · exact absurd h (splitCommas_ne_nil rest)
    · exact ⟨cur, done, rfl, by simpa using h⟩
  | cons c dt ih =>
    intro rest
    have hc : c ≠ ',' := hd c (List.mem_cons_self c dt)
    obtain ⟨cur, done, h1, h2⟩ := ih (fun x hx => hd x (List.mem_cons_of_mem c hx)) rest
    refine ⟨cur, done, h1, ?_⟩
    rw [List.cons_append, splitCommas, h2]
    simp [hc]

theorem splitCommas_single (d : List Char) (hd : ∀ c ∈ d, c ≠ ',') :
    splitCommas d = [d] := by
  obtain ⟨cur, done, h1, h2⟩ := splitCommas_append_nocomma d hd []
  rw [splitCommas] at h1
  cases h1
  simpa using h2

theorem mem_splitCommas (l : List Char) :
    ∀ x ∈ splitCommas l, ∀ c ∈ x, c ∈ l ∧ c ≠ ',' := by
  induction l with
  | nil =>
    intro x hx c hc
    rw [splitCommas] at hx
    rcases List.mem_singleton.1 hx with rfl
    cases hc
  | cons a rest ih =>
    intro x hx c hc
    rcases h : splitCommas rest with _ | ⟨cur, done⟩
    · exact absurd h (splitCommas_ne_nil rest)
    · rw [splitCommas_cons a rest cur done h] at hx
      split at hx
      · rename_i ha
        rcases List.mem_cons.1 hx with rfl | hx2
        · cases hc
        · have := ih x (by rw [h]; exact hx2) c hc
          exact ⟨List.mem_cons_of_mem a this.1, this.2⟩
      · rename_i ha
        rcases List.mem_cons.1 hx with rfl | hx2
        · rcases List.mem_cons.1 hc with rfl | hc2
          · exact ⟨List.mem_cons_self c rest, ha⟩
          · have := ih cur (by rw [h]; exact List.mem_cons_self cur done) c hc2
            exact ⟨List.mem_cons_of_mem a this.1, this.2⟩
        · have := ih x (by rw [h]; exact List.mem_cons_of_mem cur hx2) c hc
          exact ⟨List.mem_cons_of_mem a this.1, this.2⟩

theorem mem_stripChars (l : List Char) (c : Char) (h : c ∈ stripChars l) : c ∈ l := by
  rw [stripChars] at h
  rw [List.mem_reverse] at h
  have h2 := (List.dropWhile_suffix (l := (l.dropWhile isSpc).reverse) isSpc).subset h
  rw [List.mem_reverse] at h2
  exact (List.dropWhile_suffix (l := l) isSpc).subset h2

theorem mem_replSemi (l : List Char) (c : Char) (h : c ∈ replSemi l) : c ≠ ';' := by
  rw [replSemi] at h
  obtain ⟨x, _, hx⟩ := List.mem_map.1 h
  subst hx
  split <;> simp_all


theorem replSemi_eq_self (d : List Char) (h : ∀ c ∈ d, c ≠ ';') : replSemi d = d := by
  induction d with
  | nil => rfl
  | cons c t ih =>
    rw [replSemi, List.map_cons]
    rw [if_neg (h c (List.mem_cons_self c t))]
    rw [show List.map (fun c => if c = ';' then ',' else c) t = replSemi t from rfl,
      ih (fun x hx => h x (List.mem_cons_of_mem c hx))]

theorem stripChars_cons_space (x : List Char) : stripChars (' ' :: x) = stripChars x := by
  rw [stripChars, stripChars, List.dropWhile_cons]
  rw [if_pos (by decide : isSpc ' ' = true)]

theorem parsedChunks_cons_space (l : List Char) :
    parsedChunks (' ' :: l) = parsedChunks l := by
  rcases h : splitCommas l with _ | ⟨cur, done⟩
  · exact absurd h (splitCommas_ne_nil l)
  · rw [parsedChunks, parsedChunks, splitCommas_cons ' ' l cur done h,
      if_neg (by decide : ¬ (' ' = ',')), h]
    simp only [List.map_cons, List.filter_cons, stripChars_cons_space]

theorem parse_join : ∀ ds : List (List Char),
    (∀ d ∈ ds, d ≠ [] ∧ stripChars d = d ∧ ∀ c ∈ d, c ≠ ',' ∧ c ≠ ';') →
    parsedChunks (replSemi (joinSemiChars ds)) = ds := by
  intro ds
  induction ds with
  | nil =>
    intro _
    rfl
  | cons d ds ih =>
    intro h
    have hd := h d (List.mem_cons_self d ds)
    have hdcomma : ∀ c ∈ d, c ≠ ',' := fun c hc => (hd.2.2 c hc).1
    have hdsemi : ∀ c ∈ d, c ≠ ';' := fun c hc => (hd.2.2 c hc).2
    have hdne : (!d.isEmpty) = true := by
      simp only [Bool.not_eq_true', ← Bool.not_eq_true]
      simpa [List.isEmpty_iff] using hd.1
    rcases ds with _ | ⟨e, ds2⟩
    · rw [joinSemiChars, replSemi_eq_self d hdsemi, parsedChunks,
        splitCommas_single d hdcomma]
      simp only [List.map_cons, List.map_nil, List.filter_cons, List.filter_nil, hd.2.1]
      rw [if_pos hdne]
    · have hrest : ∀ x ∈ e :: ds2, x ≠ [] ∧ stripChars x = x ∧ ∀ c ∈ x, c ≠ ',' ∧ c ≠ ';' :=
        fun x hx => h x (List.mem_cons_of_mem d hx)
      rw [joinSemiChars]
      have hrepl : replSemi (d ++ ';' :: ' ' :: joinSemiChars (e :: ds2)) =
          d ++ ',' :: ' ' :: replSemi (joinSemiChars (e :: ds2)) := by
        rw [replSemi, List.map_append, List.map_cons, List.map_cons]
        rw [if_pos rfl, if_neg (by decide : ¬ (' ' = ';'))]
        rw [show List.map (fun c => if c = ';' then ',' else c) d = replSemi d from rfl,
          replSemi_eq_self d hdsemi]
        rfl
      rw [hrepl]
      rcases hx : splitCommas (replSemi (joinSemiChars (e :: ds2))) with _ | ⟨cur, done⟩
      · exact absurd hx (splitCommas_ne_nil _)
      · have hsp1 := splitCommas_cons ' ' (replSemi (joinSemiChars (e :: ds2))) cur done hx
        rw [if_neg (by decide : ¬ (' ' = ','))] at hsp1
        have hsp2 := splitCommas_cons ',' (' ' :: replSemi (joinSemiChars (e :: ds2)))
          (' ' :: cur) done hsp1
        rw [if_pos rfl] at hsp2
        obtain ⟨cur2, done2, h1, h2⟩ := splitCommas_append_nocomma d hdcomma
          (',' :: ' ' :: replSemi (joinSemiChars (e :: ds2)))
        rw [hsp2] at h1
        cases h1
        rw [parsedChunks, h2, List.append_nil]
        simp only [List.map_cons, List.filter_cons, hd.2.1, stripChars_cons_space]
        rw [if_pos hdne]
        have hihx := ih hrest
        rw [parsedChunks, hx] at hihx
        simp only [List.map_cons, List.filter_cons] at hihx
        rw [hihx]


theorem parseDescriptors_props (s : String) :
    ∀ d ∈ parseDescriptors s, d.toList ≠ [] ∧ stripChars d.toList = d.toList ∧
      ∀ c ∈ d.toList, c ≠ ',' ∧ c ≠ ';' := by
  intro d hd
  rw [parseDescriptors] at hd
  obtain ⟨chunk, hchunk, hmk⟩ := List.mem_map.1 hd
  subst hmk
  have htl : (String.mk chunk).toList = chunk := rfl
  rw [htl]
  rw [parsedChunks] at hchunk
  have hfil := List.mem_filter.1 hchunk
  obtain ⟨raw, hraw, hstrip⟩ := List.mem_map.1 hfil.1
  refine ⟨?_, ?_, ?_⟩
  · simpa [List.isEmpty_iff] using hfil.2
  · rw [← hstrip]
    exact stripChars_idem raw
  · intro c hc
    have hc2 : c ∈ raw := by
      rw [← hstrip] at hc
      exact mem_stripChars raw c hc
    have hmem := mem_splitCommas (replSemi s.toList) raw hraw c hc2
    exact ⟨hmem.2, mem_replSemi s.toList c hmem.1⟩

theorem parseDescriptors_join (ds : List String)
    (h : ∀ d ∈ ds, d.toList ≠ [] ∧ stripChars d.toList = d.toList ∧
      ∀ c ∈ d.toList, c ≠ ',' ∧ c ≠ ';') :
    parseDescriptors (joinDescriptors ds) = ds := by
  rw [joinDescriptors, parseDescriptors]
  have htl : (String.mk (joinSemiChars (ds.map String.toList))).toList =
      joinSemiChars (ds.map String.toList) := rfl
  rw [show replSemi (String.mk (joinSemiChars (ds.map String.toList))).toList =
    replSemi (joinSemiChars (ds.map String.toList)) from rfl]
  rw [parse_join (ds.map String.toList) ?_]
  · rw [List.map_map]
    have : ∀ x ∈ ds, (String.mk ∘ String.toList) x = id x := by
      intro x _
      rcases x with ⟨xdata⟩
      rfl
    rw [List.map_congr_left this, List.map_id]
  · intro d hd
    obtain ⟨x, hx, hxd⟩ := List.mem_map.1 hd
    subst hxd
    exact h x hx

theorem parse_join_filter (s : String) (dels : List String) :
    parseDescriptors (joinDescriptors
      ((parseDescriptors s).filter (keepDescriptor dels))) =
      (parseDescriptors s).filter (keepDescriptor dels) := by
  apply parseDescriptors_join
  intro d hd
  exact parseDescriptors_props s d (List.mem_of_mem_filter hd)


/-! ### Claim C8 -/

/-- The descriptor collection of a record, as a list (the parse of the
string representation, or the stored list). -/
def descViewOf (r : Record) : List String :=
  match descOf r with
  | some (.str s) => parseDescriptors s
  | some (.list l) => l
  | _ => []

theorem descOf_congr {x y : Record} (h : x.custom_fields = y.custom_fields) :
    descOf x = descOf y := by
  rw [descOf, descOf, h]

theorem descViewOf_congr {x y : Record} (h : descOf x = descOf y) :
    descViewOf x = descViewOf y := by
  rw [descViewOf, descViewOf, h]

theorem desc_view_sublist (r : Record) (dels : List String) :
    List.Sublist (descViewOf (apply_descriptor_deletions r dels).2) (descViewOf r) := by
  rcases hdesc : descOf r with _ | df
  · rw [apply_desc_noop r dels (Or.inr (Or.inl hdesc))]
  · by_cases hd : dels = []
    · rw [apply_desc_noop r dels (Or.inl hd)]
    by_cases ht : descTruthy df = true
    · cases df with
      | str s =>
        have hs : s ≠ "" := by simpa [descTruthy, bne_iff_ne] using ht
        by_cases hlen : ((parseDescriptors s).filter (keepDescriptor dels)).length =
            (parseDescriptors s).length
        · rw [apply_desc_noop r dels (Or.inr (Or.inr (Or.inr (Or.inr (Or.inl
            ⟨s, hdesc, hlen⟩)))))]
        · rw [apply_desc_str_eq r dels s hd hdesc hs hlen]
          have hv : descViewOf (⟨r.metadata, some {r.custom_fields.getD ⟨none⟩ with
              descriptors := some (.str (joinDescriptors
                ((parseDescriptors s).filter (keepDescriptor dels))))}⟩ : Record) =
              parseDescriptors (joinDescriptors
                ((parseDescriptors s).filter (keepDescriptor dels))) := by
            rw [descViewOf]
            rfl
          rw [show ((true, (⟨r.metadata, some {r.custom_fields.getD ⟨none⟩ with
              descriptors := some (.str (joinDescriptors
                ((parseDescriptors s).filter (keepDescriptor dels))))}⟩ : Record)) :
              Bool × Record).2 = (⟨r.metadata, some {r.custom_fields.getD ⟨none⟩ with
              descriptors := some (.str (joinDescriptors
                ((parseDescriptors s).filter (keepDescriptor dels))))}⟩ : Record) from rfl]
          rw [hv, parse_join_filter]
          rw [descViewOf, hdesc]
          exact List.filter_sublist _
      | list l =>
        by_cases hlen : (l.filter (keepDescriptor dels)).length = l.length
        · rw [apply_desc_noop r dels (Or.inr (Or.inr (Or.inr (Or.inr (Or.inr
            ⟨l, hdesc, hlen⟩)))))]
        · rw [apply_desc_list_eq r dels l hd hdesc
            (by simpa [descTruthy, List.isEmpty_iff] using ht) hlen]
          have hv : descViewOf (⟨r.metadata, some {r.custom_fields.getD ⟨none⟩ with
              descriptors := some (.list (l.filter (keepDescriptor dels)))}⟩ : Record) =
              l.filter (keepDescriptor dels) := by
            rw [descViewOf]
            rfl
          rw [show ((true, (⟨r.metadata, some {r.custom_fields.getD ⟨none⟩ with
              descriptors := some (.list (l.filter (keepDescriptor dels)))}⟩ : Record)) :
              Bool × Record).2 = (⟨r.metadata, some {r.custom_fields.getD ⟨none⟩ with
              descriptors := some (.list (l.filter (keepDescriptor dels)))}⟩ : Record) from rfl]
          rw [hv, descViewOf, hdesc]
          exact List.filter_sublist _
      | other v =>
        rw [apply_desc_noop r dels (Or.inr (Or.inr (Or.inr (Or.inl ⟨v, hdesc⟩))))]
    · rw [apply_desc_noop r dels (Or.inr (Or.inr (Or.inl
        ⟨df, hdesc, by simpa using ht⟩)))]


theorem length_eq_of_map_eq {α β : Type} {f : α → β} {l1 l2 : List α}
    (h : l1.map f = l2.map f) : l1.length = l2.length := by
  rw [← List.length_map l1 f, h, List.length_map]

theorem affLens_of_affs_eq {cs1 cs2 : List Creator}
    (h : cs1.map Creator.affiliations = cs2.map Creator.affiliations) :
    cs1.map (fun c => c.affiliations.length) = cs2.map (fun c => c.affiliations.length) := by
  have h1 : cs1.map (fun c => c.affiliations.length) =
      (cs1.map Creator.affiliations).map List.length := by
    rw [List.map_map]
    rfl
  have h2 : cs2.map (fun c => c.affiliations.length) =
      (cs2.map Creator.affiliations).map List.length := by
    rw [List.map_map]
    rfl
  rw [h1, h2, h]

theorem affLens_affStep (rep : Report) (st : ApplyResult) :
    (creatorsOf (affStep rep st).record).map (fun c => c.affiliations.length) =
      (creatorsOf st.record).map (fun c => c.affiliations.length) := by
  have hs := apply_affiliations_spec st.record rep.affiliation_corrections
  cases hg : gateOn rep.affiliation_correction_recommended with
  | false =>
    simp only [affStep, hg, Bool.false_eq_true, if_false]
    split <;> rfl
  | true =>
    simp only [affStep, hg, if_true]
    split
    · rw [hs.2.1, applyAffPairs_affLens]
    · split
      · rw [hs.2.1, applyAffPairs_affLens]
      · rw [hs.2.1, applyAffPairs_affLens]

theorem affLens_orgStep (rep : Report) (st : ApplyResult) :
    (creatorsOf (orgStep rep st).record).map (fun c => c.affiliations.length) =
      (creatorsOf st.record).map (fun c => c.affiliations.length) := by
  have hs := apply_org_authors_spec st.record rep.organizational_author_corrections
  cases hne : rep.organizational_author_corrections.isEmpty with
  | true => simp only [orgStep, hne, if_true]
  | false =>
    simp only [orgStep, hne, Bool.false_eq_true, if_false]
    split
    · rw [hs.2.1]
      exact affLens_of_affs_eq (applyOrgPairs_affs _ _)
    · rw [hs.2.1]
      exact affLens_of_affs_eq (applyOrgPairs_affs _ _)

theorem descView_descStep (rep : Report) (st : ApplyResult) :
    List.Sublist (descViewOf (descStep rep st).record) (descViewOf st.record) := by
  rcases hco : rep.corrections.delete_descriptor with _ | payload
  · simp only [descStep, hco]
    exact List.Sublist.refl _
  · simp only [descStep, hco]
    split
    · split
      · exact desc_view_sublist st.record (coerceDel payload)
      · exact desc_view_sublist st.record (coerceDel payload)
    · exact List.Sublist.refl _

theorem relListOf_congr {x y : Record} (h : relatedOf x = relatedOf y) :
    relListOf x = relListOf y := by
  rw [relListOf, relListOf, h]

theorem add_related_prefix (r : Record) (ids : List RelatedIdentifier) :
    List.IsPrefix (relListOf r) (relListOf (add_related_identifiers r ids).2) := by
  by_cases hids : ids = []
  · subst hids
    rw [add_related_identifiers]
    simp
  · obtain ⟨tail, heq, _, _, _⟩ :=
      addRelLoop_decomp ids ((mtd r).related_identifiers.getD []) 0
    refine ⟨tail, ?_⟩
    rw [add_related_identifiers, if_neg hids]
    simp only [heq]
    simp [relListOf, relatedOf, mtd]

theorem rel_prefix_relStep (rep : Report) (st : ApplyResult) :
    List.IsPrefix (relListOf st.record) (relListOf (relStep rep st).record) := by
  rcases hco : rep.corrections.related_identifiers with _ | p
  · simp only [relStep, hco]
    exact List.prefix_refl _
  · simp only [relStep, hco]
    split
    · split
      · exact add_related_prefix st.record (coerceRel p)
      · exact add_related_prefix st.record (coerceRel p)
    · exact List.prefix_refl _

/-- C8: no applier changes the length or order of the record's arrays,
except that descriptor deletion may shrink the descriptor collection and
related-identifier addition may grow related_identifiers append-only: the
creators array keeps its length, each creator's affiliations array keeps
its length (and position), the prior related_identifiers sequence is a
prefix of the final one, and the final descriptor collection is a sublist
of the original. -/
theorem spec_c8_array_invariants (r : Record) (rep : Report) :
    (creatorsOf (apply_corrections r rep).record).length = (creatorsOf r).length
  ∧ (creatorsOf (apply_corrections r rep).record).map (fun c => c.affiliations.length) =
      (creatorsOf r).map (fun c => c.affiliations.length)
  ∧ List.IsPrefix (relListOf r) (relListOf (apply_corrections r rep).record)
  ∧ List.Sublist (descViewOf (apply_corrections r rep).record) (descViewOf r) := by
  obtain ⟨_, _, _, _, _, hc1, hr1, hcf1⟩ := titleStep_shape rep ⟨false, [], [], r⟩
  obtain ⟨_, _, _, _, _, hc2, hr2, hcf2⟩ := abstractStep_shape rep (titleStep rep ⟨false, [], [], r⟩)
  obtain ⟨_, _, _, _, _, hc3, hr3, hcf3⟩ := dateStep_shape rep (abstractStep rep (titleStep rep ⟨false, [], [], r⟩))
  obtain ⟨_, _, _, _, _, hmd4⟩ := descStep_shape rep (dateStep rep (abstractStep rep (titleStep rep ⟨false, [], [], r⟩)))
  obtain ⟨_, _, _, _, _, _, hcf5, hr5⟩ := affStep_shape rep (descStep rep (dateStep rep (abstractStep rep (titleStep rep ⟨false, [], [], r⟩))))
  obtain ⟨_, _, _, _, _, hcf6, hr6, _⟩ := orgStep_shape rep (affStep rep (descStep rep (dateStep rep (abstractStep rep (titleStep rep ⟨false, [], [], r⟩)))))
  obtain ⟨_, _, hu7, hc7, hcf7⟩ := relStep_shape rep (orgStep rep (affStep rep (descStep rep (dateStep rep (abstractStep rep (titleStep rep ⟨false, [], [], r⟩))))))
  have hgoal : apply_corrections r rep = relStep rep (orgStep rep (affStep rep (descStep rep (dateStep rep (abstractStep rep (titleStep rep ⟨false, [], [], r⟩)))))) := rfl
  rw [hgoal]
  have haff : (creatorsOf (relStep rep (orgStep rep (affStep rep (descStep rep (dateStep rep (abstractStep rep (titleStep rep ⟨false, [], [], r⟩))))))).record).map (fun c => c.affiliations.length) =
      (creatorsOf r).map (fun c => c.affiliations.length) := by
    rw [hc7, affLens_orgStep, affLens_affStep, creatorsOf_congr hmd4, hc3, hc2, hc1]
  refine ⟨length_eq_of_map_eq haff, haff, ?_, ?_⟩
  · have heq : relListOf r = relListOf (orgStep rep (affStep rep (descStep rep (dateStep rep (abstractStep rep (titleStep rep ⟨false, [], [], r⟩)))))).record := by
      rw [relListOf_congr hr6, relListOf_congr hr5, relListOf_congr (relatedOf_congr hmd4),
        relListOf_congr hr3, relListOf_congr hr2, relListOf_congr hr1]
    rw [heq]
    exact rel_prefix_relStep rep (orgStep rep (affStep rep (descStep rep (dateStep rep (abstractStep rep (titleStep rep ⟨false, [], [], r⟩))))))
  · have heq : descViewOf (relStep rep (orgStep rep (affStep rep (descStep rep (dateStep rep (abstractStep rep (titleStep rep ⟨false, [], [], r⟩))))))).record = descViewOf (descStep rep (dateStep rep (abstractStep rep (titleStep rep ⟨false, [], [], r⟩)))).record := by
      rw [descViewOf_congr (descOf_congr hcf7), descViewOf_congr (descOf_congr hcf6),
        descViewOf_congr (descOf_congr hcf5)]
    have heq2 : descViewOf (dateStep rep (abstractStep rep (titleStep rep ⟨false, [], [], r⟩))).record = descViewOf r := by
      rw [descViewOf_congr (descOf_congr hcf3), descViewOf_congr (descOf_congr hcf2),
        descViewOf_congr (descOf_congr hcf1)]
    rw [heq, ← heq2]
    exact descView_descStep rep (dateStep rep (abstractStep rep (titleStep rep ⟨false, [], [], r⟩)))



/-! ### Claim C1: invariants of the pair-rewriting appliers -/

/-- A pair the source actually applies (both sides non-empty). -/
def validAff (p : AffPair) : Prop :=
  p.old_affiliation ≠ "" ∧ p.recommended_affiliation ≠ ""

def validOrg (p : OrgPair) : Prop :=
  p.old_organizational_author ≠ "" ∧ p.recommended_organizational_author ≠ ""

/-- Some creator carries an affiliation with this name. -/
def hasAffName (cs : List Creator) (v : String) : Prop :=
  ∃ c ∈ cs, ∃ a ∈ c.affiliations, a.name.getD "" = v

/-- Some organizational creator carries this name. -/
def hasOrgName (cs : List Creator) (v : String) : Prop :=
  ∃ c ∈ cs, c.person_or_org.type = some "organizational" ∧ c.person_or_org.name = some v

theorem applyAffPair_not_has (oldA newA : String) (cs : List Creator)
    (h : newA ≠ oldA) : ¬ hasAffName (applyAffPair oldA newA cs).1 oldA := by
  rintro ⟨c, hc, a, ha, hname⟩
  simp only [applyAffPair, List.map_map] at hc
  obtain ⟨c0, _, hc0⟩ := List.mem_map.1 hc
  subst hc0
  simp only [Function.comp_apply, rewriteCreatorAffs, List.map_map] at ha
  obtain ⟨a0, _, ha0⟩ := List.mem_map.1 ha
  subst ha0
  simp only [Function.comp_apply, rewriteAff] at hname
  split at hname
  · simp only [Option.getD_some] at hname
    exact h hname
  · rename_i hne
    exact hne hname

theorem applyAffPair_intro (oldA newA : String) (cs : List Creator) (v : String)
    (h : hasAffName (applyAffPair oldA newA cs).1 v) : v = newA ∨ hasAffName cs v := by
  obtain ⟨c, hc, a, ha, hname⟩ := h
  simp only [applyAffPair, List.map_map] at hc
  obtain ⟨c0, hc0m, hc0⟩ := List.mem_map.1 hc
  subst hc0
  simp only [Function.comp_apply, rewriteCreatorAffs, List.map_map] at ha
  obtain ⟨a0, ha0m, ha0⟩ := List.mem_map.1 ha
  subst ha0
  simp only [Function.comp_apply, rewriteAff] at hname
  split at hname
  · left
    simpa using hname.symm
  · right
    exact ⟨c0, hc0m, a0, ha0m, hname⟩

theorem applyAffPair_noop (oldA newA : String) (cs : List Creator)
    (h : ¬ hasAffName cs oldA) : applyAffPair oldA newA cs = (cs, 0) := by
  rw [applyAffPair]
  have hcr : ∀ c ∈ cs, rewriteCreatorAffs oldA newA c = (c, 0) := by
    intro c hc
    rw [rewriteCreatorAffs]
    have haf : ∀ a ∈ c.affiliations, rewriteAff oldA newA a = (a, 0) := by
      intro a ha
      rw [rewriteAff, if_neg]
      intro heq
      exact h ⟨c, hc, a, ha, heq⟩
    have h1 : (c.affiliations.map (rewriteAff oldA newA)).map (fun x => x.1) =
        c.affiliations := by
      rw [List.map_map]
      rw [List.map_congr_left (fun a ha => by rw [Function.comp_apply, haf a ha])]
      exact List.map_id c.affiliations
    have h2 : ((c.affiliations.map (rewriteAff oldA newA)).map (fun x => x.2)).sum = 0 := by
      rw [List.map_map]
      rw [List.map_congr_left (fun a ha => by rw [Function.comp_apply, haf a ha])]
      simp
    rw [h1, h2]
  have h1 : (cs.map (rewriteCreatorAffs oldA newA)).map (fun x => x.1) = cs := by
    rw [List.map_map]
    rw [List.map_congr_left (fun c hc => by rw [Function.comp_apply, hcr c hc])]
    exact List.map_id cs
  have h2 : ((cs.map (rewriteCreatorAffs oldA newA)).map (fun x => x.2)).sum = 0 := by
    rw [List.map_map]
    rw [List.map_congr_left (fun c hc => by rw [Function.comp_apply, hcr c hc])]
    simp
  rw [h1, h2]


theorem applyAffPairs_intro (pairs : List AffPair) (cs : List Creator) (v : String)
    (h : hasAffName (applyAffPairs pairs cs).1 v) :
    hasAffName cs v ∨ ∃ p ∈ pairs, validAff p ∧ p.recommended_affiliation = v := by
  induction pairs generalizing cs with
  | nil => exact Or.inl h
  | cons p rest ih =>
    rw [applyAffPairs] at h
    split at h
    · rcases ih cs h with h2 | ⟨q, hq, hv, he⟩
      · exact Or.inl h2
      · exact Or.inr ⟨q, List.mem_cons_of_mem p hq, hv, he⟩
    · rename_i hval
      rcases ih (applyAffPair p.old_affiliation p.recommended_affiliation cs).1 h with
        h2 | ⟨q, hq, hv, he⟩
      · rcases applyAffPair_intro _ _ _ _ h2 with rfl | h3
        · refine Or.inr ⟨p, List.mem_cons_self p rest, ?_, rfl⟩
          push_neg at hval
          exact hval
        · exact Or.inl h3
      · exact Or.inr ⟨q, List.mem_cons_of_mem p hq, hv, he⟩

theorem applyAffPairs_clear (pairs : List AffPair) (cs : List Creator)
    (hcnd : ∀ p ∈ pairs, validAff p → ∀ q ∈ pairs, validAff q →
      p.recommended_affiliation ≠ q.old_affiliation) :
    ∀ q ∈ pairs, validAff q → ¬ hasAffName (applyAffPairs pairs cs).1 q.old_affiliation := by
  induction pairs generalizing cs with
  | nil =>
    intro q hq
    cases hq
  | cons p rest ih =>
    intro q hq hvq hhas
    rw [applyAffPairs] at hhas
    split at hhas
    · rename_i hval
      rcases List.mem_cons.1 hq with rfl | hq2
      · rcases hvq with ⟨h1, h2⟩
        rcases hval with hv | hv
        · exact h1 hv
        · exact h2 hv
      · exact ih cs
          (fun a ha hva b hb hvb => hcnd a (List.mem_cons_of_mem p ha) hva b
            (List.mem_cons_of_mem p hb) hvb) q hq2 hvq hhas
    · rename_i hval
      push_neg at hval
      have hvp : validAff p := hval
      rcases List.mem_cons.1 hq with rfl | hq2
      · -- the final state cannot contain q.old: it was cleared by q's own pass
        -- and no later pair reintroduces it
        rcases applyAffPairs_intro rest _ _ hhas with h2 | ⟨w, hw, hvw, he⟩
        · exact applyAffPair_not_has _ _ cs
            (hcnd q (List.mem_cons_self q rest) hvq q (List.mem_cons_self q rest) hvq) h2
        · exact hcnd w (List.mem_cons_of_mem q hw) hvw q (List.mem_cons_self q rest) hvq he
      · exact ih (applyAffPair p.old_affiliation p.recommended_affiliation cs).1
          (fun a ha hva b hb hvb => hcnd a (List.mem_cons_of_mem p ha) hva b
            (List.mem_cons_of_mem p hb) hvb) q hq2 hvq hhas

theorem applyAffPairs_noop (pairs : List AffPair) (cs : List Creator)
    (h : ∀ q ∈ pairs, validAff q → ¬ hasAffName cs q.old_affiliation) :
    applyAffPairs pairs cs = (cs, 0) := by
  induction pairs with
  | nil => rfl
  | cons p rest ih =>
    rw [applyAffPairs]
    split
    · exact ih (fun q hq => h q (List.mem_cons_of_mem p hq))
    · rename_i hval
      push_neg at hval
      rw [applyAffPair_noop _ _ _ (h p (List.mem_cons_self p rest) hval)]
      simp only [ih (fun q hq => h q (List.mem_cons_of_mem p hq))]

theorem applyOrgPair_not_has (oldO newO : String) (cs : List Creator)
    (h : newO ≠ oldO) : ¬ hasOrgName (applyOrgPair oldO newO cs).1 oldO := by
  rintro ⟨c, hc, htype, hname⟩
  simp only [applyOrgPair, List.map_map] at hc
  obtain ⟨c0, _, hc0⟩ := List.mem_map.1 hc
  subst hc0
  simp only [Function.comp_apply, rewriteOrgCreator] at htype hname
  by_cases hcond : c0.person_or_org.type = some "organizational" ∧
      c0.person_or_org.name = some oldO
  · rw [if_pos hcond] at hname
    simp only at hname
    cases hname
    exact h rfl
  · rw [if_neg hcond] at hname
    have htype2 : c0.person_or_org.type = some "organizational" := by
      rw [if_neg hcond] at htype
      exact htype
    exact hcond ⟨htype2, hname⟩

theorem applyOrgPair_intro (oldO newO : String) (cs : List Creator) (v : String)
    (h : hasOrgName (applyOrgPair oldO newO cs).1 v) : v = newO ∨ hasOrgName cs v := by
  obtain ⟨c, hc, htype, hname⟩ := h
  simp only [applyOrgPair, List.map_map] at hc
  obtain ⟨c0, hc0m, hc0⟩ := List.mem_map.1 hc
  subst hc0
  simp only [Function.comp_apply, rewriteOrgCreator] at htype hname
  by_cases hcond : c0.person_or_org.type = some "organizational" ∧
      c0.person_or_org.name = some oldO
  · rw [if_pos hcond] at hname
    simp only at hname
    cases hname
    exact Or.inl rfl
  · rw [if_neg hcond] at hname
    have htype2 : c0.person_or_org.type = some "organizational" := by
      rw [if_neg hcond] at htype
      exact htype
    exact Or.inr ⟨c0, hc0m, htype2, hname⟩

theorem applyOrgPair_noop (oldO newO : String) (cs : List Creator)
    (h : ¬ hasOrgName cs oldO) : applyOrgPair oldO newO cs = (cs, 0) := by
  rw [applyOrgPair]
  have hcr : ∀ c ∈ cs, rewriteOrgCreator oldO newO c = (c, 0) := by
    intro c hc
    rw [rewriteOrgCreator, if_neg]
    intro hcond
    exact h ⟨c, hc, hcond.1, hcond.2⟩
  have h1 : (cs.map (rewriteOrgCreator oldO newO)).map (fun x => x.1) = cs := by
    rw [List.map_map]
    rw [List.map_congr_left (fun c hc => by rw [Function.comp_apply, hcr c hc])]
    exact List.map_id cs
  have h2 : ((cs.map (rewriteOrgCreator oldO newO)).map (fun x => x.2)).sum = 0 := by
    rw [List.map_map]
    rw [List.map_congr_left (fun c hc => by rw [Function.comp_apply, hcr c hc])]
    simp
  rw [h1, h2]

theorem applyOrgPairs_intro (pairs : List OrgPair) (cs : List Creator) (v : String)
    (h : hasOrgName (applyOrgPairs pairs cs).1 v) :
    hasOrgName cs v ∨ ∃ p ∈ pairs, validOrg p ∧ p.recommended_organizational_author = v := by
  induction pairs generalizing cs with
  | nil => exact Or.inl h
  | cons p rest ih =>
    rw [applyOrgPairs] at h
    split at h
    · rcases ih cs h with h2 | ⟨q, hq, hv, he⟩
      · exact Or.inl h2
      · exact Or.inr ⟨q, List.mem_cons_of_mem p hq, hv, he⟩
    · rename_i hval
      rcases ih (applyOrgPair p.old_organizational_author
          p.recommended_organizational_author cs).1 h with h2 | ⟨q, hq, hv, he⟩
      · rcases applyOrgPair_intro _ _ _ _ h2 with rfl | h3
        · refine Or.inr ⟨p, List.mem_cons_self p rest, ?_, rfl⟩
          push_neg at hval
          exact hval
        · exact Or.inl h3
      · exact Or.inr ⟨q, List.mem_cons_of_mem p hq, hv, he⟩

theorem applyOrgPairs_clear (pairs : List OrgPair) (cs : List Creator)
    (hcnd : ∀ p ∈ pairs, validOrg p → ∀ q ∈ pairs, validOrg q →
      p.recommended_organizational_author ≠ q.old_organizational_author) :
    ∀ q ∈ pairs, validOrg q →
      ¬ hasOrgName (applyOrgPairs pairs cs).1 q.old_organizational_author := by
  induction pairs generalizing cs with
  | nil =>
    intro q hq
    cases hq
  | cons p rest ih =>
    intro q hq hvq hhas
    rw [applyOrgPairs] at hhas
    split at hhas
    · rename_i hval
      rcases List.mem_cons.1 hq with rfl | hq2
      · rcases hvq with ⟨h1, h2⟩
        rcases hval with hv | hv
        · exact h1 hv
        · exact h2 hv
      · exact ih cs
          (fun a ha hva b hb hvb => hcnd a (List.mem_cons_of_mem p ha) hva b
            (List.mem_cons_of_mem p hb) hvb) q hq2 hvq hhas
    · rename_i hval
      push_neg at hval
      rcases List.mem_cons.1 hq with rfl | hq2
      · rcases applyOrgPairs_intro rest _ _ hhas with h2 | ⟨w, hw, hvw, he⟩
        · exact applyOrgPair_not_has _ _ cs
            (hcnd q (List.mem_cons_self q rest) hvq q (List.mem_cons_self q rest) hvq) h2
        · exact hcnd w (List.mem_cons_of_mem q hw) hvw q (List.mem_cons_self q rest) hvq he
      · exact ih (applyOrgPair p.old_organizational_author
          p.recommended_organizational_author cs).1
          (fun a ha hva b hb hvb => hcnd a (List.mem_cons_of_mem p ha) hva b
            (List.mem_cons_of_mem p hb) hvb) q hq2 hvq hhas

theorem applyOrgPairs_noop (pairs : List OrgPair) (cs : List Creator)
    (h : ∀ q ∈ pairs, validOrg q → ¬ hasOrgName cs q.old_organizational_author) :
    applyOrgPairs pairs cs = (cs, 0) := by
  induction pairs with
  | nil => rfl
  | cons p rest ih =>
    rw [applyOrgPairs]
    split
    · exact ih (fun q hq => h q (List.mem_cons_of_mem p hq))
    · rename_i hval
      push_neg at hval
      rw [applyOrgPair_noop _ _ _ (h p (List.mem_cons_self p rest) hval)]
      simp only [ih (fun q hq => h q (List.mem_cons_of_mem p hq))]

/-! ### Scalar-field tracking through the orchestrator (for C1) -/

theorem titleVal_eqm {x y : Record} (h : (mtd x).title = (mtd y).title) :
    titleVal x = titleVal y := by
  rw [titleVal, titleVal, h]

theorem descrVal_eqm {x y : Record} (h : (mtd x).description = (mtd y).description) :
    descrVal x = descrVal y := by
  rw [descrVal, descrVal, h]

theorem dateVal_eqm {x y : Record} (h : (mtd x).publication_date = (mtd y).publication_date) :
    dateVal x = dateVal y := by
  rw [dateVal, dateVal, h]

theorem mtd_congr {x y : Record} (h : x.metadata = y.metadata) : mtd x = mtd y := by
  rw [mtd, mtd, h]

theorem titleVal_eqmd {x y : Record} (h : x.metadata = y.metadata) :
    titleVal x = titleVal y := by
  rw [titleVal, titleVal, mtd_congr h]

theorem descrVal_eqmd {x y : Record} (h : x.metadata = y.metadata) :
    descrVal x = descrVal y := by
  rw [descrVal, descrVal, mtd_congr h]

theorem dateVal_eqmd {x y : Record} (h : x.metadata = y.metadata) :
    dateVal x = dateVal y := by
  rw [dateVal, dateVal, mtd_congr h]

theorem titleStep_scalar (rep : Report) (st : ApplyResult) :
    descrVal (titleStep rep st).record = descrVal st.record
  ∧ dateVal (titleStep rep st).record = dateVal st.record := by
  rcases hco : rep.corrections.title with _ | c
  · rw [show titleStep rep st = st from by simp only [titleStep, hco]]
    exact ⟨rfl, rfl⟩
  · simp only [titleStep, hco]
    split
    · have hf := apply_title_frame st.record c
      split
      · exact ⟨descrVal_eqm hf.2.2.2.1, dateVal_eqm hf.2.2.2.2⟩
      · exact ⟨descrVal_eqm hf.2.2.2.1, dateVal_eqm hf.2.2.2.2⟩
    · exact ⟨rfl, rfl⟩

theorem abstractStep_scalar (rep : Report) (st : ApplyResult) :
    titleVal (abstractStep rep st).record = titleVal st.record
  ∧ dateVal (abstractStep rep st).record = dateVal st.record := by
  rcases hco : rep.corrections.abstract with _ | c
  · rw [show abstractStep rep st = st from by simp only [abstractStep, hco]]
    exact ⟨rfl, rfl⟩
  · simp only [abstractStep, hco]
    split
    · have hf := apply_abstract_frame st.record c
      split
      · exact ⟨titleVal_eqm hf.2.2.2.1, dateVal_eqm hf.2.2.2.2⟩
      · exact ⟨titleVal_eqm hf.2.2.2.1, dateVal_eqm hf.2.2.2.2⟩
    · exact ⟨rfl, rfl⟩

theorem dateStep_scalar (rep : Report) (st : ApplyResult) :
    titleVal (dateStep rep st).record = titleVal st.record
  ∧ descrVal (dateStep rep st).record = descrVal st.record := by
  rcases hco : rep.corrections.publication_date with _ | c
  · rw [show dateStep rep st = st from by simp only [dateStep, hco]]
    exact ⟨rfl, rfl⟩
  · simp only [dateStep, hco]
    split
    · have hf := apply_publication_date_frame st.record c
      split
      · exact ⟨titleVal_eqm hf.2.2.2.1, descrVal_eqm hf.2.2.2.2⟩
      · exact ⟨titleVal_eqm hf.2.2.2.1, descrVal_eqm hf.2.2.2.2⟩
    · exact ⟨rfl, rfl⟩

theorem affStep_scalar (rep : Report) (st : ApplyResult) :
    titleVal (affStep rep st).record = titleVal st.record
  ∧ descrVal (affStep rep st).record = descrVal st.record
  ∧ dateVal (affStep rep st).record = dateVal st.record := by
  have hs := apply_affiliations_spec st.record rep.affiliation_corrections
  cases hg : gateOn rep.affiliation_correction_recommended with
  | false =>
    simp only [affStep, hg, Bool.false_eq_true, if_false]
    split
    · exact ⟨rfl, rfl, rfl⟩
    · exact ⟨rfl, rfl, rfl⟩
  | true =>
    simp only [affStep, hg, if_true]
    split
    · exact ⟨titleVal_eqm hs.2.2.2.2.1, descrVal_eqm hs.2.2.2.2.2.1, dateVal_eqm hs.2.2.2.2.2.2⟩
    · split
      · exact ⟨titleVal_eqm hs.2.2.2.2.1, descrVal_eqm hs.2.2.2.2.2.1, dateVal_eqm hs.2.2.2.2.2.2⟩
      · exact ⟨titleVal_eqm hs.2.2.2.2.1, descrVal_eqm hs.2.2.2.2.2.1, dateVal_eqm hs.2.2.2.2.2.2⟩

theorem orgStep_scalar (rep : Report) (st : ApplyResult) :
    titleVal (orgStep rep st).record = titleVal st.record
  ∧ descrVal (orgStep rep st).record = descrVal st.record
  ∧ dateVal (orgStep rep st).record = dateVal st.record := by
  have hs := apply_org_authors_spec st.record rep.organizational_author_corrections
  cases hne : rep.organizational_author_corrections.isEmpty with
  | true =>
    rw [show orgStep rep st = st from by simp only [orgStep, hne, if_true]]
    exact ⟨rfl, rfl, rfl⟩
  | false =>
    simp only [orgStep, hne, Bool.false_eq_true, if_false]
    split
    · exact ⟨titleVal_eqm hs.2.2.2.2.1, descrVal_eqm hs.2.2.2.2.2.1, dateVal_eqm hs.2.2.2.2.2.2⟩
    · exact ⟨titleVal_eqm hs.2.2.2.2.1, descrVal_eqm hs.2.2.2.2.2.1, dateVal_eqm hs.2.2.2.2.2.2⟩

theorem relStep_scalar (rep : Report) (st : ApplyResult) :
    titleVal (relStep rep st).record = titleVal st.record
  ∧ descrVal (relStep rep st).record = descrVal st.record
  ∧ dateVal (relStep rep st).record = dateVal st.record := by
  rcases hco : rep.corrections.related_identifiers with _ | p
  · rw [show relStep rep st = st from by simp only [relStep, hco]]
    exact ⟨rfl, rfl, rfl⟩
  · simp only [relStep, hco]
    have hf := add_related_frame st.record (coerceRel p)
    split
    · split
      · exact ⟨titleVal_eqm hf.2.2.1, descrVal_eqm hf.2.2.2.1, dateVal_eqm hf.2.2.2.2⟩
      · exact ⟨titleVal_eqm hf.2.2.1, descrVal_eqm hf.2.2.2.1, dateVal_eqm hf.2.2.2.2⟩
    · exact ⟨rfl, rfl, rfl⟩


theorem titleVal_titleStep (rep : Report) (st : ApplyResult) (c : String)
    (hco : rep.corrections.title = some c) (hg : gateOn rep.title_corrected = true)
    (hc : c ≠ "") : titleVal (titleStep rep st).record = c := by
  simp only [titleStep, hco, hg, if_true]
  by_cases he : c = titleVal st.record
  · rw [apply_title_noop st.record c (Or.inr he)]
    exact he.symm
  · rw [apply_title_hit st.record c hc he]
    simp [titleVal, mtd]

theorem descrVal_abstractStep (rep : Report) (st : ApplyResult) (c : String)
    (hco : rep.corrections.abstract = some c) (hg : gateOn rep.abstract_corrected = true)
    (hc : c ≠ "") : descrVal (abstractStep rep st).record = c := by
  simp only [abstractStep, hco, hg, if_true]
  by_cases he : c = descrVal st.record
  · rw [apply_abstract_noop st.record c (Or.inr he)]
    exact he.symm
  · rw [apply_abstract_hit st.record c hc he]
    simp [descrVal, mtd]

theorem dateVal_dateStep (rep : Report) (st : ApplyResult) (c : String)
    (hco : rep.corrections.publication_date = some c) (hg : gateOn rep.date_corrected = true)
    (hc : c ≠ "") : dateVal (dateStep rep st).record = c := by
  simp only [dateStep, hco, hg, if_true]
  by_cases he : c = dateVal st.record
  · rw [apply_publication_date_noop st.record c (Or.inr he)]
    exact he.symm
  · rw [apply_publication_date_hit st.record c hc he]
    simp [dateVal, mtd]

theorem titleVal_final (r : Record) (rep : Report) (c : String)
    (hco : rep.corrections.title = some c) (hg : gateOn rep.title_corrected = true)
    (hc : c ≠ "") : titleVal (apply_corrections r rep).record = c := by
  obtain ⟨_, _, _, _, _, hmd4⟩ := descStep_shape rep (dateStep rep (abstractStep rep (titleStep rep ⟨false, [], [], r⟩)))
  have hgoal : apply_corrections r rep = relStep rep (orgStep rep (affStep rep (descStep rep (dateStep rep (abstractStep rep (titleStep rep ⟨false, [], [], r⟩)))))) := rfl
  rw [hgoal, (relStep_scalar rep (orgStep rep (affStep rep (descStep rep (dateStep rep (abstractStep rep (titleStep rep ⟨false, [], [], r⟩))))))).1, (orgStep_scalar rep (affStep rep (descStep rep (dateStep rep (abstractStep rep (titleStep rep ⟨false, [], [], r⟩)))))).1,
    (affStep_scalar rep (descStep rep (dateStep rep (abstractStep rep (titleStep rep ⟨false, [], [], r⟩))))).1, titleVal_eqmd hmd4,
    (dateStep_scalar rep (abstractStep rep (titleStep rep ⟨false, [], [], r⟩))).1, (abstractStep_scalar rep (titleStep rep ⟨false, [], [], r⟩)).1]
  exact titleVal_titleStep rep ⟨false, [], [], r⟩ c hco hg hc

theorem descrVal_final (r : Record) (rep : Report) (c : String)
    (hco : rep.corrections.abstract = some c) (hg : gateOn rep.abstract_corrected = true)
    (hc : c ≠ "") : descrVal (apply_corrections r rep).record = c := by
  obtain ⟨_, _, _, _, _, hmd4⟩ := descStep_shape rep (dateStep rep (abstractStep rep (titleStep rep ⟨false, [], [], r⟩)))
  have hgoal : apply_corrections r rep = relStep rep (orgStep rep (affStep rep (descStep rep (dateStep rep (abstractStep rep (titleStep rep ⟨false, [], [], r⟩)))))) := rfl
  rw [hgoal, (relStep_scalar rep (orgStep rep (affStep rep (descStep rep (dateStep rep (abstractStep rep (titleStep rep ⟨false, [], [], r⟩))))))).2.1, (orgStep_scalar rep (affStep rep (descStep rep (dateStep rep (abstractStep rep (titleStep rep ⟨false, [], [], r⟩)))))).2.1,
    (affStep_scalar rep (descStep rep (dateStep rep (abstractStep rep (titleStep rep ⟨false, [], [], r⟩))))).2.1, descrVal_eqmd hmd4,
    (dateStep_scalar rep (abstractStep rep (titleStep rep ⟨false, [], [], r⟩))).2]
  exact descrVal_abstractStep rep (titleStep rep ⟨false, [], [], r⟩) c hco hg hc

theorem dateVal_final (r : Record) (rep : Report) (c : String)
    (hco : rep.corrections.publication_date = some c)
    (hg : gateOn rep.date_corrected = true)
    (hc : c ≠ "") : dateVal (apply_corrections r rep).record = c := by
  obtain ⟨_, _, _, _, _, hmd4⟩ := descStep_shape rep (dateStep rep (abstractStep rep (titleStep rep ⟨false, [], [], r⟩)))
  have hgoal : apply_corrections r rep = relStep rep (orgStep rep (affStep rep (descStep rep (dateStep rep (abstractStep rep (titleStep rep ⟨false, [], [], r⟩)))))) := rfl
  rw [hgoal, (relStep_scalar rep (orgStep rep (affStep rep (descStep rep (dateStep rep (abstractStep rep (titleStep rep ⟨false, [], [], r⟩))))))).2.2, (orgStep_scalar rep (affStep rep (descStep rep (dateStep rep (abstractStep rep (titleStep rep ⟨false, [], [], r⟩)))))).2.2,
    (affStep_scalar rep (descStep rep (dateStep rep (abstractStep rep (titleStep rep ⟨false, [], [], r⟩))))).2.2, dateVal_eqmd hmd4]
  exact dateVal_dateStep rep (abstractStep rep (titleStep rep ⟨false, [], [], r⟩)) c hco hg hc


theorem apply_desc_cases (r : Record) (dels : List String) :
    (apply_descriptor_deletions r dels = (false, r) ∧
      (dels = [] ∨ descOf r = none ∨
        (∃ df, descOf r = some df ∧ descTruthy df = false) ∨
        (∃ v, descOf r = some (.other v)) ∨
        (∃ s, descOf r = some (.str s) ∧
          ((parseDescriptors s).filter (keepDescriptor dels)).length =
            (parseDescriptors s).length) ∨
        (∃ l, descOf r = some (.list l) ∧
          (l.filter (keepDescriptor dels)).length = l.length)))
  ∨ (∃ s, descOf r = some (.str s) ∧
      descOf (apply_descriptor_deletions r dels).2 =
        some (.str (joinDescriptors ((parseDescriptors s).filter (keepDescriptor dels)))))
  ∨ (∃ l, descOf r = some (.list l) ∧
      descOf (apply_descriptor_deletions r dels).2 =
        some (.list (l.filter (keepDescriptor dels)))) := by
  by_cases hd : dels = []
  · exact Or.inl ⟨apply_desc_noop r dels (Or.inl hd), Or.inl hd⟩
  rcases hdesc : descOf r with _ | df
  · exact Or.inl ⟨apply_desc_noop r dels (Or.inr (Or.inl hdesc)), Or.inr (Or.inl rfl)⟩
  by_cases ht : descTruthy df = true
  · cases df with
    | str s =>
      have hs : s ≠ "" := by simpa [descTruthy, bne_iff_ne] using ht
      by_cases hlen : ((parseDescriptors s).filter (keepDescriptor dels)).length =
          (parseDescriptors s).length
      · exact Or.inl ⟨apply_desc_noop r dels (Or.inr (Or.inr (Or.inr (Or.inr (Or.inl
          ⟨s, hdesc, hlen⟩))))), Or.inr (Or.inr (Or.inr (Or.inr (Or.inl ⟨s, rfl, hlen⟩))))⟩
      · refine Or.inr (Or.inl ⟨s, rfl, ?_⟩)
        rw [apply_desc_str_eq r dels s hd hdesc hs hlen]
        rfl
    | list l =>
      have hl : l ≠ [] := by simpa [descTruthy, List.isEmpty_iff] using ht
      by_cases hlen : (l.filter (keepDescriptor dels)).length = l.length
      · exact Or.inl ⟨apply_desc_noop r dels (Or.inr (Or.inr (Or.inr (Or.inr (Or.inr
          ⟨l, hdesc, hlen⟩))))), Or.inr (Or.inr (Or.inr (Or.inr (Or.inr ⟨l, rfl, hlen⟩))))⟩
      · refine Or.inr (Or.inr ⟨l, rfl, ?_⟩)
        rw [apply_desc_list_eq r dels l hd hdesc hl hlen]
        rfl
    | other v =>
      exact Or.inl ⟨apply_desc_noop r dels (Or.inr (Or.inr (Or.inr (Or.inl ⟨v, hdesc⟩)))),
        Or.inr (Or.inr (Or.inr (Or.inl ⟨v, rfl⟩)))⟩
  · simp only [Bool.not_eq_true] at ht
    exact Or.inl ⟨apply_desc_noop r dels (Or.inr (Or.inr (Or.inl ⟨df, hdesc, ht⟩))),
      Or.inr (Or.inr (Or.inl ⟨df, rfl, ht⟩))⟩

theorem filter_keep_idem (dels : List String) (l : List String) :
    ((l.filter (keepDescriptor dels)).filter (keepDescriptor dels)).length =
      (l.filter (keepDescriptor dels)).length := by
  rw [List.filter_eq_self.mpr (fun a ha => List.of_mem_filter ha)]

/-- Re-running the descriptor deletion against any record carrying the
field value left by a previous run is a no-op. -/
theorem apply_desc_replay (x r0 : Record) (dels : List String)
    (h : descOf x = descOf (apply_descriptor_deletions r0 dels).2) :
    apply_descriptor_deletions x dels = (false, x) := by
  rcases apply_desc_cases r0 dels with ⟨heq, hcond⟩ | ⟨s, _, hres⟩ | ⟨l, _, hres⟩
  · rw [heq] at h
    apply apply_desc_noop
    rcases hcond with hc | hc | ⟨df, hdf, ht⟩ | ⟨v, hv⟩ | ⟨s, hsx, hlen⟩ | ⟨l, hlx, hlen⟩
    · exact Or.inl hc
    · exact Or.inr (Or.inl (h.trans hc))
    · exact Or.inr (Or.inr (Or.inl ⟨df, h.trans hdf, ht⟩))
    · exact Or.inr (Or.inr (Or.inr (Or.inl ⟨v, h.trans hv⟩)))
    · exact Or.inr (Or.inr (Or.inr (Or.inr (Or.inl ⟨s, h.trans hsx, hlen⟩))))
    · exact Or.inr (Or.inr (Or.inr (Or.inr (Or.inr ⟨l, h.trans hlx, hlen⟩))))
  · rw [hres] at h
    apply apply_desc_noop
    refine Or.inr (Or.inr (Or.inr (Or.inr (Or.inl ⟨_, h, ?_⟩))))
    rw [parse_join_filter]
    exact filter_keep_idem dels _
  · rw [hres] at h
    apply apply_desc_noop
    refine Or.inr (Or.inr (Or.inr (Or.inr (Or.inr ⟨_, h, ?_⟩))))
    exact filter_keep_idem dels _

theorem addRelLoop_covers (ids : List RelatedIdentifier) :
    ∀ (existing : List RelatedIdentifier) (n : Nat), ∀ e ∈ ids, identOf e = "" ∨
      identOf e ∈ ((addRelLoop ids existing (existing.map identOf) n).1.map identOf) := by
  induction ids with
  | nil =>
    intro existing n e he
    cases he
  | cons e0 rest ih =>
    intro existing n e he
    by_cases hc : identOf e0 ≠ "" ∧ ¬ (existing.map identOf).contains (identOf e0)
    · have hseen : existing.map identOf ++ [identOf e0] = (existing ++ [e0]).map identOf := by
        simp
      rw [addRelLoop, if_pos hc, hseen]
      rcases List.mem_cons.1 he with rfl | he2
      · right
        obtain ⟨tail, heq, _, _, _⟩ := addRelLoop_decomp rest (existing ++ [e]) (n + 1)
        rw [heq]
        simp
      · exact ih (existing ++ [e0]) (n + 1) e he2
    · rw [addRelLoop, if_neg hc]
      rcases List.mem_cons.1 he with rfl | he2
      · by_cases hz : identOf e = ""
        · exact Or.inl hz
        · right
          push_neg at hc
          have hcont := hc hz
          rw [List.elem_iff] at hcont
          obtain ⟨tail, heq, _, _, _⟩ := addRelLoop_decomp rest existing n
          rw [heq]
          simp only [List.map_append, List.mem_append]
          exact Or.inl hcont
      · exact ih existing n e he2

/-- Running `add_related_identifiers` a second time with the same inputs
adds nothing and leaves the record unchanged. -/
theorem add_related_second (r : Record) (ids : List RelatedIdentifier) :
    add_related_identifiers (add_related_identifiers r ids).2 ids =
      (0, (add_related_identifiers r ids).2) := by
  by_cases hids : ids = []
  · subst hids
    rfl
  obtain ⟨tail, heq, hsub, hmem, hnd⟩ :=
    addRelLoop_decomp ids ((mtd r).related_identifiers.getD []) 0
  have hr1 : (add_related_identifiers r ids).2 =
      {r with metadata := some {mtd r with related_identifiers := some ((mtd r).related_identifiers.getD [] ++ tail)}} := by
    rw [add_related_identifiers, if_neg hids]
    simp only [heq]
  obtain ⟨tail2, heq2, hsub2, hmem2, _⟩ :=
    addRelLoop_decomp ids ((mtd r).related_identifiers.getD [] ++ tail) 0
  have htail2 : tail2 = [] := by
    cases tail2 with
    | nil => rfl
    | cons e ts =>
      exfalso
      have he := hmem2 e (List.mem_cons_self e ts)
      have hin : e ∈ ids := hsub2.subset (List.mem_cons_self e ts)
      rcases addRelLoop_covers ids ((mtd r).related_identifiers.getD []) 0 e hin with hz | hm
      · exact he.1 hz
      · rw [heq] at hm
        exact he.2 hm
  subst htail2
  simp only [List.append_nil, List.length_nil, Nat.add_zero] at heq2
  simp only [mtd, Option.getD] at heq2
  rw [hr1, add_related_identifiers, if_neg hids]
  simp only [mtd, Option.getD, heq2]

/-! ### Second-run no-op machinery for the idempotence analysis -/

/-- Re-attaching an already-present metadata object is the identity. -/
theorem attach_mtd_eq (x : Record) (h : x.metadata.isSome = true) :
    ({x with metadata := some (mtd x)} : Record) = x := by
  cases x with
  | mk md cf =>
    cases md with
    | none => cases h
    | some m => rfl

theorem apply_title_mtdSome (r : Record) (c : String) (h : r.metadata.isSome = true) :
    (apply_title r c).2.metadata.isSome = true := by
  simp only [apply_title]
  split
  · exact h
  · split
    · rfl
    · rfl

theorem apply_title_mtdSome2 (r : Record) (c : String) (hc : c ≠ "") :
    (apply_title r c).2.metadata.isSome = true := by
  simp only [apply_title, if_neg hc]
  split
  · rfl
  · rfl

theorem apply_abstract_mtdSome (r : Record) (c : String) (h : r.metadata.isSome = true) :
    (apply_abstract r c).2.metadata.isSome = true := by
  simp only [apply_abstract]
  split
  · exact h
  · split
    · rfl
    · rfl

theorem apply_abstract_mtdSome2 (r : Record) (c : String) (hc : c ≠ "") :
    (apply_abstract r c).2.metadata.isSome = true := by
  simp only [apply_abstract, if_neg hc]
  split
  · rfl
  · rfl

theorem apply_publication_date_mtdSome (r : Record) (c : String)
    (h : r.metadata.isSome = true) :
    (apply_publication_date r c).2.metadata.isSome = true := by
  simp only [apply_publication_date]
  split
  · exact h
  · split
    · rfl
    · rfl

theorem apply_publication_date_mtdSome2 (r : Record) (c : String) (hc : c ≠ "") :
    (apply_publication_date r c).2.metadata.isSome = true := by
  simp only [apply_publication_date, if_neg hc]
  split
  · rfl
  · rfl

theorem apply_affiliations_mtdSome (r : Record) (cors : List AffPair)
    (h : r.metadata.isSome = true) :
    (apply_affiliations r cors).2.metadata.isSome = true := by
  simp only [apply_affiliations]
  split
  · exact h
  · split
    · exact h
    · rfl

theorem apply_org_authors_mtdSome (r : Record) (cors : List OrgPair)
    (h : r.metadata.isSome = true) :
    (apply_org_authors r cors).2.metadata.isSome = true := by
  simp only [apply_org_authors]
  split
  · exact h
  · split
    · exact h
    · rfl

theorem add_related_mtdSome (r : Record) (ids : List RelatedIdentifier)
    (h : r.metadata.isSome = true) :
    (add_related_identifiers r ids).2.metadata.isSome = true := by
  simp only [add_related_identifiers]
  split
  · exact h
  · rfl

theorem titleStep_mtdSome (rep : Report) (st : ApplyResult)
    (h : st.record.metadata.isSome = true) :
    (titleStep rep st).record.metadata.isSome = true := by
  rcases hco : rep.corrections.title with _ | c
  · simp only [titleStep, hco]
    exact h
  · simp only [titleStep, hco]
    split
    · split
      · exact apply_title_mtdSome st.record c h
      · exact apply_title_mtdSome st.record c h
    · exact h

theorem abstractStep_mtdSome (rep : Report) (st : ApplyResult)
    (h : st.record.metadata.isSome = true) :
    (abstractStep rep st).record.metadata.isSome = true := by
  rcases hco : rep.corrections.abstract with _ | c
  · simp only [abstractStep, hco]
    exact h
  · simp only [abstractStep, hco]
    split
    · split
      · exact apply_abstract_mtdSome st.record c h
      · exact apply_abstract_mtdSome st.record c h
    · exact h

theorem dateStep_mtdSome (rep : Report) (st : ApplyResult)
    (h : st.record.metadata.isSome = true) :
    (dateStep rep st).record.metadata.isSome = true := by
  rcases hco : rep.corrections.publication_date with _ | c
  · simp only [dateStep, hco]
    exact h
  · simp only [dateStep, hco]
    split
    · split
      · exact apply_publication_date_mtdSome st.record c h
      · exact apply_publication_date_mtdSome st.record c h
    · exact h

theorem descStep_mtdSome (rep : Report) (st : ApplyResult)
    (h : st.record.metadata.isSome = true) :
    (descStep rep st).record.metadata.isSome = true := by
  rcases hco : rep.corrections.delete_descriptor with _ | payload
  · simp only [descStep, hco]
    exact h
  · simp only [descStep, hco]
    split
    · split
      · rw [apply_desc_metadata st.record (coerceDel payload)]
        exact h
      · rw [apply_desc_metadata st.record (coerceDel payload)]
        exact h
    · exact h

theorem affStep_mtdSome (rep : Report) (st : ApplyResult)
    (h : st.record.metadata.isSome = true) :
    (affStep rep st).record.metadata.isSome = true := by
  cases hg : gateOn rep.affiliation_correction_recommended with
  | true =>
    simp only [affStep, hg, if_true]
    split
    · exact apply_affiliations_mtdSome st.record _ h
    · split
      · exact apply_affiliations_mtdSome st.record _ h
      · exact apply_affiliations_mtdSome st.record _ h
  | false =>
    simp only [affStep, hg, Bool.false_eq_true, if_false]
    split
    · exact h
    · exact h

theorem orgStep_mtdSome (rep : Report) (st : ApplyResult)
    (h : st.record.metadata.isSome = true) :
    (orgStep rep st).record.metadata.isSome = true := by
  cases hne : rep.organizational_author_corrections.isEmpty with
  | true =>
    simp only [orgStep, hne, if_true]
    exact h
  | false =>
    simp only [orgStep, hne, Bool.false_eq_true, if_false]
    split
    · exact apply_org_authors_mtdSome st.record _ h
    · exact apply_org_authors_mtdSome st.record _ h

theorem relStep_mtdSome (rep : Report) (st : ApplyResult)
    (h : st.record.metadata.isSome = true) :
    (relStep rep st).record.metadata.isSome = true := by
  rcases hco : rep.corrections.related_identifiers with _ | p
  · simp only [relStep, hco]
    exact h
  · simp only [relStep, hco]
    split
    · split
      · exact add_related_mtdSome st.record _ h
      · exact add_related_mtdSome st.record _ h
    · exact h

theorem titleStep_sets_mtd (rep : Report) (st : ApplyResult) (c : String)
    (hco : rep.corrections.title = some c) (hg : gateOn rep.title_corrected = true)
    (hc : c ≠ "") : (titleStep rep st).record.metadata.isSome = true := by
  simp only [titleStep, hco, hg, if_true]
  split
  · exact apply_title_mtdSome2 st.record c hc
  · exact apply_title_mtdSome2 st.record c hc

theorem abstractStep_sets_mtd (rep : Report) (st : ApplyResult) (c : String)
    (hco : rep.corrections.abstract = some c) (hg : gateOn rep.abstract_corrected = true)
    (hc : c ≠ "") : (abstractStep rep st).record.metadata.isSome = true := by
  simp only [abstractStep, hco, hg, if_true]
  split
  · exact apply_abstract_mtdSome2 st.record c hc
  · exact apply_abstract_mtdSome2 st.record c hc

theorem dateStep_sets_mtd (rep : Report) (st : ApplyResult) (c : String)
    (hco : rep.corrections.publication_date = some c) (hg : gateOn rep.date_corrected = true)
    (hc : c ≠ "") : (dateStep rep st).record.metadata.isSome = true := by
  simp only [dateStep, hco, hg, if_true]
  split
  · exact apply_publication_date_mtdSome2 st.record c hc
  · exact apply_publication_date_mtdSome2 st.record c hc

/-- If the pair fold moves no creator, `apply_affiliations` returns the
record unchanged. -/
theorem apply_affiliations_noop_rec (r : Record) (cors : List AffPair)
    (h : applyAffPairs cors (creatorsOf r) = (creatorsOf r, 0)) :
    apply_affiliations r cors = (0, r) := by
  by_cases hc : cors = []
  · rw [apply_affiliations, if_pos hc]
  cases r with
  | mk md cf =>
    cases md with
    | none => rw [apply_affiliations, if_neg hc]
    | some m =>
      have hcr : creatorsOf (Record.mk (some m) cf) = m.creators := rfl
      rw [hcr] at h
      rw [apply_affiliations, if_neg hc]
      simp only [h]

theorem apply_org_authors_noop_rec (r : Record) (cors : List OrgPair)
    (h : applyOrgPairs cors (creatorsOf r) = (creatorsOf r, 0)) :
    apply_org_authors r cors = (0, r) := by
  by_cases hc : cors = []
  · rw [apply_org_authors, if_pos hc]
  cases r with
  | mk md cf =>
    cases md with
    | none => rw [apply_org_authors, if_neg hc]
    | some m =>
      have hcr : creatorsOf (Record.mk (some m) cf) = m.creators := rfl
      rw [hcr] at h
      rw [apply_org_authors, if_neg hc]
      simp only [h]

/-- With the gate on, the record leaving `affStep` carries exactly the
fold of the affiliation pairs over the incoming creators. -/
theorem affStep_applied (rep : Report) (st : ApplyResult)
    (hg : gateOn rep.affiliation_correction_recommended = true) :
    creatorsOf (affStep rep st).record =
      (applyAffPairs rep.affiliation_corrections (creatorsOf st.record)).1 := by
  simp only [affStep, hg, if_true]
  split
  · exact (apply_affiliations_spec st.record _).2.1
  · split
    · exact (apply_affiliations_spec st.record _).2.1
    · exact (apply_affiliations_spec st.record _).2.1

/-- With a non-empty pair list, the record leaving `orgStep` carries the
fold of the organizational-author pairs over the incoming creators. -/
theorem orgStep_applied (rep : Report) (st : ApplyResult)
    (hne : rep.organizational_author_corrections.isEmpty = false) :
    creatorsOf (orgStep rep st).record =
      (applyOrgPairs rep.organizational_author_corrections (creatorsOf st.record)).1 := by
  simp only [orgStep, hne, Bool.false_eq_true, if_false]
  split
  · exact (apply_org_authors_spec st.record _).2.1
  · exact (apply_org_authors_spec st.record _).2.1

/-- With the payload present and the gate on, the record leaving
`descStep` is the applier output. -/
theorem descStep_applied (rep : Report) (st : ApplyResult) (payload : DelDescriptor)
    (hco : rep.corrections.delete_descriptor = some payload)
    (hg : gateOn rep.descriptor_corrected = true) :
    (descStep rep st).record =
      (apply_descriptor_deletions st.record (coerceDel payload)).2 := by
  simp only [descStep, hco, hg, if_true]
  split
  · rfl
  · rfl

/-- With a truthy payload, the record leaving `relStep` is the applier
output. -/
theorem relStep_applied (rep : Report) (st : ApplyResult) (p : RelPayload)
    (hco : rep.corrections.related_identifiers = some p)
    (ht : relPayloadTruthy p = true) :
    (relStep rep st).record = (add_related_identifiers st.record (coerceRel p)).2 := by
  simp only [relStep, hco, ht, if_true]
  split
  · rfl
  · rfl

/-! Per-step second-run no-op lemmas: conditions on the incoming record
under which the step leaves the record and the changed flag alone. -/

theorem titleStep_noop (rep : Report) (st : ApplyResult)
    (h : ∀ c, rep.corrections.title = some c → gateOn rep.title_corrected = true → c ≠ "" →
      titleVal st.record = c ∧ st.record.metadata.isSome = true) :
    (titleStep rep st).record = st.record ∧ (titleStep rep st).changed = st.changed := by
  rcases hco : rep.corrections.title with _ | c
  · simp only [titleStep, hco]
    constructor <;> trivial
  cases hg : gateOn rep.title_corrected with
  | false =>
    simp only [titleStep, hco, hg, Bool.false_eq_true, if_false]
    constructor <;> trivial
  | true =>
    simp only [titleStep, hco, hg, if_true]
    by_cases hc : c = ""
    · subst hc
      rw [show apply_title st.record "" = (false, st.record) from by
        rw [apply_title, if_pos rfl]]
      constructor <;> trivial
    · obtain ⟨hval, hsome⟩ := h c hco hg hc
      have happ : apply_title st.record c = (false, st.record) := by
        simp only [apply_title, if_neg hc]
        rw [titleVal] at hval
        rw [if_pos hval, attach_mtd_eq st.record hsome]
      rw [happ]
      constructor <;> trivial

theorem abstractStep_noop (rep : Report) (st : ApplyResult)
    (h : ∀ c, rep.corrections.abstract = some c → gateOn rep.abstract_corrected = true →
      c ≠ "" → descrVal st.record = c ∧ st.record.metadata.isSome = true) :
    (abstractStep rep st).record = st.record ∧
      (abstractStep rep st).changed = st.changed := by
  rcases hco : rep.corrections.abstract with _ | c
  · simp only [abstractStep, hco]
    constructor <;> trivial
  cases hg : gateOn rep.abstract_corrected with
  | false =>
    simp only [abstractStep, hco, hg, Bool.false_eq_true, if_false]
    constructor <;> trivial
  | true =>
    simp only [abstractStep, hco, hg, if_true]
    by_cases hc : c = ""
    · subst hc
      rw [show apply_abstract st.record "" = (false, st.record) from by
        rw [apply_abstract, if_pos rfl]]
      constructor <;> trivial
    · obtain ⟨hval, hsome⟩ := h c hco hg hc
      have happ : apply_abstract st.record c = (false, st.record) := by
        simp only [apply_abstract, if_neg hc]
        rw [descrVal] at hval
        rw [if_pos hval, attach_mtd_eq st.record hsome]
      rw [happ]
      constructor <;> trivial

theorem dateStep_noop (rep : Report) (st : ApplyResult)
    (h : ∀ c, rep.corrections.publication_date = some c →
      gateOn rep.date_corrected = true → c ≠ "" →
      dateVal st.record = c ∧ st.record.metadata.isSome = true) :
    (dateStep rep st).record = st.record ∧ (dateStep rep st).changed = st.changed := by
  rcases hco : rep.corrections.publication_date with _ | c
  · simp only [dateStep, hco]
    constructor <;> trivial
  cases hg : gateOn rep.date_corrected with
  | false =>
    simp only [dateStep, hco, hg, Bool.false_eq_true, if_false]
    constructor <;> trivial
  | true =>
    simp only [dateStep, hco, hg, if_true]
    by_cases hc : c = ""
    · subst hc
      rw [show apply_publication_date st.record "" = (false, st.record) from by
        rw [apply_publication_date, if_pos rfl]]
      constructor <;> trivial
    · obtain ⟨hval, hsome⟩ := h c hco hg hc
      have happ : apply_publication_date st.record c = (false, st.record) := by
        simp only [apply_publication_date, if_neg hc]
        rw [dateVal] at hval
        rw [if_pos hval, attach_mtd_eq st.record hsome]
      rw [happ]
      constructor <;> trivial

theorem descStep_noop (rep : Report) (st : ApplyResult)
    (h : ∀ payload, rep.corrections.delete_descriptor = some payload →
      gateOn rep.descriptor_corrected = true →
      apply_descriptor_deletions st.record (coerceDel payload) = (false, st.record)) :
    (descStep rep st).record = st.record ∧ (descStep rep st).changed = st.changed := by
  rcases hco : rep.corrections.delete_descriptor with _ | payload
  · simp only [descStep, hco]
    constructor <;> trivial
  cases hg : gateOn rep.descriptor_corrected with
  | false =>
    simp only [descStep, hco, hg, Bool.false_eq_true, if_false]
    constructor <;> trivial
  | true =>
    simp only [descStep, hco, hg, if_true, h payload hco hg]
    constructor <;> trivial

theorem affStep_noop (rep : Report) (st : ApplyResult)
    (h : gateOn rep.affiliation_correction_recommended = true →
      applyAffPairs rep.affiliation_corrections (creatorsOf st.record) =
        (creatorsOf st.record, 0)) :
    (affStep rep st).record = st.record ∧ (affStep rep st).changed = st.changed := by
  cases hg : gateOn rep.affiliation_correction_recommended with
  | false =>
    simp only [affStep, hg, Bool.false_eq_true, if_false]
    split
    · constructor <;> trivial
    · constructor <;> trivial
  | true =>
    have happ : apply_affiliations st.record rep.affiliation_corrections =
        (0, st.record) := apply_affiliations_noop_rec _ _ (h hg)
    simp only [affStep, hg, if_true, happ]
    split
    · rename_i hpos
      exact absurd hpos (by simp)
    · split
      · constructor <;> trivial
      · constructor <;> trivial

theorem orgStep_noop (rep : Report) (st : ApplyResult)
    (h : applyOrgPairs rep.organizational_author_corrections (creatorsOf st.record) =
      (creatorsOf st.record, 0)) :
    (orgStep rep st).record = st.record ∧ (orgStep rep st).changed = st.changed := by
  cases hne : rep.organizational_author_corrections.isEmpty with
  | true =>
    simp only [orgStep, hne, if_true]
    constructor <;> trivial
  | false =>
    have happ : apply_org_authors st.record rep.organizational_author_corrections =
        (0, st.record) := apply_org_authors_noop_rec _ _ h
    simp only [orgStep, hne, Bool.false_eq_true, if_false, happ]
    split
    · rename_i hpos
      exact absurd hpos (by simp)
    · constructor <;> trivial

theorem relStep_noop (rep : Report) (st : ApplyResult)
    (h : ∀ p, rep.corrections.related_identifiers = some p → relPayloadTruthy p = true →
      add_related_identifiers st.record (coerceRel p) = (0, st.record)) :
    (relStep rep st).record = st.record ∧ (relStep rep st).changed = st.changed := by
  rcases hco : rep.corrections.related_identifiers with _ | p
  · simp only [relStep, hco]
    constructor <;> trivial
  cases ht : relPayloadTruthy p with
  | false =>
    simp only [relStep, hco, ht, Bool.false_eq_true, if_false]
    constructor <;> trivial
  | true =>
    simp only [relStep, hco, ht, if_true, h p hco ht]
    split
    · rename_i hpos
      exact absurd hpos (by simp)
    · constructor <;> trivial

/-! ### Facts about the record leaving `apply_corrections` -/

theorem mtd_some_final_title (r : Record) (rep : Report) (c : String)
    (hco : rep.corrections.title = some c) (hg : gateOn rep.title_corrected = true)
    (hc : c ≠ "") : (apply_corrections r rep).record.metadata.isSome = true :=
  relStep_mtdSome rep (orgStep rep (affStep rep (descStep rep (dateStep rep (abstractStep rep (titleStep rep ⟨false, [], [], r⟩)))))) (orgStep_mtdSome rep (affStep rep (descStep rep (dateStep rep (abstractStep rep (titleStep rep ⟨false, [], [], r⟩)))))
    (affStep_mtdSome rep (descStep rep (dateStep rep (abstractStep rep (titleStep rep ⟨false, [], [], r⟩)))) (descStep_mtdSome rep (dateStep rep (abstractStep rep (titleStep rep ⟨false, [], [], r⟩)))
      (dateStep_mtdSome rep (abstractStep rep (titleStep rep ⟨false, [], [], r⟩)) (abstractStep_mtdSome rep (titleStep rep ⟨false, [], [], r⟩)
        (titleStep_sets_mtd rep ⟨false, [], [], r⟩ c hco hg hc))))))

theorem mtd_some_final_abstract (r : Record) (rep : Report) (c : String)
    (hco : rep.corrections.abstract = some c) (hg : gateOn rep.abstract_corrected = true)
    (hc : c ≠ "") : (apply_corrections r rep).record.metadata.isSome = true :=
  relStep_mtdSome rep (orgStep rep (affStep rep (descStep rep (dateStep rep (abstractStep rep (titleStep rep ⟨false, [], [], r⟩)))))) (orgStep_mtdSome rep (affStep rep (descStep rep (dateStep rep (abstractStep rep (titleStep rep ⟨false, [], [], r⟩)))))
    (affStep_mtdSome rep (descStep rep (dateStep rep (abstractStep rep (titleStep rep ⟨false, [], [], r⟩)))) (descStep_mtdSome rep (dateStep rep (abstractStep rep (titleStep rep ⟨false, [], [], r⟩)))
      (dateStep_mtdSome rep (abstractStep rep (titleStep rep ⟨false, [], [], r⟩))
        (abstractStep_sets_mtd rep (titleStep rep ⟨false, [], [], r⟩) c hco hg hc)))))

theorem mtd_some_final_date (r : Record) (rep : Report) (c : String)
    (hco : rep.corrections.publication_date = some c)
    (hg : gateOn rep.date_corrected = true)
    (hc : c ≠ "") : (apply_corrections r rep).record.metadata.isSome = true :=
  relStep_mtdSome rep (orgStep rep (affStep rep (descStep rep (dateStep rep (abstractStep rep (titleStep rep ⟨false, [], [], r⟩)))))) (orgStep_mtdSome rep (affStep rep (descStep rep (dateStep rep (abstractStep rep (titleStep rep ⟨false, [], [], r⟩)))))
    (affStep_mtdSome rep (descStep rep (dateStep rep (abstractStep rep (titleStep rep ⟨false, [], [], r⟩)))) (descStep_mtdSome rep (dateStep rep (abstractStep rep (titleStep rep ⟨false, [], [], r⟩)))
      (dateStep_sets_mtd rep (abstractStep rep (titleStep rep ⟨false, [], [], r⟩)) c hco hg hc))))

/-- The descriptor field of the final record is the output of a run of
the descriptor applier (on the intermediate record). -/
theorem descOf_final (r : Record) (rep : Report) (payload : DelDescriptor)
    (hco : rep.corrections.delete_descriptor = some payload)
    (hg : gateOn rep.descriptor_corrected = true) :
    ∃ x, descOf (apply_corrections r rep).record =
      descOf (apply_descriptor_deletions x (coerceDel payload)).2 := by
  refine ⟨(dateStep rep (abstractStep rep (titleStep rep ⟨false, [], [], r⟩))).record, ?_⟩
  obtain ⟨ta7, hact7, hun7, hcr7, hcf7⟩ := relStep_shape rep (orgStep rep (affStep rep (descStep rep (dateStep rep (abstractStep rep (titleStep rep ⟨false, [], [], r⟩))))))
  obtain ⟨ta6, tu6, hact6, hun6, hmsg6, hcf6, hrel6, haff6⟩ := orgStep_shape rep (affStep rep (descStep rep (dateStep rep (abstractStep rep (titleStep rep ⟨false, [], [], r⟩)))))
  obtain ⟨ta5, tu5, hact5, hun5, hmsg5, hmsg5b, hcf5, hrel5⟩ := affStep_shape rep (descStep rep (dateStep rep (abstractStep rep (titleStep rep ⟨false, [], [], r⟩))))
  have h1 : descOf (apply_corrections r rep).record = descOf (descStep rep (dateStep rep (abstractStep rep (titleStep rep ⟨false, [], [], r⟩)))).record := by
    rw [show apply_corrections r rep = relStep rep (orgStep rep (affStep rep (descStep rep (dateStep rep (abstractStep rep (titleStep rep ⟨false, [], [], r⟩)))))) from rfl]
    rw [descOf_congr hcf7, descOf_congr hcf6, descOf_congr hcf5]
  rw [h1, descStep_applied rep (dateStep rep (abstractStep rep (titleStep rep ⟨false, [], [], r⟩))) payload hco hg]

/-- The final record is itself an output of the related-identifier
applier whenever that block ran. -/
theorem rel_final (r : Record) (rep : Report) (p : RelPayload)
    (hco : rep.corrections.related_identifiers = some p)
    (ht : relPayloadTruthy p = true) :
    ∃ x, (apply_corrections r rep).record =
      (add_related_identifiers x (coerceRel p)).2 :=
  ⟨(orgStep rep (affStep rep (descStep rep (dateStep rep (abstractStep rep (titleStep rep ⟨false, [], [], r⟩)))))).record, relStep_applied rep (orgStep rep (affStep rep (descStep rep (dateStep rep (abstractStep rep (titleStep rep ⟨false, [], [], r⟩)))))) p hco ht⟩

theorem hasAffName_matrix (cs : List Creator) (v : String) :
    hasAffName cs v ↔ ∃ row ∈ cs.map (fun c => c.affiliations.map Affiliation.name),
      ∃ nm ∈ row, nm.getD "" = v := by
  constructor
  · rintro ⟨c, hc, a, ha, hn⟩
    exact ⟨c.affiliations.map Affiliation.name, List.mem_map_of_mem _ hc,
      a.name, List.mem_map_of_mem _ ha, hn⟩
  · rintro ⟨row, hrow, nm, hnm, hn⟩
    obtain ⟨c, hc, rfl⟩ := List.mem_map.1 hrow
    obtain ⟨a, ha, rfl⟩ := List.mem_map.1 hnm
    exact ⟨c, hc, a, ha, hn⟩

theorem hasAffName_congr {x y : Record} (h : affNamesOf x = affNamesOf y) (v : String) :
    hasAffName (creatorsOf x) v ↔ hasAffName (creatorsOf y) v := by
  rw [hasAffName_matrix, hasAffName_matrix]
  rw [show (creatorsOf x).map (fun c => c.affiliations.map Affiliation.name) =
    affNamesOf x from rfl]
  rw [show (creatorsOf y).map (fun c => c.affiliations.map Affiliation.name) =
    affNamesOf y from rfl]
  rw [h]

/-- After a full run with the gate on, no valid affiliation pair still
finds its old name — provided no pair reintroduces another pair's old
name. -/
theorem aff_cleared_final (r : Record) (rep : Report)
    (hcnd : ∀ p ∈ rep.affiliation_corrections, validAff p →
      ∀ q ∈ rep.affiliation_corrections, validAff q →
        p.recommended_affiliation ≠ q.old_affiliation)
    (hg : gateOn rep.affiliation_correction_recommended = true) :
    ∀ q ∈ rep.affiliation_corrections, validAff q →
      ¬ hasAffName (creatorsOf (apply_corrections r rep).record) q.old_affiliation := by
  intro q hq hvq hhas
  obtain ⟨ta7, hact7, hun7, hcr7, hcf7⟩ := relStep_shape rep (orgStep rep (affStep rep (descStep rep (dateStep rep (abstractStep rep (titleStep rep ⟨false, [], [], r⟩))))))
  obtain ⟨ta6, tu6, hact6, hun6, hmsg6, hcf6, hrel6, haff6⟩ := orgStep_shape rep (affStep rep (descStep rep (dateStep rep (abstractStep rep (titleStep rep ⟨false, [], [], r⟩)))))
  rw [show apply_corrections r rep = relStep rep (orgStep rep (affStep rep (descStep rep (dateStep rep (abstractStep rep (titleStep rep ⟨false, [], [], r⟩)))))) from rfl, hcr7] at hhas
  rw [hasAffName_congr haff6 q.old_affiliation] at hhas
  rw [affStep_applied rep (descStep rep (dateStep rep (abstractStep rep (titleStep rep ⟨false, [], [], r⟩)))) hg] at hhas
  exact applyAffPairs_clear _ _ hcnd q hq hvq hhas

/-- After a full run, no valid organizational-author pair still finds
its old name — under the same non-reintroduction condition. -/
theorem org_cleared_final (r : Record) (rep : Report)
    (hcnd : ∀ p ∈ rep.organizational_author_corrections, validOrg p →
      ∀ q ∈ rep.organizational_author_corrections, validOrg q →
        p.recommended_organizational_author ≠ q.old_organizational_author) :
    ∀ q ∈ rep.organizational_author_corrections, validOrg q →
      ¬ hasOrgName (creatorsOf (apply_corrections r rep).record)
        q.old_organizational_author := by
  intro q hq hvq hhas
  have hne : rep.organizational_author_corrections.isEmpty = false := by
    cases hemp : rep.organizational_author_corrections.isEmpty with
    | false => rfl
    | true =>
      exfalso
      have hnil : rep.organizational_author_corrections = [] := by
        simpa [List.isEmpty_iff] using hemp
      rw [hnil] at hq
      cases hq
  obtain ⟨ta7, hact7, hun7, hcr7, hcf7⟩ := relStep_shape rep (orgStep rep (affStep rep (descStep rep (dateStep rep (abstractStep rep (titleStep rep ⟨false, [], [], r⟩))))))
  rw [show apply_corrections r rep = relStep rep (orgStep rep (affStep rep (descStep rep (dateStep rep (abstractStep rep (titleStep rep ⟨false, [], [], r⟩)))))) from rfl, hcr7] at hhas
  rw [orgStep_applied rep (affStep rep (descStep rep (dateStep rep (abstractStep rep (titleStep rep ⟨false, [], [], r⟩))))) hne] at hhas
  exact applyOrgPairs_clear _ _ hcnd q hq hvq hhas

/-- All the per-field no-op conditions together make `apply_corrections`
leave the record alone and report no change. -/
theorem apply_corrections_noop (r1 : Record) (rep : Report)
    (Ht : ∀ c, rep.corrections.title = some c → gateOn rep.title_corrected = true →
      c ≠ "" → titleVal r1 = c ∧ r1.metadata.isSome = true)
    (Ha : ∀ c, rep.corrections.abstract = some c → gateOn rep.abstract_corrected = true →
      c ≠ "" → descrVal r1 = c ∧ r1.metadata.isSome = true)
    (Hd : ∀ c, rep.corrections.publication_date = some c →
      gateOn rep.date_corrected = true → c ≠ "" →
      dateVal r1 = c ∧ r1.metadata.isSome = true)
    (Hdesc : ∀ payload, rep.corrections.delete_descriptor = some payload →
      gateOn rep.descriptor_corrected = true →
      apply_descriptor_deletions r1 (coerceDel payload) = (false, r1))
    (Haff : gateOn rep.affiliation_correction_recommended = true →
      applyAffPairs rep.affiliation_corrections (creatorsOf r1) = (creatorsOf r1, 0))
    (Horg : applyOrgPairs rep.organizational_author_corrections (creatorsOf r1) =
      (creatorsOf r1, 0))
    (Hrel : ∀ p, rep.corrections.related_identifiers = some p →
      relPayloadTruthy p = true →
      add_related_identifiers r1 (coerceRel p) = (0, r1)) :
    (apply_corrections r1 rep).changed = false ∧
    (apply_corrections r1 rep).record = r1 := by
  have h1 := titleStep_noop rep ⟨false, [], [], r1⟩ Ht
  have e1 : (titleStep rep (⟨false, [], [], r1⟩ : ApplyResult)).record = r1 := h1.1
  have h2 := abstractStep_noop rep (titleStep rep ⟨false, [], [], r1⟩)
    (fun c hco hg hc => by rw [e1]; exact Ha c hco hg hc)
  have e2 : (abstractStep rep (titleStep rep ⟨false, [], [], r1⟩)).record = r1 :=
    h2.1.trans e1
  have h3 := dateStep_noop rep (abstractStep rep (titleStep rep ⟨false, [], [], r1⟩))
    (fun c hco hg hc => by rw [e2]; exact Hd c hco hg hc)
  have e3 : (dateStep rep (abstractStep rep (titleStep rep
      ⟨false, [], [], r1⟩))).record = r1 := h3.1.trans e2
  have h4 := descStep_noop rep (dateStep rep (abstractStep rep (titleStep rep
      ⟨false, [], [], r1⟩)))
    (fun payload hco hg => by rw [e3]; exact Hdesc payload hco hg)
  have e4 : (descStep rep (dateStep rep (abstractStep rep (titleStep rep
      ⟨false, [], [], r1⟩)))).record = r1 := h4.1.trans e3
  have h5 := affStep_noop rep (descStep rep (dateStep rep (abstractStep rep (titleStep rep
      ⟨false, [], [], r1⟩)))) (fun hg => by rw [e4]; exact Haff hg)
  have e5 : (affStep rep (descStep rep (dateStep rep (abstractStep rep (titleStep rep
      ⟨false, [], [], r1⟩))))).record = r1 := h5.1.trans e4
  have h6 := orgStep_noop rep (affStep rep (descStep rep (dateStep rep (abstractStep rep
      (titleStep rep ⟨false, [], [], r1⟩))))) (by rw [e5]; exact Horg)
  have e6 : (orgStep rep (affStep rep (descStep rep (dateStep rep (abstractStep rep
      (titleStep rep ⟨false, [], [], r1⟩)))))).record = r1 := h6.1.trans e5
  have h7 := relStep_noop rep (orgStep rep (affStep rep (descStep rep (dateStep rep
      (abstractStep rep (titleStep rep ⟨false, [], [], r1⟩))))))
    (fun p hco ht => by rw [e6]; exact Hrel p hco ht)
  constructor
  · show (relStep rep (orgStep rep (affStep rep (descStep rep (dateStep rep
      (abstractStep rep (titleStep rep ⟨false, [], [], r1⟩))))))).changed = false
    rw [h7.2, h6.2, h5.2, h4.2, h3.2, h2.2, h1.2]
  · show (relStep rep (orgStep rep (affStep rep (descStep rep (dateStep rep
      (abstractStep rep (titleStep rep ⟨false, [], [], r1⟩))))))).record = r1
    exact h7.1.trans e6

/-- A record with one creator affiliated "C", against a report whose
second affiliation pair reintroduces the first pair's old name. -/
def c1Rec : Record :=
  ⟨some ⟨none, none, none, [⟨⟨none, none⟩, [⟨some "C"⟩]⟩], none⟩, none⟩

def c1Rep : Report :=
  {emptyReport with affiliation_corrections := [⟨"A", "B"⟩, ⟨"C", "A"⟩]}

/-- C1 (counterexample): with affiliation pairs [(A→B), (C→A)] and a
creator affiliated "C", the first run rewrites C→A, and the second run
rewrites again (A→B): changed is true and the record mutates further, so
`apply_corrections` is not idempotent for every record and report. -/
theorem spec_c1_counterexample :
    (apply_corrections (apply_corrections c1Rec c1Rep).record c1Rep).changed = true ∧
    affNamesOf (apply_corrections (apply_corrections c1Rec c1Rep).record c1Rep).record =
      [[some "B"]] ∧
    affNamesOf (apply_corrections c1Rec c1Rep).record = [[some "A"]] := by
  decide

/-- C1 (amended): a second run of `apply_corrections` on its own output
with the same report reports no change and leaves the record untouched,
provided no affiliation pair's recommended value equals any (valid)
affiliation pair's old value, and likewise for the organizational-author
pairs. -/
theorem spec_c1_idempotent (r : Record) (rep : Report)
    (haff : ∀ p ∈ rep.affiliation_corrections, validAff p →
      ∀ q ∈ rep.affiliation_corrections, validAff q →
        p.recommended_affiliation ≠ q.old_affiliation)
    (horg : ∀ p ∈ rep.organizational_author_corrections, validOrg p →
      ∀ q ∈ rep.organizational_author_corrections, validOrg q →
        p.recommended_organizational_author ≠ q.old_organizational_author) :
    (apply_corrections (apply_corrections r rep).record rep).changed = false ∧
    (apply_corrections (apply_corrections r rep).record rep).record =
      (apply_corrections r rep).record := by
  apply apply_corrections_noop
  · intro c hco hg hc
    exact ⟨titleVal_final r rep c hco hg hc, mtd_some_final_title r rep c hco hg hc⟩
  · intro c hco hg hc
    exact ⟨descrVal_final r rep c hco hg hc, mtd_some_final_abstract r rep c hco hg hc⟩
  · intro c hco hg hc
    exact ⟨dateVal_final r rep c hco hg hc, mtd_some_final_date r rep c hco hg hc⟩
  · intro payload hco hg
    obtain ⟨x, hx⟩ := descOf_final r rep payload hco hg
    exact apply_desc_replay _ x (coerceDel payload) hx
  · intro hg
    exact applyAffPairs_noop _ _ (fun q hq hv => aff_cleared_final r rep haff hg q hq hv)
  · exact applyOrgPairs_noop _ _ (fun q hq hv => org_cleared_final r rep horg q hq hv)
  · intro p hco ht
    obtain ⟨x, hx⟩ := rel_final r rep p hco ht
    rw [hx]
    exact add_related_second x (coerceRel p)

instance decValidAff (p : AffPair) : Decidable (validAff p) :=
  inferInstanceAs (Decidable (p.old_affiliation ≠ "" ∧ p.recommended_affiliation ≠ ""))

instance decValidOrg (p : OrgPair) : Decidable (validOrg p) :=
  inferInstanceAs (Decidable (p.old_organizational_author ≠ "" ∧
    p.recommended_organizational_author ≠ ""))

def c1WitRep : Report :=
  {emptyReport with corrections := {emptyCorrections with title := some "T"},
                    affiliation_corrections := [⟨"C", "D"⟩]}

theorem spec_c1_idempotent_witness :
    (apply_corrections (apply_corrections c1Rec c1WitRep).record c1WitRep).changed = false ∧
    (apply_corrections (apply_corrections c1Rec c1WitRep).record c1WitRep).record =
      (apply_corrections c1Rec c1WitRep).record :=
  spec_c1_idempotent c1Rec c1WitRep (by decide) (by decide)

/-! ### Relocation facts for the batch driver -/

theorem safe_move_live (fs : FS) (n : String) :
    (safe_move fs true n false).outDir.files.length = fs.outDir.files.length + 1 ∧
    (safe_move fs true n false).dupDir = fs.dupDir ∧
    (safe_move fs true n false).records =
      fs.records.filter (fun p => p.1 ≠ n) ∧
    (safe_move fs true n false).reportWritten = fs.reportWritten := by
  refine ⟨?_, rfl, rfl, rfl⟩
  simp [safe_move, FS.getDest, FS.setDest]

theorem safe_move_dry (fs : FS) (n : String) :
    (safe_move fs true n true).outDir.files = fs.outDir.files ∧
    (safe_move fs true n true).dupDir = fs.dupDir ∧
    (safe_move fs true n true).records = fs.records ∧
    (safe_move fs true n true).reportWritten = fs.reportWritten :=
  ⟨rfl, rfl, rfl, rfl⟩

theorem fold_safe_move_live (names : List String) (fs : FS) :
    ((names.foldl (fun f n => safe_move f true n false) fs).outDir.files.length =
      fs.outDir.files.length + names.length) ∧
    (names.foldl (fun f n => safe_move f true n false) fs).dupDir = fs.dupDir ∧
    (names.foldl (fun f n => safe_move f true n false) fs).records =
      fs.records.filter (fun p => !names.contains p.1) ∧
    (names.foldl (fun f n => safe_move f true n false) fs).reportWritten =
      fs.reportWritten := by
  induction names generalizing fs with
  | nil => simp
  | cons n ns ih =>
    obtain ⟨ihl, ihd, ihr, ihw⟩ := ih (safe_move fs true n false)
    refine ⟨?_, ?_, ?_, ?_⟩
    · simp only [List.foldl_cons]
      rw [ihl, (safe_move_live fs n).1, List.length_cons]
      omega
    · simp only [List.foldl_cons]
      rw [ihd, (safe_move_live fs n).2.1]
    · simp only [List.foldl_cons]
      rw [ihr, (safe_move_live fs n).2.2.1, List.filter_filter]
      apply List.filter_congr
      intro p _
      simp [List.contains_cons, Bool.not_or, decide_not, Bool.and_comm]
    · simp only [List.foldl_cons]
      rw [ihw, (safe_move_live fs n).2.2.2]

theorem fold_safe_move_dry (names : List String) (fs : FS) :
    (names.foldl (fun f n => safe_move f true n true) fs).outDir.files =
      fs.outDir.files ∧
    (names.foldl (fun f n => safe_move f true n true) fs).dupDir = fs.dupDir ∧
    (names.foldl (fun f n => safe_move f true n true) fs).records = fs.records ∧
    (names.foldl (fun f n => safe_move f true n true) fs).reportWritten =
      fs.reportWritten := by
  induction names generalizing fs with
  | nil => exact ⟨rfl, rfl, rfl, rfl⟩
  | cons n ns ih =>
    obtain ⟨ihf, ihd, ihr, ihw⟩ := ih (safe_move fs true n true)
    exact ⟨ihf.trans (safe_move_dry fs n).1, ihd.trans (safe_move_dry fs n).2.1,
      ihr.trans (safe_move_dry fs n).2.2.1, ihw.trans (safe_move_dry fs n).2.2.2⟩

theorem save_json_frame (fs : FS) (name : String) (r : Record) (dry : Bool) :
    (save_json fs name r dry).records.map (fun p => p.1) =
      fs.records.map (fun p => p.1) ∧
    (save_json fs name r dry).outDir = fs.outDir ∧
    (save_json fs name r dry).dupDir = fs.dupDir ∧
    (save_json fs name r dry).reportWritten = fs.reportWritten := by
  rw [save_json]
  split
  · exact ⟨rfl, rfl, rfl, rfl⟩
  · refine ⟨?_, rfl, rfl, rfl⟩
    rw [List.map_map]
    apply List.map_congr_left
    intro p _
    simp only [Function.comp_apply]
    split
    · rename_i h
      exact h.symm
    · rfl

/-- C5: with both the out-of-scope predicate and the duplicate predicate
true, the driver increments moved_out (not moved_dup), relocates every
glob-matched record file into the out-of-scope folder, leaves the
duplicate folder completely untouched, and logs "Moved to <out>". -/
theorem spec_c5_out_of_scope_precedence (cfg : DirNames) (dry : Bool) (key : String)
    (rep : Report) (repPath : String) (st : RunState) (record : Record)
    (hlook : st.fs.records.lookup (recordFileName key) = some (some record))
    (hout : should_move_out_of_scope rep = true)
    (hdup : should_move_duplicate rep = true) :
    (processKey cfg dry key rep repPath st).stats.moved_out = st.stats.moved_out + 1 ∧
    (processKey cfg dry key rep repPath st).stats.moved_dup = st.stats.moved_dup ∧
    (processKey cfg dry key rep repPath st).fs.dupDir = st.fs.dupDir ∧
    (∃ e, (processKey cfg dry key rep repPath st).entries = st.entries ++ [e] ∧
      e.actions = (apply_corrections record rep).actions ++
        ["Moved to " ++ cfg.outName]) ∧
    (dry = false →
      (processKey cfg dry key rep repPath st).fs.outDir.files.length =
        st.fs.outDir.files.length +
          (st.fs.records.map (fun p => p.1)).countP (globMatch key) ∧
      ∀ p ∈ (processKey cfg dry key rep repPath st).fs.records,
        globMatch key p.1 = false) := by
  simp only [processKey, hlook, hout, hdup, Bool.or_self, if_true]
  have hne : ¬ (((apply_corrections record rep).actions ++
      ["Moved to " ++ cfg.outName]).isEmpty = true) := by
    simp
  rw [if_neg hne]
  have hfs1 : ((if (apply_corrections record rep).changed then
        save_json st.fs (recordFileName key) (apply_corrections record rep).record dry
      else st.fs)).records.map (fun p => p.1) = st.fs.records.map (fun p => p.1) ∧
      ((if (apply_corrections record rep).changed then
        save_json st.fs (recordFileName key) (apply_corrections record rep).record dry
      else st.fs)).outDir = st.fs.outDir ∧
      ((if (apply_corrections record rep).changed then
        save_json st.fs (recordFileName key) (apply_corrections record rep).record dry
      else st.fs)).dupDir = st.fs.dupDir := by
    split
    · exact ⟨(save_json_frame st.fs _ _ dry).1, (save_json_frame st.fs _ _ dry).2.1,
        (save_json_frame st.fs _ _ dry).2.2.1⟩
    · exact ⟨rfl, rfl, rfl⟩
  refine ⟨?_, ?_, ?_, ?_, ?_⟩
  · split
    · rfl
    · rfl
  · split
    · rfl
    · rfl
  · cases dry with
    | true =>
      exact (fold_safe_move_dry _ _).2.1.trans hfs1.2.2
    | false =>
      exact (fold_safe_move_live _ _).2.1.trans hfs1.2.2
  · exact ⟨_, rfl, rfl⟩
  · intro hdry
    subst hdry
    constructor
    · rw [(fold_safe_move_live _ _).1, hfs1.2.1]
      congr 1
      rw [List.length_map, ← List.countP_eq_length_filter, ← hfs1.1, List.countP_map]
      rfl
    · intro p hp
      rw [(fold_safe_move_live _ _).2.2.1] at hp
      rw [List.mem_filter] at hp
      obtain ⟨hpm, hpc⟩ := hp
      by_contra hg
      rw [Bool.not_eq_false] at hg
      have hmem : p.1 ∈ (((if (apply_corrections record rep).changed then
          save_json st.fs (recordFileName key) (apply_corrections record rep).record false
        else st.fs)).records.filter (fun q => globMatch key q.1)).map (fun q => q.1) :=
        List.mem_map_of_mem _ (List.mem_filter.2 ⟨hpm, hg⟩)
      exact absurd hmem (by simpa using hpc)

def c5Cfg : DirNames := ⟨"recs", "out_of_scope", "duplicates"⟩

def c5Rep : Report :=
  {emptyReport with scope_ok := some (.bool false),
                    duplicate_by_title := some (.bool true)}

def c5Rec : Record := ⟨none, none⟩

def c5St : RunState :=
  ⟨⟨[("K.json", some c5Rec)], ⟨false, []⟩, ⟨false, []⟩, false⟩, zeroStats, []⟩

theorem spec_c5_out_of_scope_precedence_witness :
    (c5St.fs.records.lookup (recordFileName "K") = some (some c5Rec) ∧
      should_move_out_of_scope c5Rep = true ∧ should_move_duplicate c5Rep = true) ∧
    ((processKey c5Cfg false "K" c5Rep "K-report.json" c5St).stats.moved_out =
        c5St.stats.moved_out + 1 ∧
      (processKey c5Cfg false "K" c5Rep "K-report.json" c5St).stats.moved_dup =
        c5St.stats.moved_dup ∧
      (processKey c5Cfg false "K" c5Rep "K-report.json" c5St).fs.dupDir =
        c5St.fs.dupDir ∧
      (∃ e, (processKey c5Cfg false "K" c5Rep "K-report.json" c5St).entries =
          c5St.entries ++ [e] ∧
        e.actions = (apply_corrections c5Rec c5Rep).actions ++
          ["Moved to " ++ c5Cfg.outName]) ∧
      (false = false →
        (processKey c5Cfg false "K" c5Rep "K-report.json" c5St).fs.outDir.files.length =
          c5St.fs.outDir.files.length +
            (c5St.fs.records.map (fun p => p.1)).countP (globMatch "K") ∧
        ∀ p ∈ (processKey c5Cfg false "K" c5Rep "K-report.json" c5St).fs.records,
          globMatch "K" p.1 = false)) :=
  ⟨⟨rfl, by decide, by decide⟩,
    spec_c5_out_of_scope_precedence c5Cfg false "K" c5Rep "K-report.json" c5St c5Rec
      rfl (by decide) (by decide)⟩

/-! ### Lookup preservation lemmas for the dry-run analysis -/

theorem lookup_filter_name {β : Type} (l : List (String × β)) (q : String → Bool)
    (n : String) (hq : q n = true) :
    (l.filter (fun p => q p.1)).lookup n = l.lookup n := by
  induction l with
  | nil => rfl
  | cons p t ih =>
    obtain ⟨k, b⟩ := p
    by_cases hp : q k = true
    · rw [show List.filter (fun p => q p.1) ((k, b) :: t) =
        (k, b) :: List.filter (fun p => q p.1) t from List.filter_cons_of_pos hp]
      simp only [List.lookup]
      split
      · rfl
      · exact ih
    · rw [show List.filter (fun p => q p.1) ((k, b) :: t) =
        List.filter (fun p => q p.1) t from List.filter_cons_of_neg (by simpa using hp)]
      have hne : (n == k) = false := by
        rw [beq_eq_false_iff_ne]
        intro he
        exact hp (he ▸ hq)
      simp only [List.lookup, hne]
      exact ih

theorem lookup_map_upd {β : Type} (l : List (String × β)) (name : String) (v : β)
    (n : String) (hne : n ≠ name) :
    (l.map (fun p => if p.1 = name then (name, v) else p)).lookup n = l.lookup n := by
  induction l with
  | nil => rfl
  | cons p t ih =>
    obtain ⟨k, b⟩ := p
    simp only [List.map_cons]
    by_cases hp : k = name
    · rw [if_pos hp]
      have h1 : (n == name) = false := by
        rw [beq_eq_false_iff_ne]
        exact hne
      have h2 : (n == k) = false := by
        rw [beq_eq_false_iff_ne]
        rw [hp]
        exact hne
      simp only [List.lookup, h1, h2]
      exact ih
    · rw [if_neg hp]
      simp only [List.lookup]
      split
      · rfl
      · exact ih

theorem isPrefixOf_append_self (l t : List Char) : l.isPrefixOf (l ++ t) = true := by
  induction l with
  | nil => simp [List.isPrefixOf]
  | cons a as ih => simp [List.isPrefixOf, ih]

theorem globMatch_self (k : String) : globMatch k (recordFileName k) = true := by
  rw [globMatch, recordFileName]
  have h : (k ++ ".json").toList = (k.toList ++ ['.']) ++ ['j', 's', 'o', 'n'] := by
    show (k ++ ".json").data = (k.data ++ ['.']) ++ ['j', 's', 'o', 'n']
    rw [String.data_append]
    simp
  rw [h]
  exact isPrefixOf_append_self _ _

theorem recordFileName_ne_of_glob {k0 k : String}
    (h : globMatch k0 (recordFileName k) = false) :
    recordFileName k ≠ recordFileName k0 := by
  intro he
  rw [he] at h
  rw [globMatch_self k0] at h
  cases h

theorem safe_move_records (fs : FS) (b : Bool) (n : String) (d : Bool) :
    (safe_move fs b n d).records =
      if d then fs.records else fs.records.filter (fun p => p.1 ≠ n) := by
  cases b with
  | true => cases d with
    | true => rfl
    | false => rfl
  | false => cases d with
    | true => rfl
    | false => rfl

theorem fold_safe_move_lookup (names : List String) (fs : FS) (b d : Bool)
    (n : String) (hn : ∀ nm ∈ names, n ≠ nm) :
    (names.foldl (fun f nm => safe_move f b nm d) fs).records.lookup n =
      fs.records.lookup n := by
  induction names generalizing fs with
  | nil => rfl
  | cons nm ns ih =>
    simp only [List.foldl_cons]
    rw [ih _ (fun x hx => hn x (List.mem_cons_of_mem nm hx))]
    rw [safe_move_records]
    split
    · rfl
    · exact lookup_filter_name fs.records (fun x => decide (x ≠ nm)) n
        (by simp [hn nm (List.mem_cons_self nm ns)])

theorem globbed_mem {key : String} {l : List (String × Option Record)} {n : String}
    (h : n ∈ (l.filter (fun p => globMatch key p.1)).map (fun p => p.1)) :
    globMatch key n = true := by
  obtain ⟨p, hp, rfl⟩ := List.mem_map.1 h
  have := List.of_mem_filter hp
  simpa using this

/-- Processing one key never disturbs the record-directory entry of a
name outside the key's glob. -/
theorem processKey_lookup_pres (cfg : DirNames) (dry : Bool) (key : String)
    (rep : Report) (rp : String) (st : RunState) (n : String)
    (hg : globMatch key n = false) (hne : n ≠ recordFileName key) :
    (processKey cfg dry key rep rp st).fs.records.lookup n =
      st.fs.records.lookup n := by
  rcases hlk : st.fs.records.lookup (recordFileName key) with _ | orec
  · simp only [processKey, hlk]
  rcases orec with _ | record
  · simp only [processKey, hlk]
  simp only [processKey, hlk]
  have hfs1 : ((if (apply_corrections record rep).changed then
      save_json st.fs (recordFileName key) (apply_corrections record rep).record dry
      else st.fs)).records.lookup n = st.fs.records.lookup n := by
    split
    · rw [save_json]
      split
      · rfl
      · exact lookup_map_upd st.fs.records (recordFileName key) _ n hne
    · rfl
  split
  · rw [fold_safe_move_lookup]
    · exact hfs1
    · intro nm hnm
      intro he
      subst he
      rw [globbed_mem hnm] at hg
      cases hg
  · exact hfs1

theorem fold_safe_move_dry_any (names : List String) (fs : FS) (b : Bool) :
    ((names.foldl (fun f n => safe_move f b n true) fs).records = fs.records) ∧
    (names.foldl (fun f n => safe_move f b n true) fs).outDir.files = fs.outDir.files ∧
    (names.foldl (fun f n => safe_move f b n true) fs).dupDir.files = fs.dupDir.files ∧
    (names.foldl (fun f n => safe_move f b n true) fs).reportWritten =
      fs.reportWritten := by
  induction names generalizing fs with
  | nil => exact ⟨rfl, rfl, rfl, rfl⟩
  | cons nm ns ih =>
    obtain ⟨i1, i2, i3, i4⟩ := ih (safe_move fs b nm true)
    have s1 : (safe_move fs b nm true).records = fs.records := by cases b <;> rfl
    have s2 : (safe_move fs b nm true).outDir.files = fs.outDir.files := by
      cases b <;> rfl
    have s3 : (safe_move fs b nm true).dupDir.files = fs.dupDir.files := by
      cases b <;> rfl
    have s4 : (safe_move fs b nm true).reportWritten = fs.reportWritten := by
      cases b <;> rfl
    exact ⟨i1.trans s1, i2.trans s2, i3.trans s3, i4.trans s4⟩

/-- Dry-run processing of one key leaves all file listings untouched. -/
theorem processKey_dry_fs (cfg : DirNames) (key : String) (rep : Report)
    (rp : String) (st : RunState) :
    (processKey cfg true key rep rp st).fs.records = st.fs.records ∧
    (processKey cfg true key rep rp st).fs.outDir.files = st.fs.outDir.files ∧
    (processKey cfg true key rep rp st).fs.dupDir.files = st.fs.dupDir.files ∧
    (processKey cfg true key rep rp st).fs.reportWritten = st.fs.reportWritten := by
  rcases hlk : st.fs.records.lookup (recordFileName key) with _ | orec
  · simp only [processKey, hlk]
    refine ⟨?_, ?_, ?_, ?_⟩ <;> trivial
  rcases orec with _ | record
  · simp only [processKey, hlk]
    refine ⟨?_, ?_, ?_, ?_⟩ <;> trivial
  simp only [processKey, hlk]
  have hfs1 : ((if (apply_corrections record rep).changed then
      save_json st.fs (recordFileName key) (apply_corrections record rep).record true
      else st.fs)) = st.fs := by
    split
    · rfl
    · rfl
  rw [hfs1]
  split
  · exact ⟨(fold_safe_move_dry_any _ _ _).1, (fold_safe_move_dry_any _ _ _).2.1,
      (fold_safe_move_dry_any _ _ _).2.2.1, (fold_safe_move_dry_any _ _ _).2.2.2⟩
  · refine ⟨?_, ?_, ?_, ?_⟩ <;> trivial

/-- The counters and narrative entries a key contributes depend only on
the looked-up record content and the report, never on the dry flag or the
rest of the filesystem. -/
theorem processKey_congr (cfg : DirNames) (d1 d2 : Bool) (key : String) (rep : Report)
    (rp : String) (st1 st2 : RunState)
    (hlk : st1.fs.records.lookup (recordFileName key) =
      st2.fs.records.lookup (recordFileName key))
    (hs : st1.stats = st2.stats) (he : st1.entries = st2.entries) :
    (processKey cfg d1 key rep rp st1).stats = (processKey cfg d2 key rep rp st2).stats ∧
    (processKey cfg d1 key rep rp st1).entries =
      (processKey cfg d2 key rep rp st2).entries := by
  rcases hv : st2.fs.records.lookup (recordFileName key) with _ | orec
  · rw [hv] at hlk
    simp only [processKey, hlk, hv, hs, he]
    constructor <;> trivial
  rcases orec with _ | record
  · rw [hv] at hlk
    simp only [processKey, hlk, hv]
    exact ⟨hs, he⟩
  rw [hv] at hlk
  simp only [processKey, hlk, hv, hs, he]
  by_cases hmo : (should_move_out_of_scope rep || should_move_duplicate rep) = true
  · rw [if_pos hmo, if_pos hmo]
    constructor <;> trivial
  · rw [if_neg hmo, if_neg hmo]
    constructor <;> trivial

theorem upsert_nodup (m : List (String × Report × String)) (k : String)
    (v : Report × String) (hm : (m.map (fun p => p.1)).Nodup) :
    ((upsert m k v).map (fun p => p.1)).Nodup := by
  rw [upsert]
  split
  · rename_i hany
    have hkeys : (m.map (fun p => if p.1 = k then (k, v) else p)).map (fun p => p.1) =
        m.map (fun p => p.1) := by
      rw [List.map_map]
      apply List.map_congr_left
      intro p _
      simp only [Function.comp_apply]
      split
      · rename_i h
        exact h.symm
      · rfl
    rw [hkeys]
    exact hm
  · rename_i hany
    rw [List.map_append]
    have hk : k ∉ m.map (fun p => p.1) := by
      intro hmem
      apply hany
      obtain ⟨p, hp, he⟩ := List.mem_map.1 hmem
      exact List.any_eq_true.2 ⟨p, hp, by simp [he]⟩
    simp [List.nodup_append, hm, hk]

theorem buildMap_nodup (files : List ReportFile) :
    ((buildMap files).map (fun p => p.1)).Nodup := by
  rw [buildMap]
  suffices h : ∀ (m : List (String × Report × String)), (m.map (fun p => p.1)).Nodup →
      ((files.foldl
        (fun m f =>
          match f.data with
          | none => m
          | some rep =>
            let k := report_key f.stem rep
            if k = "" then m else upsert m k (rep, f.path))
        m).map (fun p => p.1)).Nodup by
    exact h [] (by simp)
  induction files with
  | nil =>
    intro m hm
    exact hm
  | cons f fs ih =>
    intro m hm
    simp only [List.foldl_cons]
    apply ih
    rcases hd : f.data with _ | rep
    · simpa [hd] using hm
    · simp only [hd]
      by_cases hk : report_key f.stem rep = ""
      · simpa [hk] using hm
      · simp only [hk, if_neg hk]
        exact upsert_nodup m _ _ hm

theorem processFold_dry_fs (cfg : DirNames) (m : List (String × Report × String)) :
    ∀ (s : RunState),
    ((m.foldl (fun s e => processKey cfg true e.1 e.2.1 e.2.2 s) s).fs.records =
      s.fs.records) ∧
    (m.foldl (fun s e => processKey cfg true e.1 e.2.1 e.2.2 s) s).fs.outDir.files =
      s.fs.outDir.files ∧
    (m.foldl (fun s e => processKey cfg true e.1 e.2.1 e.2.2 s) s).fs.dupDir.files =
      s.fs.dupDir.files := by
  induction m with
  | nil =>
    intro s
    exact ⟨rfl, rfl, rfl⟩
  | cons e rest ih =>
    intro s
    simp only [List.foldl_cons]
    obtain ⟨i1, i2, i3⟩ := ih (processKey cfg true e.1 e.2.1 e.2.2 s)
    obtain ⟨p1, p2, p3, _⟩ := processKey_dry_fs cfg e.1 e.2.1 e.2.2 s
    exact ⟨i1.trans p1, i2.trans p2, i3.trans p3⟩

theorem processFold_equiv (cfg : DirNames) (m : List (String × Report × String)) :
    ∀ (sd sl : RunState),
    (m.map (fun p => p.1)).Nodup →
    (∀ k1 ∈ m.map (fun p => p.1), ∀ k2 ∈ m.map (fun p => p.1), k1 ≠ k2 →
      globMatch k1 (recordFileName k2) = false) →
    sd.stats = sl.stats → sd.entries = sl.entries →
    (∀ k ∈ m.map (fun p => p.1),
      sd.fs.records.lookup (recordFileName k) =
        sl.fs.records.lookup (recordFileName k)) →
    (m.foldl (fun s e => processKey cfg true e.1 e.2.1 e.2.2 s) sd).stats =
      (m.foldl (fun s e => processKey cfg false e.1 e.2.1 e.2.2 s) sl).stats ∧
    (m.foldl (fun s e => processKey cfg true e.1 e.2.1 e.2.2 s) sd).entries =
      (m.foldl (fun s e => processKey cfg false e.1 e.2.1 e.2.2 s) sl).entries := by
  induction m with
  | nil =>
    intro sd sl _ _ hs he _
    exact ⟨hs, he⟩
  | cons e rest ih =>
    intro sd sl hnd H hs he hlk
    simp only [List.map_cons] at hnd
    have hcongr := processKey_congr cfg true false e.1 e.2.1 e.2.2 sd sl
      (hlk e.1 (by simp)) hs he
    simp only [List.foldl_cons]
    apply ih
    · exact hnd.of_cons
    · intro k1 h1 k2 h2 hne
      exact H k1 (by simp only [List.map_cons]; exact List.mem_cons_of_mem _ h1)
        k2 (by simp only [List.map_cons]; exact List.mem_cons_of_mem _ h2) hne
    · exact hcongr.1
    · exact hcongr.2
    · intro k hk
      have hke : k ≠ e.1 := by
        intro hx
        exact (List.nodup_cons.1 hnd).1 (hx ▸ hk)
      have hglob : globMatch e.1 (recordFileName k) = false :=
        H e.1 (by simp) k (by simp only [List.map_cons]; exact List.mem_cons_of_mem _ hk)
          (fun hx => hke hx.symm)
      calc (processKey cfg true e.1 e.2.1 e.2.2 sd).fs.records.lookup (recordFileName k)
          = sd.fs.records.lookup (recordFileName k) := by
            rw [(processKey_dry_fs cfg e.1 e.2.1 e.2.2 sd).1]
        _ = sl.fs.records.lookup (recordFileName k) := hlk k (by
            simp only [List.map_cons]
            exact List.mem_cons_of_mem _ hk)
        _ = (processKey cfg false e.1 e.2.1 e.2.2 sl).fs.records.lookup
              (recordFileName k) :=
            (processKey_lookup_pres cfg false e.1 e.2.1 e.2.2 sl _ hglob
              (recordFileName_ne_of_glob hglob)).symm

/-- C3 (amended): a dry run and a live run over the same snapshot produce
identical counters and identical per-key narrative entries, provided no
report key's relocation glob `{key}.*` captures another report key's
record file; and the dry run leaves every file listing (record directory
and both quarantine folders) unchanged — though it still creates
quarantine directories and writes the Markdown report. -/
theorem spec_c3_dry_run_equiv (cfg : DirNames) (fs0 : FS) (files : List ReportFile)
    (H : ∀ k1 ∈ (buildMap files).map (fun p => p.1),
         ∀ k2 ∈ (buildMap files).map (fun p => p.1), k1 ≠ k2 →
           globMatch k1 (recordFileName k2) = false) :
    (processRun cfg true fs0 files).stats = (processRun cfg false fs0 files).stats ∧
    (processRun cfg true fs0 files).entries = (processRun cfg false fs0 files).entries ∧
    (processRun cfg true fs0 files).fs.records = fs0.records ∧
    (processRun cfg true fs0 files).fs.outDir.files = fs0.outDir.files ∧
    (processRun cfg true fs0 files).fs.dupDir.files = fs0.dupDir.files := by
  by_cases hemp : files.isEmpty = true
  · rw [processRun, if_pos hemp, processRun, if_pos hemp]
    exact ⟨rfl, rfl, rfl, rfl, rfl⟩
  · rw [processRun, if_neg hemp, processRun, if_neg hemp]
    have hfold := processFold_equiv cfg (buildMap files) ⟨fs0, zeroStats, []⟩
      ⟨fs0, zeroStats, []⟩ (buildMap_nodup files) H rfl rfl (fun k _ => rfl)
    have hdry := processFold_dry_fs cfg (buildMap files) ⟨fs0, zeroStats, []⟩
    exact ⟨hfold.1, hfold.2, hdry.1, hdry.2.1, hdry.2.2⟩

def c3Cfg : DirNames := ⟨"recs", "out_of_scope", "duplicates"⟩

def c3Fs : FS :=
  ⟨[("A.json", some ⟨none, none⟩), ("A.B.json", some ⟨none, none⟩)],
    ⟨false, []⟩, ⟨false, []⟩, false⟩

def c3Files : List ReportFile :=
  [⟨"qa/A-report.json", "A-report",
      some {emptyReport with scope_ok := some (.bool false)}⟩,
   ⟨"qa/A.B-report.json", "A.B-report", some emptyReport⟩]

/-- C3 (counterexample): with record files "A.json" and "A.B.json" and an
out-of-scope report for key "A", the live run's relocation glob `A.*`
also captures "A.B.json", so the later key "A.B" finds its record missing
while the dry run still processes it — the aggregate counts differ. The
dry run also mutates the filesystem snapshot: it creates the out-of-scope
directory and writes the Markdown report. -/
theorem spec_c3_counterexample :
    (processRun c3Cfg true c3Fs c3Files).stats ≠
      (processRun c3Cfg false c3Fs c3Files).stats ∧
    (processRun c3Cfg true c3Fs c3Files).stats.processed = 2 ∧
    (processRun c3Cfg false c3Fs c3Files).stats.processed = 1 ∧
    (processRun c3Cfg false c3Fs c3Files).stats.missing = 1 ∧
    (processRun c3Cfg true c3Fs c3Files).fs.outDir.created = true ∧
    (processRun c3Cfg true c3Fs c3Files).fs.reportWritten = true ∧
    c3Fs.outDir.created = false ∧ c3Fs.reportWritten = false := by
  decide

def c3GoodFs : FS :=
  ⟨[("A.json", some ⟨none, none⟩), ("B.json", some ⟨none, none⟩)],
    ⟨false, []⟩, ⟨false, []⟩, false⟩

def c3GoodFiles : List ReportFile :=
  [⟨"qa/A-report.json", "A-report",
      some {emptyReport with scope_ok := some (.bool false)}⟩,
   ⟨"qa/B-report.json", "B-report", some emptyReport⟩]

theorem spec_c3_dry_run_equiv_witness :
    (∀ k1 ∈ (buildMap c3GoodFiles).map (fun p => p.1),
     ∀ k2 ∈ (buildMap c3GoodFiles).map (fun p => p.1), k1 ≠ k2 →
       globMatch k1 (recordFileName k2) = false) ∧
    ((processRun c3Cfg true c3GoodFs c3GoodFiles).stats =
        (processRun c3Cfg false c3GoodFs c3GoodFiles).stats ∧
      (processRun c3Cfg true c3GoodFs c3GoodFiles).entries =
        (processRun c3Cfg false c3GoodFs c3GoodFiles).entries ∧
      (processRun c3Cfg true c3GoodFs c3GoodFiles).fs.records = c3GoodFs.records ∧
      (processRun c3Cfg true c3GoodFs c3GoodFiles).fs.outDir.files =
        c3GoodFs.outDir.files ∧
      (processRun c3Cfg true c3GoodFs c3GoodFiles).fs.dupDir.files =
        c3GoodFs.dupDir.files) :=
  ⟨by decide, spec_c3_dry_run_equiv c3Cfg c3GoodFs c3GoodFiles (by decide)⟩
end LAC
